import Mathlib

/-!
network-sec-sim: topology generation, route precomputation, packet simulation

A shallow embedding of `src/net.cpp`.  Nodes are identified by their `ID`
(`0 .. networkSize-1`); a `Node*` is the id of the node it points to and `NULL`
is `none`.  Every per-node field of `class Node` becomes a function from ids to
values, updated pointwise.  Each call of `rand()` consumes the head of an
explicit list of draws; running out of draws, or out of loop fuel, is reported
as `Res.timeout`, and dereferencing `NULL` as `Res.fault`.
-/

namespace NetSim

/-- Outcome of a piece of the program: a value, a null-pointer dereference,
loop fuel / random draws exhausted before the code finished, or the
"reached a sink node (no outlet)" exit of line 322-323. -/
inductive Res (α : Type) where
  | done (a : α) : Res α
  | fault : Res α
  | timeout : Res α
  | fatal : Res α
  deriving DecidableEq, Repr

/-- Pointwise update of a per-node field. -/
def upd {α : Type} (f : Nat → α) (i : Nat) (v : α) : Nat → α :=
  fun j => if j = i then v else f j

/-- The fields of all `Node` objects plus the locals of `main` that survive a
generation attempt. -/
structure Net where
  connections : Nat → List Nat
  checked : Nat → Bool
  efficientNeighbor : Nat → Option Nat
  possibleTargets : List Nat
  Bad : Option Nat

/-- State after node creation (lines 136-149): `efficientNeighbor = NULL`. -/
def Net.init : Net :=
  { connections := fun _ => [], checked := fun _ => false, efficientNeighbor := fun _ => none,
    possibleTargets := [], Bad := none }

/-- `Node::isAConnection` (lines 24-31), scanning from the last index down. -/
def isAConnection (conn : Nat → List Nat) (a target : Nat) : Bool :=
  (conn a).reverse.any (fun c => decide (target = c))

/-- The inner `do ... while (tryAgain)` of lines 168-178: two draws per round. -/
def pickEdge (N : Nat) (conn : Nat → List Nat) : List Nat → Option (Nat × Nat × List Nat)
  | r1 :: r2 :: rest =>
    if r1 % N = r2 % N ∨ isAConnection conn (r1 % N) (r2 % N) = true then
      pickEdge N conn rest
    else some (r1 % N, r2 % N, rest)
  | _ => none

/-- Lines 180-181: forward and backward connection. -/
def connect (conn : Nat → List Nat) (f t : Nat) : Nat → List Nat :=
  let c1 := upd conn f (conn f ++ [t])
  upd c1 t (c1 t ++ [f])

/-- The `connectionCounter` loop of lines 163-182. -/
def addEdges (N : Nat) :
    Nat → (Nat → List Nat) → List Nat → Option ((Nat → List Nat) × List Nat)
  | 0, conn, ds => some (conn, ds)
  | k + 1, conn, ds =>
    match pickEdge N conn ds with
    | none => none
    | some (f, t, rest) => addEdges N k (connect conn f t) rest

/-- Line 162 with `networkSparseness = 6` (int arithmetic, exact while
`networkSize * networkSize` does not overflow). -/
def connectionsToMake (N : Nat) : Nat := (N * N - N) / 2 / 6

/-- Lines 183-188: does some node have no connection? -/
def hasZeroDegree (N : Nat) (conn : Nat → List Nat) : Bool :=
  (List.range N).reverse.any (fun v => decide ((conn v).length = 0))

/-- One iteration of the pruning loop (lines 197-199 / 205-207) at index `cidx`:
erase-remove `s` from the neighbour's list, then erase entry `cidx` of `s`. -/
def pruneStep (s : Nat) (conn : Nat → List Nat) (cidx : Nat) : Nat → List Nat :=
  let nb := (conn s).getD cidx 0
  let c1 := upd conn nb ((conn nb).filter (fun x => decide (x ≠ s)))
  upd c1 s ((c1 s).eraseIdx cidx)

/-- The loop `for (cidx = size-1; cidx >= 1; --cidx)`; the first argument is the
current `cidx`. -/
def pruneLoop (s : Nat) : Nat → (Nat → List Nat) → (Nat → List Nat)
  | 0, conn => conn
  | k + 1, conn => pruneLoop s k (pruneStep s conn (k + 1))

/-- Lines 195-201 (for `Start`) and 203-209 (for `End`). -/
def prune (s : Nat) (conn : Nat → List Nat) : Nat → List Nat :=
  if (conn s).length > 1 then pruneLoop s ((conn s).length - 1) conn else conn

/-- The `for` loop of `canGetToEnd` (lines 43-46) over the connections still to
try, `f` being the recursive call. -/
def tryEach (f : (Nat → Bool) → Nat → Option (Bool × (Nat → Bool))) :
    (Nat → Bool) → List Nat → Option (Bool × (Nat → Bool))
  | checked, [] => some (false, checked)
  | checked, w :: ws =>
    match f checked w with
    | none => none
    | some (true, c) => some (true, c)
    | some (false, c) => tryEach f c ws

/-- `Node::canGetToEnd` (lines 36-49) with a bound on the recursion depth;
`none` means the bound was hit.  Returns the answer and the `checked` flags. -/
def canGetToEnd (conn : Nat → List Nat) (End : Nat) :
    Nat → (Nat → Bool) → Nat → Option (Bool × (Nat → Bool))
  | 0, _, _ => none
  | fuel + 1, checked, v =>
    if checked v = true then some (false, checked)
    else if v = End then some (true, checked)
    else
      match tryEach (canGetToEnd conn End fuel) (upd checked v true) (conn v).reverse with
      | none => none
      | some (true, c) => some (true, c)
      | some (false, c) => some (false, upd c v false)

/-- State of the route precomputation: forwarding targets, flags, queue. -/
structure Bfs where
  efficientNeighbor : Nat → Option Nat
  checked : Nat → Bool
  q : List Nat

/-- Lines 229-230 after the flag reset of lines 215-217: the queue holds `End`,
all flags are clear, the forwarding targets are those in `eff`. -/
def Bfs.start (eff : Nat → Option Nat) (End : Nat) : Bfs :=
  { efficientNeighbor := eff, checked := fun _ => false, q := [End] }

/-- The `for` loop of lines 237-243 for the dequeued node `n`, over its
connections from the last index down. -/
def bfsVisit (n : Nat) : List Nat → Bfs → Bfs
  | [], s => s
  | w :: ws, s =>
    let s1 : Bfs :=
      if s.efficientNeighbor w = none then
        { s with efficientNeighbor := upd s.efficientNeighbor w (some n), q := s.q ++ [w] }
      else s
    bfsVisit n ws { s1 with checked := upd s1.checked n true }

/-- The `while (q.size() > 0)` loop of lines 232-255 with an iteration bound. -/
def bfs (conn : Nat → List Nat) : Nat → Bfs → Option Bfs
  | fuel, s =>
    match s.q with
    | [] => some s
    | n :: t =>
      match fuel with
      | 0 => none
      | fuel + 1 =>
        if s.checked n = true then bfs conn fuel { s with q := t }
        else bfs conn fuel (bfsVisit n (conn n).reverse { s with q := t })

/-- Lines 264-269: follow forwarding targets from `node` until `End`, pushing
each node visited; `node` is `none` for a null pointer, whose dereference is
the fault.  The first argument bounds the number of iterations. -/
def reconstruct (eff : Nat → Option Nat) (End : Nat) :
    Nat → Option Nat → List Nat → Res (List Nat)
  | 0, _, _ => Res.timeout
  | fuel + 1, node, acc =>
    if node = some End then Res.done acc
    else
      match node with
      | none => Res.fault
      | some v => reconstruct eff End fuel (eff v) (acc ++ [v])

/-- Lines 156-209 of one generation attempt: reset, edge insertion, the
zero-degree check, then the pruning of `Start = nodes[0]` and
`End = nodes[N-1]`.  Returns `badNetwork` so far, the adjacency and the unused
draws; `none` when the draws run out. -/
def wire (N : Nat) (ds : List Nat) : Option (Bool × (Nat → List Nat) × List Nat) :=
  match addEdges N (connectionsToMake N) (fun _ => []) ds with
  | none => none
  | some (c0, ds1) => some (hasZeroDegree N c0, prune (N - 1) (prune 0 c0), ds1)

/-- One pass through the body of the generation `do ... while (badNetwork)`
(lines 154-276).  Returns the final `badNetwork`, the state and the unused
draws.  `fuel` bounds each inner loop. -/
def attempt (N fuel : Nat) (st : Net) (ds : List Nat) : Res (Bool × Net × List Nat) :=
  match wire N ds with
  | none => Res.timeout
  | some (bad0, c1, ds1) =>
    match canGetToEnd c1 (N - 1) fuel (fun _ => false) 0 with
    | none => Res.timeout
    | some (r, _) =>
      let bad1 := bad0 || !r
      let st1 : Net := { st with connections := c1, checked := fun _ => false }
      if (c1 0).length = 0 then Res.done (true, st1, ds1)
      else if (c1 (N - 1)).length = 0 then Res.done (true, st1, ds1)
      else
        match bfs c1 fuel (Bfs.start st.efficientNeighbor (N - 1)) with
        | none => Res.timeout
        | some b =>
          match reconstruct b.efficientNeighbor (N - 1) fuel (c1 0).head? [] with
          | Res.fault => Res.fault
          | Res.timeout => Res.timeout
          | Res.fatal => Res.fatal
          | Res.done pt =>
            let st2 : Net :=
              { st1 with
                efficientNeighbor := b.efficientNeighbor, checked := b.checked,
                possibleTargets := pt }
            if pt.length ≤ 2 then Res.done (true, st2, ds1)
            else
              match ds1 with
              | [] => Res.timeout
              | r :: ds2 =>
                Res.done (bad1, { st2 with Bad := pt.get? (r % (pt.length - 2) + 1) }, ds2)

/-- The generation loop of lines 153-277; the first argument bounds the number
of attempts. -/
def generate (N fuel : Nat) : Nat → Net → List Nat → Res (Net × List Nat)
  | 0, _, _ => Res.timeout
  | k + 1, st, ds =>
    match attempt N fuel st ds with
    | Res.fault => Res.fault
    | Res.timeout => Res.timeout
    | Res.fatal => Res.fatal
    | Res.done (true, st1, ds1) => generate N fuel k st1 ds1
    | Res.done (false, st1, ds1) => Res.done (st1, ds1)

/-! ### Specification vocabulary -/

/-- The value of a finished computation satisfies `P`. -/
def Res.holds {α : Type} (r : Res α) (P : α → Prop) : Prop :=
  match r with
  | Res.done a => P a
  | _ => False

instance Res.decidableHolds {α : Type} (r : Res α) (P : α → Prop) [DecidablePred P] :
    Decidable (r.holds P) :=
  match r with
  | Res.done a => inferInstanceAs (Decidable (P a))
  | Res.fault => isFalse (fun h => h)
  | Res.timeout => isFalse (fun h => h)
  | Res.fatal => isFalse (fun h => h)

/-- The value of a finished computation, `d` when there is none. -/
def Res.get {α : Type} (r : Res α) (d : α) : α :=
  match r with
  | Res.done a => a
  | _ => d

/-- The computation dereferenced a null pointer. -/
def Res.isFault {α : Type} : Res α → Bool
  | Res.fault => true
  | _ => false

/-- The computation took the "reached a sink node" exit. -/
def Res.isFatal {α : Type} : Res α → Bool
  | Res.fatal => true
  | _ => false

/-- `b` is reachable from `a` through some finite sequence of adjacencies. -/
def Reachable (conn : Nat → List Nat) (a b : Nat) : Prop :=
  Relation.ReflTransGen (fun x y => y ∈ conn x) a b

/-- There is a walk of exactly `k` adjacency hops from `v` to `target`. -/
def hasWalk (conn : Nat → List Nat) (target : Nat) : Nat → Nat → Bool
  | 0, v => decide (v = target)
  | k + 1, v => (conn v).any (fun w => hasWalk conn target k w)

/-- The shortest-path hop distance from `v` to `target` is `k`. -/
def IsDist (conn : Nat → List Nat) (target v k : Nat) : Prop :=
  hasWalk conn target k v = true ∧ ∀ j, j < k → hasWalk conn target j v = false

instance IsDist.decidable (conn : Nat → List Nat) (target v k : Nat) :
    Decidable (IsDist conn target v k) :=
  inferInstanceAs (Decidable (_ ∧ _))

/-- Mutable state of the simulation: the packet queues, the interception
counter and the unused random draws. -/
structure Sim where
  packets : Nat → List Int
  badCounter : Nat
  draws : List Nat

/-- Lines 301-305 and 326-330: a token at 0 becomes 1, any other token moves
one unit away from 0 (`x + x / abs(x)`, C++ truncating division). -/
def advance (x : Int) : Int :=
  if x = 0 then x + 1 else x + Int.tdiv x (Int.ofNat x.natAbs)

/-- Rounding to the nearest integer, a tie going to the even one. -/
def roundHalfEven (x : ℚ) : Int :=
  if x - ⌊x⌋ < 1 / 2 then ⌊x⌋
  else if 1 / 2 < x - ⌊x⌋ then ⌊x⌋ + 1
  else if ⌊x⌋ % 2 = 0 then ⌊x⌋ else ⌊x⌋ + 1

/-- The `float` (IEEE binary32, round to nearest, ties to even) nearest to the
non-negative rational `q`: for `2 ^ e ≤ q < 2 ^ (e + 1)` the 24-bit significand
`q / 2 ^ (e - 23)` is rounded to an integer.  The exponent is not bounded: the
values met at line 312, the conversion of an `int` and the quotient of two such
conversions, neither overflow nor reach the subnormal range. -/
def roundFloat (q : ℚ) : ℚ :=
  if q ≤ 0 then 0
  else (roundHalfEven (q / 2 ^ (Int.log 2 q - 23)) : ℚ) * 2 ^ (Int.log 2 q - 23)

/-- The test of line 312, `(float)rand()/(float)RAND_MAX < randomnessProbability`:
both conversions and the division are rounded to `float`; `p` is the value of
the `float` variable `randomnessProbability`.  With `RAND_MAX = 0` the quotient
would be a NaN or infinite and the comparison false. -/
def routingTest (RAND_MAX : Nat) (p : ℚ) (r : Nat) : Bool :=
  decide (0 < RAND_MAX ∧ roundFloat (roundFloat r / roundFloat RAND_MAX) < p)

/-- `packets.push_back(x)` on node `dest`. -/
def pushPacket (packets : Nat → List Int) (dest : Nat) (x : Int) : Nat → List Int :=
  upd packets dest (packets dest ++ [x])

/-- The packet loop of lines 294-336 at node `v` and tick `t`, over the tokens
not yet examined.  `processed` is `packetsProcessedThisNode`; `kept` collects,
in order, the examined tokens that are not in `packetsToRemove`, with the
values the loop wrote to them.  `route r` is the outcome of the test of line
312 for the draw `r`. -/
def packetLoop (nt : Net) (route : Nat → Bool) (v t : Nat) :
    List Int → Nat → List Int → Sim → Res (List Int × Sim)
  | [], _, kept, s => Res.done (kept, s)
  | x :: xs, processed, kept, s =>
    if x.natAbs = t then
      if processed < 1 then
        if (nt.connections v).length ≠ 0 then
          let x1 := advance x
          let hit : Bool := decide (nt.Bad = some v ∧ x1 ≥ 0)
          let x2 := if hit then x1 * -1 else x1
          let bc := if hit then s.badCounter + 1 else s.badCounter
          match s.draws with
          | [] => Res.timeout
          | r :: ds =>
            if route r = true then
              match ds with
              | [] => Res.timeout
              | r2 :: ds2 =>
                let dest := (nt.connections v).getD (r2 % (nt.connections v).length) 0
                packetLoop nt route v t xs (processed + 1) kept
                  { packets := pushPacket s.packets dest x2, badCounter := bc, draws := ds2 }
            else
              match nt.efficientNeighbor v with
              | none => Res.fault
              | some dest =>
                packetLoop nt route v t xs (processed + 1) kept
                  { packets := pushPacket s.packets dest x2, badCounter := bc, draws := ds }
        else Res.fatal
      else packetLoop nt route v t xs processed (kept ++ [advance x]) s
    else packetLoop nt route v t xs processed (kept ++ [x]) s

/-- Lines 290-340 for `nodeIdx = v`: run the packet loop on the queue of `v`
and erase the forwarded entry.  Tokens appended to the queue of `v` itself
during the loop come after the `n` entries it started with and are not due, so
they stay behind the kept ones. -/
def processNode (nt : Net) (route : Nat → Bool) (N t v : Nat) (s : Sim) : Res Sim :=
  if v ≠ N - 1 ∧ (s.packets v).length ≠ 0 then
    match packetLoop nt route v t (s.packets v) 0 [] s with
    | Res.done (kept, s1) =>
      Res.done { s1 with
        packets := upd s1.packets v (kept ++ (s1.packets v).drop (s.packets v).length) }
    | Res.fault => Res.fault
    | Res.timeout => Res.timeout
    | Res.fatal => Res.fatal
  else Res.done s

/-- The node loop of line 288, `nodeIdx` running from `k - 1` down to `0`. -/
def sweep (nt : Net) (route : Nat → Bool) (N t : Nat) : Nat → Sim → Res Sim
  | 0, s => Res.done s
  | k + 1, s =>
    match processNode nt route N t k s with
    | Res.done s1 => sweep nt route N t k s1
    | Res.fault => Res.fault
    | Res.timeout => Res.timeout
    | Res.fatal => Res.fatal

/-- The main time loop of lines 287-356; the first argument bounds the number
of ticks, `P` is `packetsInTheNetwork`.  Returns the final `time` and state. -/
def simLoop (nt : Net) (route : Nat → Bool) (N P : Nat) : Nat → Nat → Sim → Res (Nat × Sim)
  | 0, _, _ => Res.timeout
  | fuel + 1, t, s =>
    match sweep nt route N t N s with
    | Res.done s1 =>
      if (s1.packets (N - 1)).length ≠ P then simLoop nt route N P fuel (t + 1) s1
      else Res.done (t + 1, s1)
    | Res.fault => Res.fault
    | Res.timeout => Res.timeout
    | Res.fatal => Res.fatal

/-- Lines 281-285: `P` tokens of value `time = 0` at `Start`, no interception. -/
def Sim.start (P : Nat) (ds : List Nat) : Sim :=
  { packets := upd (fun _ => []) 0 (List.replicate P 0), badCounter := 0, draws := ds }

/-- Lines 280-356 on the topology `nt`: final tick count and interception count. -/
def simulate (nt : Net) (route : Nat → Bool) (N P fuel : Nat) (ds : List Nat) :
    Res (Nat × Nat) :=
  match simLoop nt route N P fuel 0 (Sim.start P ds) with
  | Res.done (t, s) => Res.done (t, s.badCounter)
  | Res.fault => Res.fault
  | Res.timeout => Res.timeout
  | Res.fatal => Res.fatal

/-- The core of `main`: generate a topology, then simulate on it with the draws
that are left.  Returns the accepted state, the tick count and the
interception count. -/
def run (N P RAND_MAX : Nat) (p : ℚ) (fuel attempts : Nat) (ds : List Nat) :
    Res (Net × Nat × Nat) :=
  match generate N fuel attempts Net.init ds with
  | Res.done (nt, ds1) =>
    match simulate nt (routingTest RAND_MAX p) N P fuel ds1 with
    | Res.done (t, bc) => Res.done (nt, t, bc)
    | Res.fault => Res.fault
    | Res.timeout => Res.timeout
    | Res.fatal => Res.fatal
  | Res.fault => Res.fault
  | Res.timeout => Res.timeout
  | Res.fatal => Res.fatal

/-! ### Concrete draw sequences -/

/-- Draws for two attempts on 10 nodes.  Attempt 1 wires 0-1-2-3-4-9, 5-6, 5-7
(node 8 stays unconnected) and draws the surveillance index; attempt 2 wires
0-1-3-4-9, 2-5, 6-7, 8-5 and draws the surveillance index. -/
def drawsStaleChain : List Nat :=
  [0, 1, 1, 2, 2, 3, 3, 4, 4, 9, 5, 6, 5, 7, 0,
   0, 1, 1, 3, 3, 4, 4, 9, 2, 5, 6, 7, 8, 5, 0]

/-- Draws for one attempt on 10 nodes: edges 0-1, 0-4, 1-2, 2-3, 3-9, 5-6, 7-8,
then the surveillance index. -/
def drawsLeafPruned : List Nat :=
  [0, 1, 0, 4, 1, 2, 2, 3, 3, 9, 5, 6, 7, 8, 0]

/-- Draws for one attempt on 10 nodes: edges 0-1, 9-8, 2-3, 4-5, 6-7, 2-4, 3-5,
so that `Start` and `End` lie in different components. -/
def drawsDisconnected : List Nat :=
  [0, 1, 9, 8, 2, 3, 4, 5, 6, 7, 2, 4, 3, 5]

/-- Draws for two attempts on 10 nodes and two routing tests.  Attempt 1 wires
0-1, 1-9, 2-3, 4-5, 6-7, 8-2, 3-4 (path too short); attempt 2 wires 0-2-3-4-9,
1-5, 6-7, 8-5 and draws the surveillance index. -/
def drawsStaleStart : List Nat :=
  [0, 1, 1, 9, 2, 3, 4, 5, 6, 7, 8, 2, 3, 4,
   0, 2, 2, 3, 3, 4, 4, 9, 1, 5, 6, 7, 8, 5, 0,
   5, 5]

/-- Draws for two attempts on 10 nodes and one routing test.  Attempt 1 is that
of `drawsStaleStart`; attempt 2 wires 0-2, 0-1, 2-3, 3-4, 4-9, 5-6, 7-8, so the
pruning of `Start` removes the only connection of node 1. -/
def drawsStaleSink : List Nat :=
  [0, 1, 1, 9, 2, 3, 4, 5, 6, 7, 8, 2, 3, 4,
   0, 2, 0, 1, 2, 3, 3, 4, 4, 9, 5, 6, 7, 8, 0,
   5]

/-! ### Invariants -/

/-- No node lists itself. -/
def NoSelf (c : Nat → List Nat) : Prop := ∀ v, v ∉ c v

/-- There is an adjacency path from `v` to `End` none of whose nodes, `v` and
`End` included, is flagged in `chk`. -/
inductive AvoidPath (conn : Nat → List Nat) (End : Nat) (chk : Nat → Bool) : Nat → Prop where
  | base : chk End = false → AvoidPath conn End chk End
  | step {v w : Nat} : chk v = false → w ∈ conn v → AvoidPath conn End chk w →
      AvoidPath conn End chk v

/-- Number of nodes among `0 .. N-1` whose flag is clear. -/
def unchecked (N : Nat) (chk : Nat → Bool) : Nat :=
  ((Finset.range N).filter (fun v => chk v = false)).card

/-! ### Example graphs -/

/-- A triangle 0-1-2 with a tail 2-3. -/
def triangleTail : Nat → List Nat
  | 0 => [1, 2]
  | 1 => [0, 2]
  | 2 => [0, 1, 3]
  | 3 => [2]
  | _ => []

/-- Number of nodes among `0 .. N-1` without a forwarding target. -/
def nullCount (N : Nat) (eff : Nat → Option Nat) : Nat :=
  ((Finset.range N).filter (fun v => eff v = none)).card

/-- A node the route precomputation has discovered: `End`, or a node that has a
forwarding target. -/
def Discovered (End : Nat) (s : Bfs) (v : Nat) : Prop := v = End ∨ s.efficientNeighbor v ≠ none

/-- Loop invariant of the route precomputation on the adjacency `conn`. -/
structure BfsInv (conn : Nat → List Nat) (End : Nat) (s : Bfs) : Prop where
  target : ∀ v u, v ≠ End → s.efficientNeighbor v = some u →
    u ∈ conn v ∧ ∃ k, IsDist conn End u k ∧ IsDist conn End v (k + 1)
  pending : ∀ v, Discovered End s v → s.checked v = true ∨ v ∈ s.q
  closed : ∀ v, s.checked v = true → ∀ w, w ∈ conn v → Discovered End s w
  queued : ∀ v, v ∈ s.q → Discovered End s v
  sorted : s.q.Pairwise (fun a b => s.checked a = false → s.checked b = false →
    ∀ ka kb, IsDist conn End a ka → IsDist conn End b kb → ka ≤ kb)
  span : ∀ a, a ∈ s.q → ∀ b, b ∈ s.q → s.checked a = false → s.checked b = false →
    ∀ ka kb, IsDist conn End a ka → IsDist conn End b kb → kb ≤ ka + 1
  below : ∀ a, a ∈ s.q → s.checked a = false → ∀ ka, IsDist conn End a ka →
    ∀ v kv, IsDist conn End v kv → kv < ka → Discovered End s v

/-- A path 0-1-2-3 with a chord 1-3 and an isolated node 4, symmetric. -/
def chordPath : Nat → List Nat
  | 0 => [1]
  | 1 => [0, 2, 3]
  | 2 => [1, 3]
  | 3 => [2, 1]
  | _ => []

/-! ### Simulation vocabulary -/

/-- What the packet loop writes to an examined token that it does not forward
(lines 325-331): a due token is advanced, any other token is left as it is. -/
def age (t : Nat) (y : Int) : Int := if y.natAbs = t then advance y else y

/-- Lines 301-311: the value with which the admitted token `x` leaves node `v`:
advanced, and negated when `v` is the surveillance node and the advanced value
is not negative. -/
def forwardedValue (nt : Net) (v : Nat) (x : Int) : Int :=
  if nt.Bad = some v ∧ advance x ≥ 0 then advance x * -1 else advance x

/-- The state after `k` consecutive sweeps of the time loop, for the ticks
`t, t + 1, ..., t + k - 1` (the exit test of line 356 aside). -/
def sweeps (nt : Net) (route : Nat → Bool) (N : Nat) : Nat → Nat → Sim → Res Sim
  | 0, _, s => Res.done s
  | k + 1, t, s =>
    match sweep nt route N t N s with
    | Res.done s1 => sweeps nt route N k (t + 1) s1
    | Res.fault => Res.fault
    | Res.timeout => Res.timeout
    | Res.fatal => Res.fatal

/-- The security percentage of line 364,
`(packetsInTheNetwork - badCounter) * 100 / packetsInTheNetwork`, in exact
arithmetic. -/
def securityPercent (P bc : Nat) : ℚ :=
  (((P : Int) - (bc : Int) : Int) : ℚ) * 100 / (P : ℚ)

/-- Number of negative (captured) tokens in a queue. -/
def negCount (l : List Int) : Nat := l.countP (fun x => decide (x < 0))

/-- The values `g` of the queues add up to `n`: beyond some node id every queue
is empty, and the sum of `g` over the queues below it is `n`. -/
def QueueSum (g : List Int → Nat) (packets : Nat → List Int) (n : Nat) : Prop :=
  ∃ M, (∀ v, M ≤ v → packets v = []) ∧ ∑ v in Finset.range M, g (packets v) = n

/-- The queues hold `P` tokens in total. -/
def TokensTotal (packets : Nat → List Int) (P : Nat) : Prop :=
  QueueSum List.length packets P

/-- The queues hold `n` negative tokens in total. -/
def NegTotal (packets : Nat → List Int) (n : Nat) : Prop :=
  QueueSum negCount packets n

/-- Every token queued at a node other than the sink `N - 1` has absolute value
`t`. -/
def AllAt (N : Nat) (packets : Nat → List Int) (t : Nat) : Prop :=
  ∀ v, v < N → v ≠ N - 1 → ∀ x, x ∈ packets v → x.natAbs = t

/-- How the admitted token leaves node `v`: the draws consumed and the
destination chosen by lines 312-319. -/
def Routed (nt : Net) (route : Nat → Bool) (v : Nat) (draws draws1 : List Nat) (dest : Nat) :
    Prop :=
  ∃ r ds, draws = r :: ds ∧
    ((route r = true ∧ ∃ r2, ds = r2 :: draws1 ∧
        dest = (nt.connections v).getD (r2 % (nt.connections v).length) 0) ∨
      (route r = false ∧ draws1 = ds ∧ nt.efficientNeighbor v = some dest))

/-- Invariant inside the sweep of tick `t`, the nodes `k, k + 1, ...` having been
processed: their tokens have absolute value `t + 1`, those of the other nodes
`t` or `t + 1` (the sink `N - 1` aside). -/
def MidSweep (N t k : Nat) (packets : Nat → List Int) : Prop :=
  ∀ v, v < N → v ≠ N - 1 → ∀ x, x ∈ packets v →
    (k ≤ v → x.natAbs = t + 1) ∧ (v < k → x.natAbs = t ∨ x.natAbs = t + 1)

/-- The topology accepted in the first attempt on 10 nodes with the draws
`drawsLeafPruned`: the path 0-1-2-3-9, surveillance node 2. -/
def acceptedLine : Net := ((generate 10 11 1 Net.init drawsLeafPruned).get (Net.init, [])).1

/-- The adjacency is a simple undirected graph: listing is mutual, no node
lists itself, no list repeats a neighbour. -/
def Simple (c : Nat → List Nat) : Prop :=
  (∀ v w, w ∈ c v → v ∈ c w) ∧ NoSelf c ∧ ∀ v, (c v).Nodup

/-- Lines 270-274 on the reconstructed sequence `pt`: with two entries or fewer
the attempt is marked bad and the surveillance node stays as it was, otherwise
the next draw picks an entry; `none` when no draw is left. -/
def chooseSurveillance (pt : List Nat) (bad : Bool) (Bad : Option Nat) (ds : List Nat) :
    Option (Bool × Option Nat × List Nat) :=
  if pt.length ≤ 2 then some (true, Bad, ds)
  else
    match ds with
    | [] => none
    | r :: ds2 => some (bad, pt.get? (r % (pt.length - 2) + 1), ds2)

/-- The node reached from `v` after `i` hops along forwarding targets; `none`
when a target on the way is unset. -/
def follow (eff : Nat → Option Nat) (v : Nat) : Nat → Option Nat
  | 0 => some v
  | i + 1 => (follow eff v i).bind eff

/-- Following forwarding targets from `v`, `End` is first reached after `d`
hops. -/
def FirstReaches (eff : Nat → Option Nat) (End v d : Nat) : Prop :=
  follow eff v d = some End ∧ ∀ i, i < d → follow eff v i ≠ some End

/-- Number of tokens of a queue that are due in tick `t`. -/
def dueCount (t : Nat) (l : List Int) : Nat := l.countP (fun x => decide (x.natAbs = t))

/-- The forwarding chain `c 0 = Start, c 1, ..., c d = End` of the topology `nt`
on `N` nodes: distinct non-sink nodes before `End`, each with a connection and
with the next one as forwarding target. -/
structure Chain (nt : Net) (N : Nat) (c : Nat → Nat) (d : Nat) : Prop where
  pos : 1 ≤ d
  start : c 0 = 0
  sink : c d = N - 1
  lt : ∀ i, i < d → c i < N
  ne : ∀ i, i < d → c i ≠ N - 1
  next : ∀ i, i < d → nt.efficientNeighbor (c i) = some (c (i + 1))
  conn : ∀ i, i < d → (nt.connections (c i)).length ≠ 0
  inj : ∀ i j, i < d → j < d → c i = c j → i = j

/-- State inside the sweep of tick `t` on a forwarding chain, the nodes
`k, k + 1, ...` having been processed.  At the start of the tick the chain node
`c i` held `n i` tokens and `End` held `e`; `D` draws are kept in reserve. -/
structure PipeMid (N : Nat) (c : Nat → Nat) (d t : Nat) (n : Nat → Nat) (e D k : Nat)
    (s : Sim) : Prop where
  abs : MidSweep N t k s.packets
  len : ∀ i, i < d →
    (s.packets (c i)).length + (if k ≤ c i ∧ 1 ≤ n i then 1 else 0) =
      n i + (if 1 ≤ i ∧ k ≤ c (i - 1) ∧ 1 ≤ n (i - 1) then 1 else 0)
  due : ∀ i, i < d → c i < k → dueCount t (s.packets (c i)) = n i
  sink : (s.packets (N - 1)).length = e + (if k ≤ c (d - 1) ∧ 1 ≤ n (d - 1) then 1 else 0)
  off : ∀ v, v < N → v ≠ N - 1 → (∀ i, i < d → v ≠ c i) → s.packets v = []
  draws : D + k ≤ s.draws.length

/-- Number of tokens at chain position `i` at the start of tick `t`, when `P`
tokens started at position 0 and one is released per tick. -/
def nPipe (P i t : Nat) : Nat :=
  if i = 0 then P - t else if i ≤ t ∧ t < i + P then 1 else 0

/-- Number of tokens that have reached `End`, `d` hops away, by the start of
tick `t`. -/
def ePipe (P d t : Nat) : Nat := min P (t + 1 - d)

/-- State at the start of tick `t` of the pipeline on a forwarding chain. -/
structure PipeTick (N : Nat) (c : Nat → Nat) (d P t : Nat) (s : Sim) : Prop where
  abs : AllAt N s.packets t
  len : ∀ i, i < d → (s.packets (c i)).length = nPipe P i t
  sink : (s.packets (N - 1)).length = ePipe P d t
  off : ∀ v, v < N → v ≠ N - 1 → (∀ i, i < d → v ≠ c i) → s.packets v = []

instance FirstReaches.decidable (eff : Nat → Option Nat) (End v d : Nat) :
    Decidable (FirstReaches eff End v d) :=
  inferInstanceAs (Decidable (_ ∧ _))

/-- The topology accepted in the second attempt on 10 nodes with the draws
`drawsStaleSink`. -/
def acceptedStaleSink : Net :=
  ((generate 10 11 2 Net.init drawsStaleSink).get (Net.init, [])).1

/-- State inside the sweep of tick `t` of a run with a single token that
bounces between the nodes 0 and 1: the token sits at `a`, either still due at a
node not yet processed, or already advanced; all draws left are 0. -/
def Bouncing (t k : Nat) (s : Sim) : Prop :=
  ∃ a x m, (a = 0 ∨ a = 1) ∧ s.packets = upd (fun _ => []) a [x] ∧
    s.draws = List.replicate m 0 ∧ ((x.natAbs = t ∧ a < k) ∨ x.natAbs = t + 1)

/-! ### Basic facts about the embedding -/

@[simp] theorem upd_same {α : Type} (f : Nat → α) (i : Nat) (v : α) : upd f i v i = v := by
  simp [upd]

theorem upd_other {α : Type} (f : Nat → α) {i j : Nat} (v : α) (h : j ≠ i) :
    upd f i v j = f j := by
  simp [upd, h]

theorem pickEdge_ne {N : Nat} {c : Nat → List Nat} :
    ∀ (n : Nat) (ds : List Nat), ds.length ≤ n → ∀ {f t : Nat} {rest : List Nat},
      pickEdge N c ds = some (f, t, rest) → f ≠ t := by
  intro n
  induction n with
  | zero =>
    intro ds hds f t rest h
    cases ds with
    | nil => simp [pickEdge] at h
    | cons a l => simp at hds
  | succ n ih =>
    intro ds hds f t rest h
    match ds, hds, h with
    | [], _, h => simp [pickEdge] at h
    | [_], _, h => simp [pickEdge] at h
    | r1 :: r2 :: l, hds, h =>
      rw [pickEdge] at h
      split at h
      · exact ih l (by simp at hds; omega) h
      · rename_i hne
        simp only [Option.some.injEq, Prod.mk.injEq] at h
        obtain ⟨h1, h2, _⟩ := h
        subst h1 h2
        exact fun e => hne (Or.inl e)

theorem connect_noSelf {c : Nat → List Nat} {f t : Nat} (h : NoSelf c) (hft : f ≠ t) :
    NoSelf (connect c f t) := by
  intro v hv
  have hc := h v
  unfold connect at hv
  by_cases h1 : v = t
  · rw [h1, upd_same, upd_other _ _ (Ne.symm hft), List.mem_append, List.mem_singleton] at hv
    rcases hv with hv | hv
    · exact hc (h1 ▸ hv)
    · exact hft hv.symm
  · rw [upd_other _ _ h1] at hv
    by_cases h2 : v = f
    · rw [h2, upd_same, List.mem_append, List.mem_singleton] at hv
      rcases hv with hv | hv
      · exact hc (h2 ▸ hv)
      · exact h1 (h2.trans hv)
    · rw [upd_other _ _ h2] at hv
      exact hc hv

theorem addEdges_noSelf {N : Nat} :
    ∀ (k : Nat) (c : Nat → List Nat) (ds : List Nat) {c1 : Nat → List Nat} {ds1 : List Nat},
      NoSelf c → addEdges N k c ds = some (c1, ds1) → NoSelf c1 := by
  intro k
  induction k with
  | zero =>
    intro c ds c1 ds1 hc h
    simp only [addEdges, Option.some.injEq, Prod.mk.injEq] at h
    exact h.1 ▸ hc
  | succ k ih =>
    intro c ds c1 ds1 hc h
    rw [addEdges] at h
    split at h
    · simp at h
    · rename_i f t rest hp
      exact ih _ _ (connect_noSelf hc (pickEdge_ne _ ds le_rfl hp)) h

theorem pruneStep_sublist (s : Nat) (c : Nat → List Nat) (i v : Nat) :
    (pruneStep s c i v).Sublist (c v) := by
  have hf : ∀ u, (upd c ((c s).getD i 0)
      (((c ((c s).getD i 0)).filter (fun x => decide (x ≠ s)))) u).Sublist (c u) := by
    intro u
    by_cases hu : u = (c s).getD i 0
    · subst hu
      rw [upd_same]
      exact List.filter_sublist _
    · rw [upd_other _ _ hu]
  unfold pruneStep
  by_cases hv : v = s
  · subst hv
    simp only [upd_same]
    exact (List.eraseIdx_sublist _ _).trans (hf v)
  · simp only [upd_other _ _ hv]
    exact hf v

theorem pruneLoop_sublist (s : Nat) :
    ∀ (k : Nat) (c : Nat → List Nat) (v : Nat), (pruneLoop s k c v).Sublist (c v) := by
  intro k
  induction k with
  | zero => intro c v; exact List.Sublist.refl _
  | succ k ih =>
    intro c v
    rw [pruneLoop]
    exact (ih _ v).trans (pruneStep_sublist s c (k + 1) v)

theorem prune_sublist (s : Nat) (c : Nat → List Nat) (v : Nat) :
    (prune s c v).Sublist (c v) := by
  unfold prune
  split
  · exact pruneLoop_sublist s _ c v
  · exact List.Sublist.refl _

theorem NoSelf.of_sublist {c c1 : Nat → List Nat} (h : NoSelf c)
    (hs : ∀ v, (c1 v).Sublist (c v)) : NoSelf c1 :=
  fun v hv => h v ((hs v).subset hv)

theorem pruneStep_length {s : Nat} {c : Nat → List Nat} {k : Nat} (h : NoSelf c)
    (hl : (c s).length = k + 2) : (pruneStep s c (k + 1) s).length = k + 1 := by
  have hmem : (c s).getD (k + 1) 0 ∈ c s := by
    rw [List.getD_eq_getElem _ _ (by omega)]
    exact List.getElem_mem _
  have hne : s ≠ (c s).getD (k + 1) 0 := fun e => h s (by rw [← e] at hmem; exact hmem)
  unfold pruneStep
  simp only [upd_same, upd_other _ _ hne]
  rw [List.length_eraseIdx]
  simp [hl]

theorem pruneLoop_length {s : Nat} :
    ∀ (k : Nat) (c : Nat → List Nat), NoSelf c → (c s).length = k + 1 →
      (pruneLoop s k c s).length = 1 := by
  intro k
  induction k with
  | zero => intro c _ hl; simpa [pruneLoop] using hl
  | succ k ih =>
    intro c hc hl
    rw [pruneLoop]
    exact ih _ (hc.of_sublist (pruneStep_sublist s c (k + 1))) (pruneStep_length hc hl)

theorem prune_length_le_one {s : Nat} {c : Nat → List Nat} (h : NoSelf c) :
    (prune s c s).length ≤ 1 := by
  unfold prune
  split
  · rename_i hgt
    exact le_of_eq (pruneLoop_length _ c h (by omega))
  · omega

theorem wire_degree_le_one {N : Nat} {ds ds1 : List Nat} {bad : Bool} {c : Nat → List Nat}
    (h : wire N ds = some (bad, c, ds1)) : (c 0).length ≤ 1 ∧ (c (N - 1)).length ≤ 1 := by
  unfold wire at h
  split at h
  · simp at h
  · rename_i c0 ds0 ha
    simp only [Option.some.injEq, Prod.mk.injEq] at h
    obtain ⟨-, hc, -⟩ := h
    subst hc
    have h0 : NoSelf c0 := addEdges_noSelf _ _ _ (fun v => by simp) ha
    have h1 : NoSelf (prune 0 c0) := h0.of_sublist (prune_sublist 0 c0)
    exact ⟨le_trans ((prune_sublist (N - 1) _ 0).length_le) (prune_length_le_one h0),
      prune_length_le_one h1⟩

/-! ### The reachability check -/

theorem AvoidPath.clear {conn : Nat → List Nat} {End : Nat} {chk : Nat → Bool} {v : Nat}
    (h : AvoidPath conn End chk v) : chk v = false := by
  cases h with
  | base h => exact h
  | step h _ _ => exact h

theorem AvoidPath.mono {conn : Nat → List Nat} {End : Nat} {chk chk1 : Nat → Bool} {v : Nat}
    (hm : ∀ u, chk1 u = false → chk u = false) (h : AvoidPath conn End chk1 v) :
    AvoidPath conn End chk v := by
  induction h with
  | base h => exact AvoidPath.base (hm _ h)
  | step h hw _ ih => exact AvoidPath.step (hm _ h) hw ih

theorem AvoidPath.reachable {conn : Nat → List Nat} {End : Nat} {chk : Nat → Bool} {v : Nat}
    (h : AvoidPath conn End chk v) : Reachable conn v End := by
  induction h with
  | base _ => exact Relation.ReflTransGen.refl
  | step _ hw _ ih => exact Relation.ReflTransGen.head hw ih

theorem AvoidPath.of_reachable {conn : Nat → List Nat} {End v : Nat}
    (h : Reachable conn v End) : AvoidPath conn End (fun _ => false) v := by
  induction h using Relation.ReflTransGen.head_induction_on with
  | refl => exact AvoidPath.base rfl
  | head hw _ ih => exact AvoidPath.step rfl hw ih

/-- A path from `u` either misses `v`, or its part after the last visit of `v`
starts at a connection of `v`. -/
theorem AvoidPath.split {conn : Nat → List Nat} {End : Nat} {chk : Nat → Bool} {u : Nat}
    (v : Nat) (hv : v ≠ End) (h : AvoidPath conn End chk u) :
    AvoidPath conn End (upd chk v true) u ∨
      ∃ w, w ∈ conn v ∧ AvoidPath conn End (upd chk v true) w := by
  induction h with
  | base h =>
    exact Or.inl (AvoidPath.base (by rw [upd_other _ _ (Ne.symm hv)]; exact h))
  | @step x w hx hw _ ih =>
    rcases ih with ih | ih
    · by_cases hxv : x = v
      · exact Or.inr ⟨w, hxv ▸ hw, ih⟩
      · exact Or.inl (AvoidPath.step (by rw [upd_other _ _ hxv]; exact hx) hw ih)
    · exact Or.inr ih

theorem avoidPath_iff_connection {conn : Nat → List Nat} {End : Nat} {chk : Nat → Bool}
    {v : Nat} (hv : v ≠ End) (hc : chk v = false) :
    AvoidPath conn End chk v ↔ ∃ w, w ∈ conn v ∧ AvoidPath conn End (upd chk v true) w := by
  constructor
  · intro h
    rcases h.split v hv with h1 | h1
    · have := h1.clear
      simp at this
    · exact h1
  · rintro ⟨w, hw, h⟩
    refine AvoidPath.step hc hw (h.mono ?_)
    intro u hu
    by_cases huv : u = v
    · exact huv ▸ hc
    · rwa [upd_other _ _ huv] at hu

theorem unchecked_upd_lt {N : Nat} {chk : Nat → Bool} {v : Nat} (hv : v < N)
    (hc : chk v = false) : unchecked N (upd chk v true) < unchecked N chk := by
  unfold unchecked
  apply Finset.card_lt_card
  rw [Finset.ssubset_iff_of_subset]
  · exact ⟨v, by simp [hv, hc], by simp⟩
  · intro u hu
    simp only [Finset.mem_filter, Finset.mem_range] at hu ⊢
    refine ⟨hu.1, ?_⟩
    by_cases huv : u = v
    · exact huv ▸ hc
    · rw [← upd_other chk true huv]; exact hu.2

theorem upd_upd_restore {chk : Nat → Bool} {v : Nat} (hc : chk v = false) :
    upd (upd chk v true) v false = chk := by
  funext u
  by_cases huv : u = v
  · rw [huv, upd_same, hc]
  · rw [upd_other _ _ huv, upd_other _ _ huv]

theorem tryEach_spec (f : (Nat → Bool) → Nat → Option (Bool × (Nat → Bool)))
    (chk : Nat → Bool) (Q : Nat → Prop) :
    ∀ ws : List Nat,
      (∀ w ∈ ws, ∃ b c, f chk w = some (b, c) ∧ (b = false → c = chk) ∧ (b = true ↔ Q w)) →
      ∃ b c, tryEach f chk ws = some (b, c) ∧ (b = false → c = chk) ∧
        (b = true ↔ ∃ w, w ∈ ws ∧ Q w) := by
  intro ws
  induction ws with
  | nil => intro _; exact ⟨false, chk, rfl, fun _ => rfl, by simp⟩
  | cons w ws ih =>
    intro hf
    obtain ⟨b, c, hfw, hc, hb⟩ := hf w (List.mem_cons_self _ _)
    cases b with
    | true =>
      refine ⟨true, c, by simp [tryEach, hfw], by simp, ?_⟩
      simp only [true_iff]
      exact ⟨w, List.mem_cons_self _ _, hb.1 rfl⟩
    | false =>
      have hcc := hc rfl
      subst hcc
      obtain ⟨b1, c1, ht, hc1, hb1⟩ := ih (fun x hx => hf x (List.mem_cons_of_mem _ hx))
      refine ⟨b1, c1, by simp [tryEach, hfw, ht], hc1, ?_⟩
      rw [hb1]
      constructor
      · rintro ⟨x, hx, hq⟩
        exact ⟨x, List.mem_cons_of_mem _ hx, hq⟩
      · rintro ⟨x, hx, hq⟩
        rcases List.mem_cons.1 hx with hx | hx
        · subst hx
          have := hb.2 hq
          simp at this
        · exact ⟨x, hx, hq⟩

/-- On a graph with node ids below `N`, a recursion depth above the number of
unflagged nodes is enough; a failed search restores the flags, and the answer is
`true` exactly when an unflagged path to `End` exists. -/
theorem canGetToEnd_spec {N : Nat} {conn : Nat → List Nat} {End : Nat}
    (hconn : ∀ v w, w ∈ conn v → w < N) :
    ∀ (fuel : Nat) (chk : Nat → Bool) (v : Nat), v < N → unchecked N chk < fuel →
      ∃ b c, canGetToEnd conn End fuel chk v = some (b, c) ∧ (b = false → c = chk) ∧
        (b = true ↔ AvoidPath conn End chk v) := by
  intro fuel
  induction fuel with
  | zero => intro chk v _ h; omega
  | succ fuel ih =>
    intro chk v hvN hfuel
    rw [canGetToEnd]
    by_cases hc : chk v = true
    · refine ⟨false, chk, by simp [hc], fun _ => rfl, ?_⟩
      constructor
      · intro h; simp at h
      · intro h; have := h.clear; simp [hc] at this
    · have hc1 : chk v = false := by simpa using hc
      by_cases hE : v = End
      · subst hE
        refine ⟨true, chk, by simp [hc1], by simp, ?_⟩
        simp only [true_iff]
        exact AvoidPath.base hc1
      · have hlt := unchecked_upd_lt hvN hc1
        obtain ⟨b, c, ht, hcb, hb⟩ := tryEach_spec (canGetToEnd conn End fuel) (upd chk v true)
          (AvoidPath conn End (upd chk v true)) (conn v).reverse
          (fun w hw => ih _ w (hconn v w (List.mem_reverse.1 hw)) (by omega))
        have hiff : (∃ w, w ∈ (conn v).reverse ∧ AvoidPath conn End (upd chk v true) w) ↔
            AvoidPath conn End chk v := by
          rw [avoidPath_iff_connection hE hc1]
          simp only [List.mem_reverse]
        cases b with
        | true =>
          refine ⟨true, c, by simp [hc1, hE, ht], by simp, ?_⟩
          rw [← hiff]; exact hb
        | false =>
          refine ⟨false, chk, ?_, fun _ => rfl, ?_⟩
          · simp [hc1, hE, ht, hcb rfl, upd_upd_restore hc1]
          · rw [← hiff]; exact hb

theorem tryEach_true {f : (Nat → Bool) → Nat → Option (Bool × (Nat → Bool))} :
    ∀ (ws : List Nat) (chk c : Nat → Bool), tryEach f chk ws = some (true, c) →
      ∃ w, w ∈ ws ∧ ∃ chk1 c1, f chk1 w = some (true, c1) := by
  intro ws
  induction ws with
  | nil => intro chk c h; simp [tryEach] at h
  | cons w ws ih =>
    intro chk c h
    rw [tryEach] at h
    split at h
    · simp at h
    · rename_i c2 hf
      exact ⟨w, List.mem_cons_self _ _, chk, c2, hf⟩
    · rename_i c2 hf
      obtain ⟨x, hx, hr⟩ := ih _ _ h
      exact ⟨x, List.mem_cons_of_mem _ hx, hr⟩

/-- Whatever the flags and the depth bound, the answer `true` is only given when
`End` is reachable. -/
theorem canGetToEnd_sound {conn : Nat → List Nat} {End : Nat} :
    ∀ (fuel : Nat) (chk c : Nat → Bool) (v : Nat),
      canGetToEnd conn End fuel chk v = some (true, c) → Reachable conn v End := by
  intro fuel
  induction fuel with
  | zero => intro chk c v h; simp [canGetToEnd] at h
  | succ fuel ih =>
    intro chk c v h
    rw [canGetToEnd] at h
    split at h
    · simp at h
    · split at h
      · rename_i hE
        exact hE ▸ Relation.ReflTransGen.refl
      · split at h
        · simp at h
        · rename_i c2 ht
          obtain ⟨w, hw, chk1, c1, hf⟩ := tryEach_true _ _ _ ht
          exact Relation.ReflTransGen.head (List.mem_reverse.1 hw) (ih _ _ _ hf)
        · simp at h

/-! ### Accepted topologies -/

theorem Res.eq_done_get {α : Type} {r : Res α} (d : α) (h : r.holds (fun _ => True)) :
    r = Res.done (r.get d) := by
  cases r <;> first | rfl | exact h.elim

theorem generate_done {N fuel : Nat} :
    ∀ (k : Nat) (st : Net) (ds : List Nat) {nt : Net} {ds1 : List Nat},
      generate N fuel k st ds = Res.done (nt, ds1) →
      ∃ st0 ds0, attempt N fuel st0 ds0 = Res.done (false, nt, ds1) := by
  intro k
  induction k with
  | zero => intro st ds nt ds1 h; simp [generate] at h
  | succ k ih =>
    intro st ds nt ds1 h
    rw [generate] at h
    split at h
    · simp at h
    · simp at h
    · simp at h
    · exact ih _ _ h
    · rename_i st1 ds2 ha
      simp only [Res.done.injEq, Prod.mk.injEq] at h
      obtain ⟨h1, h2⟩ := h
      subst h1 h2
      exact ⟨st, ds, ha⟩

theorem attempt_accepted {N fuel : Nat} {st nt : Net} {ds ds1 : List Nat}
    (h : attempt N fuel st ds = Res.done (false, nt, ds1)) :
    ∃ bad ds0 c, wire N ds = some (bad, nt.connections, ds0) ∧ bad = false ∧
      canGetToEnd nt.connections (N - 1) fuel (fun _ => false) 0 = some (true, c) ∧
      (nt.connections 0).length ≠ 0 ∧ (nt.connections (N - 1)).length ≠ 0 := by
  unfold attempt at h
  split at h
  · simp at h
  · rename_i bad0 c1 ds0 hw
    split at h
    · simp at h
    · rename_i r c hr
      simp only at h
      split at h
      · simp at h
      · rename_i hS
        split at h
        · simp at h
        · rename_i hE
          split at h
          · simp at h
          · rename_i b hb
            split at h
            · simp at h
            · simp at h
            · simp at h
            · rename_i pt hpt
              split at h
              · simp at h
              · split at h
                · simp at h
                · rename_i r0 ds2
                  simp only [Res.done.injEq, Prod.mk.injEq, Bool.or_eq_false_iff,
                    Bool.not_eq_false'] at h
                  obtain ⟨⟨hb0, hr1⟩, hnt, -⟩ := h
                  subst hnt hr1 hb0
                  exact ⟨_, _, c, hw, rfl, hr, hS, hE⟩

/-- C4: in every accepted topology `Start` (node 0) and `End` (node `N-1`) each
have exactly one adjacency entry and `End` is reachable from `Start`. -/
theorem accepted_endpoints_degree_one_and_connected (N fuel k : Nat) (st : Net)
    (ds : List Nat) (r : Net × List Nat) (h : generate N fuel k st ds = Res.done r) :
    (r.1.connections 0).length = 1 ∧ (r.1.connections (N - 1)).length = 1 ∧
      Reachable r.1.connections 0 (N - 1) := by
  obtain ⟨nt, ds1⟩ := r
  obtain ⟨st0, ds0, ha⟩ := generate_done k st ds h
  obtain ⟨bad, ds2, c, hw, -, hr, hS, hE⟩ := attempt_accepted ha
  have hle := wire_degree_le_one hw
  have h0 : (nt.connections 0).length = 1 := by omega
  have h1 : (nt.connections (N - 1)).length = 1 := by omega
  exact ⟨h0, h1, canGetToEnd_sound _ _ _ _ hr⟩

set_option maxRecDepth 100000 in
/-- C4, at a concrete accepted run on 10 nodes. -/
theorem accepted_endpoints_witness :
    generate 10 11 1 Net.init drawsLeafPruned =
        Res.done ((generate 10 11 1 Net.init drawsLeafPruned).get (Net.init, [])) ∧
      (((generate 10 11 1 Net.init drawsLeafPruned).get (Net.init, [])).1.connections 0).length = 1 ∧
      (((generate 10 11 1 Net.init drawsLeafPruned).get (Net.init, [])).1.connections (10 - 1)).length
        = 1 ∧
      Reachable ((generate 10 11 1 Net.init drawsLeafPruned).get (Net.init, [])).1.connections 0
        (10 - 1) :=
  ⟨Res.eq_done_get _ (by decide),
    accepted_endpoints_degree_one_and_connected 10 11 1 Net.init drawsLeafPruned _
      (Res.eq_done_get _ (by decide))⟩

/-! ### The reachability check, from cleared flags -/

theorem unchecked_le (N : Nat) (chk : Nat → Bool) : unchecked N chk ≤ N := by
  unfold unchecked
  exact (Finset.card_filter_le _ _).trans (by simp)

/-- C5: on a graph whose node ids are below `N`, with all flags cleared,
`Start.canGetToEnd(End)` returns (a recursion depth of `N + 1` or more is never
exceeded) and its answer is `true` exactly when `End` is reachable from `Start`
through adjacencies. -/
theorem canGetToEnd_returns_iff_reachable (N : Nat) (conn : Nat → List Nat) (Start End : Nat)
    (fuel : Nat) (hconn : ∀ v w, w ∈ conn v → w < N) (hS : Start < N) (hfuel : N < fuel) :
    ∃ b c, canGetToEnd conn End fuel (fun _ => false) Start = some (b, c) ∧
      (b = true ↔ Reachable conn Start End) := by
  obtain ⟨b, c, h, -, hb⟩ := canGetToEnd_spec hconn fuel (fun _ => false) Start hS
    (lt_of_le_of_lt (unchecked_le N _) hfuel)
  refine ⟨b, c, h, hb.trans ⟨AvoidPath.reachable, AvoidPath.of_reachable⟩⟩

theorem triangleTail_lt (v w : Nat) (h : w ∈ triangleTail v) : w < 4 := by
  unfold triangleTail at h
  split at h <;> simp at h <;> omega

/-- C5, on a graph with a cycle: from node 0 of the triangle the tail node 3 is
found. -/
theorem canGetToEnd_returns_witness :
    (∀ v w, w ∈ triangleTail v → w < 4) ∧ 0 < 4 ∧ 4 < 5 ∧
      ∃ b c, canGetToEnd triangleTail 3 5 (fun _ => false) 0 = some (b, c) ∧
        (b = true ↔ Reachable triangleTail 0 3) :=
  ⟨triangleTail_lt, by decide, by decide,
    canGetToEnd_returns_iff_reachable 4 triangleTail 0 3 5 triangleTail_lt (by decide)
      (by decide)⟩

/-! ### The default network size -/

theorem connect_empty_other (f t v : Nat) (hf : v ≠ f) (ht : v ≠ t) :
    connect (fun _ => []) f t v = [] := by
  unfold connect
  rw [upd_other _ _ ht, upd_other _ _ hf]

theorem wire_four_bad {ds ds1 : List Nat} {bad : Bool} {c : Nat → List Nat}
    (h : wire 4 ds = some (bad, c, ds1)) : bad = true := by
  unfold wire at h
  have hE : connectionsToMake 4 = 1 := by decide
  rw [hE, addEdges] at h
  split at h
  · simp at h
  · rename_i c0 ds0 ha
    split at ha
    · simp at ha
    · rename_i f t rest hp
      simp only [addEdges, Option.some.injEq, Prod.mk.injEq] at ha
      obtain ⟨hc0, -⟩ := ha
      simp only [Option.some.injEq, Prod.mk.injEq] at h
      obtain ⟨hbad, -, -⟩ := h
      rw [← hbad, ← hc0]
      have hv : ∃ v, v < 4 ∧ v ≠ f ∧ v ≠ t := by
        by_cases h0 : 0 ≠ f ∧ 0 ≠ t
        · exact ⟨0, by omega, h0.1, h0.2⟩
        · by_cases h1 : 1 ≠ f ∧ 1 ≠ t
          · exact ⟨1, by omega, h1.1, h1.2⟩
          · exact ⟨2, by omega, by omega, by omega⟩
      obtain ⟨v, hv4, hvf, hvt⟩ := hv
      unfold hasZeroDegree
      rw [List.any_eq_true]
      refine ⟨v, by simp [hv4], ?_⟩
      rw [connect_empty_other f t v hvf hvt]
      rfl

theorem attempt_four_bad {fuel : Nat} {st : Net} {ds : List Nat} {r : Bool × Net × List Nat}
    (h : attempt 4 fuel st ds = Res.done r) : r.1 = true := by
  unfold attempt at h
  split at h
  · simp at h
  · rename_i bad0 c1 ds0 hw
    have hb := wire_four_bad hw
    subst hb
    split at h
    · simp at h
    · simp only at h
      split at h
      · simp only [Res.done.injEq] at h; rw [← h]
      · split at h
        · simp only [Res.done.injEq] at h; rw [← h]
        · split at h
          · simp at h
          · split at h
            · simp at h
            · simp at h
            · simp at h
            · split at h
              · simp only [Res.done.injEq] at h; rw [← h]
              · split at h
                · simp at h
                · simp only [Res.done.injEq] at h
                  rw [← h]
                  rfl

theorem generate_four_never_done (fuel k : Nat) (st : Net) (ds : List Nat) :
    ¬ (generate 4 fuel k st ds).holds (fun _ => True) := by
  intro h
  have he := Res.eq_done_get (Net.init, []) h
  obtain ⟨st0, ds0, ha⟩ := generate_done k st ds he
  have := attempt_four_bad ha
  simp at this

/-- C9 (as stated, fails): for `networkSize = 4`, from the initial state, no
sequence of random draws leads to an accepted generation attempt. -/
theorem no_accepting_draws_for_size_four :
    ¬ ∃ (fuel k : Nat) (ds : List Nat),
      (generate 4 fuel k Net.init ds).holds (fun _ => True) := by
  rintro ⟨fuel, k, ds, h⟩
  exact generate_four_never_done fuel k Net.init ds h

set_option maxRecDepth 100000 in
/-- C9 (amended): for `networkSize = 4` the edge count is 1 and the generation
loop returns for no draws, no loop bounds and no state left by earlier attempts,
while for `networkSize = 10` the edge count is 7 and there are draws for which
the first attempt is accepted. -/
theorem size_four_never_accepted_size_ten_can_be :
    connectionsToMake 4 = 1 ∧
      (∀ (fuel k : Nat) (st : Net) (ds : List Nat),
        ¬ (generate 4 fuel k st ds).holds (fun _ => True)) ∧
      connectionsToMake 10 = 7 ∧
      (generate 10 11 1 Net.init drawsLeafPruned).holds (fun _ => True) :=
  ⟨by decide, generate_four_never_done, by decide, by decide⟩

/-! ### Walks and hop distance -/

theorem hasWalk_zero {conn : Nat → List Nat} {End v : Nat} :
    hasWalk conn End 0 v = true ↔ v = End := by
  simp [hasWalk]

theorem hasWalk_succ {conn : Nat → List Nat} {End k v : Nat} :
    hasWalk conn End (k + 1) v = true ↔ ∃ w, w ∈ conn v ∧ hasWalk conn End k w = true := by
  simp [hasWalk, List.any_eq_true]

theorem hasWalk_reachable {conn : Nat → List Nat} {End : Nat} :
    ∀ (k v : Nat), hasWalk conn End k v = true → Reachable conn v End := by
  intro k
  induction k with
  | zero => intro v h; rw [hasWalk_zero.1 h]; exact Relation.ReflTransGen.refl
  | succ k ih =>
    intro v h
    obtain ⟨w, hw, hk⟩ := hasWalk_succ.1 h
    exact Relation.ReflTransGen.head hw (ih w hk)

theorem reachable_hasWalk {conn : Nat → List Nat} {End v : Nat} (h : Reachable conn v End) :
    ∃ k, hasWalk conn End k v = true := by
  induction h using Relation.ReflTransGen.head_induction_on with
  | refl => exact ⟨0, hasWalk_zero.2 rfl⟩
  | head hw _ ih =>
    obtain ⟨k, hk⟩ := ih
    exact ⟨k + 1, hasWalk_succ.2 ⟨_, hw, hk⟩⟩

theorem reachable_symm {conn : Nat → List Nat} (hsym : ∀ v w, w ∈ conn v → v ∈ conn w)
    {a b : Nat} (h : Reachable conn a b) : Reachable conn b a := by
  induction h with
  | refl => exact Relation.ReflTransGen.refl
  | tail _ hbc ih => exact Relation.ReflTransGen.head (hsym _ _ hbc) ih

theorem IsDist.unique {conn : Nat → List Nat} {End v a b : Nat}
    (ha : IsDist conn End v a) (hb : IsDist conn End v b) : a = b := by
  rcases Nat.lt_trichotomy a b with h | h | h
  · have := hb.2 a h
    rw [ha.1] at this
    exact absurd this (by simp)
  · exact h
  · have := ha.2 b h
    rw [hb.1] at this
    exact absurd this (by simp)

theorem IsDist.of_walk {conn : Nat → List Nat} {End v k : Nat}
    (h : hasWalk conn End k v = true) : ∃ k1, k1 ≤ k ∧ IsDist conn End v k1 := by
  have hex : ∃ j, hasWalk conn End j v = true := ⟨k, h⟩
  refine ⟨Nat.find hex, Nat.find_min' hex h, Nat.find_spec hex, ?_⟩
  intro j hj
  have := Nat.find_min hex hj
  simpa using this

theorem IsDist.zero_iff {conn : Nat → List Nat} {End v : Nat} :
    IsDist conn End v 0 ↔ v = End := by
  constructor
  · intro h; exact hasWalk_zero.1 h.1
  · intro h; exact ⟨hasWalk_zero.2 h, fun j hj => by omega⟩

/-- Across an adjacency `w ∈ conn v` the distance grows by at most one. -/
theorem IsDist.edge_le {conn : Nat → List Nat} {End v w kv kw : Nat} (hw : w ∈ conn v)
    (hkw : IsDist conn End w kw) (hkv : IsDist conn End v kv) : kv ≤ kw + 1 := by
  by_contra hlt
  have := hkv.2 (kw + 1) (by omega)
  rw [hasWalk_succ.2 ⟨w, hw, hkw.1⟩] at this
  exact absurd this (by simp)

theorem IsDist.of_edge {conn : Nat → List Nat} {End v w kw : Nat} (hw : w ∈ conn v)
    (hkw : IsDist conn End w kw) : ∃ kv, kv ≤ kw + 1 ∧ IsDist conn End v kv :=
  IsDist.of_walk (hasWalk_succ.2 ⟨w, hw, hkw.1⟩)

/-- A node at distance `k + 1` has a connection at distance `k`. -/
theorem IsDist.pred {conn : Nat → List Nat} {End v k : Nat} (h : IsDist conn End v (k + 1)) :
    ∃ w, w ∈ conn v ∧ IsDist conn End w k := by
  obtain ⟨w, hw, hk⟩ := hasWalk_succ.1 h.1
  obtain ⟨k1, hle, hd⟩ := IsDist.of_walk hk
  have := IsDist.edge_le hw hd h
  have hk1 : k1 = k := by omega
  exact ⟨w, hw, hk1 ▸ hd⟩

/-! ### One visit of the route precomputation -/

theorem upd_upd_same {α : Type} (f : Nat → α) (i : Nat) (a b : α) :
    upd (upd f i a) i b = upd f i b := by
  funext j
  by_cases h : j = i
  · rw [h, upd_same, upd_same]
  · rw [upd_other _ _ h, upd_other _ _ h, upd_other _ _ h]

theorem bfsVisit_eff (n : Nat) :
    ∀ (ws : List Nat) (s : Bfs) (v : Nat),
      (bfsVisit n ws s).efficientNeighbor v =
        if s.efficientNeighbor v = none ∧ v ∈ ws then some n else s.efficientNeighbor v := by
  intro ws
  induction ws with
  | nil => intro s v; simp [bfsVisit]
  | cons w ws ih =>
    intro s v
    rw [bfsVisit, ih]
    by_cases hw : s.efficientNeighbor w = none
    · simp only [hw, if_true]
      by_cases hvw : v = w
      · subst hvw
        simp [hw]
      · simp [upd_other _ _ hvw, hvw]
    · simp only [hw, if_false]
      by_cases hvw : v = w
      · subst hvw
        simp [hw]
      · simp [hvw]

theorem bfsVisit_checked (n : Nat) :
    ∀ (ws : List Nat) (s : Bfs),
      (bfsVisit n ws s).checked = if ws = [] then s.checked else upd s.checked n true := by
  intro ws
  induction ws with
  | nil => intro s; simp [bfsVisit]
  | cons w ws ih =>
    intro s
    rw [bfsVisit, ih]
    by_cases hw : s.efficientNeighbor w = none <;> by_cases hws : ws = [] <;>
      simp [hw, hws, upd_upd_same]

theorem bfsVisit_q (n : Nat) :
    ∀ (ws : List Nat) (s : Bfs),
      ∃ new, (bfsVisit n ws s).q = s.q ++ new ∧
        ∀ w, w ∈ new ↔ (w ∈ ws ∧ s.efficientNeighbor w = none) := by
  intro ws
  induction ws with
  | nil => intro s; exact ⟨[], by simp [bfsVisit], by simp⟩
  | cons w ws ih =>
    intro s
    rw [bfsVisit]
    by_cases hw : s.efficientNeighbor w = none
    · obtain ⟨new, hq, hmem⟩ := ih
        { efficientNeighbor := upd s.efficientNeighbor w (some n),
          checked := upd s.checked n true, q := s.q ++ [w] }
      refine ⟨w :: new, by simpa [hw] using hq, ?_⟩
      intro x
      rw [List.mem_cons, hmem, List.mem_cons]
      constructor
      · rintro (hx | ⟨hx, he⟩)
        · exact ⟨Or.inl hx, hx ▸ hw⟩
        · have hxw : x ≠ w := by
            intro e; rw [e] at he; simp at he
          exact ⟨Or.inr hx, by simpa [upd_other _ _ hxw] using he⟩
      · rintro ⟨hx | hx, he⟩
        · exact Or.inl hx
        · by_cases hxw : x = w
          · exact Or.inl hxw
          · exact Or.inr ⟨hx, by simpa [upd_other _ _ hxw] using he⟩
    · obtain ⟨new, hq, hmem⟩ := ih
        { efficientNeighbor := s.efficientNeighbor, checked := upd s.checked n true, q := s.q }
      refine ⟨new, by simpa [hw] using hq, ?_⟩
      intro x
      rw [hmem, List.mem_cons]
      constructor
      · rintro ⟨hx, he⟩; exact ⟨Or.inr hx, he⟩
      · rintro ⟨hx | hx, he⟩
        · exact absurd (hx ▸ he) hw
        · exact ⟨hx, he⟩

theorem nullCount_upd {N : Nat} {eff : Nat → Option Nat} {w : Nat} (n : Nat) (hw : w < N)
    (he : eff w = none) : nullCount N (upd eff w (some n)) + 1 = nullCount N eff := by
  unfold nullCount
  have hmem : w ∈ (Finset.range N).filter (fun v => eff v = none) := by simp [hw, he]
  rw [← Finset.card_erase_add_one hmem]
  congr 2
  ext x
  simp only [Finset.mem_filter, Finset.mem_range, Finset.mem_erase]
  by_cases hxw : x = w
  · subst hxw; simp
  · simp [upd_other _ _ hxw, hxw]

theorem bfsVisit_measure {N : Nat} (n : Nat) :
    ∀ (ws : List Nat) (s : Bfs), (∀ w, w ∈ ws → w < N) →
      (bfsVisit n ws s).q.length + nullCount N (bfsVisit n ws s).efficientNeighbor =
        s.q.length + nullCount N s.efficientNeighbor := by
  intro ws
  induction ws with
  | nil => intro s _; simp [bfsVisit]
  | cons w ws ih =>
    intro s hlt
    rw [bfsVisit, ih _ (fun x hx => hlt x (List.mem_cons_of_mem _ hx))]
    by_cases hw : s.efficientNeighbor w = none
    · have := nullCount_upd n (hlt w (List.mem_cons_self _ _)) hw
      simp only [hw, if_true, List.length_append, List.length_singleton]
      omega
    · simp [hw]

/-! ### The invariant of the route precomputation -/

theorem BfsInv.dist {conn : Nat → List Nat} {End : Nat} {s : Bfs} (h : BfsInv conn End s)
    {v : Nat} (hv : Discovered End s v) : ∃ k, IsDist conn End v k := by
  by_cases hE : v = End
  · exact ⟨0, IsDist.zero_iff.2 hE⟩
  · rcases hv with hv | hv
    · exact absurd hv hE
    · obtain ⟨u, hu⟩ := Option.ne_none_iff_exists'.1 hv
      obtain ⟨_, k, _, hk⟩ := h.target v u hE hu
      exact ⟨k + 1, hk⟩

theorem BfsInv.conn_ne_nil {conn : Nat → List Nat} {End : Nat} {s : Bfs}
    (h : BfsInv conn End s) (hEnd : conn End ≠ []) {v : Nat} (hv : Discovered End s v) :
    conn v ≠ [] := by
  by_cases hE : v = End
  · rw [hE]; exact hEnd
  · rcases hv with hv | hv
    · exact absurd hv hE
    · obtain ⟨u, hu⟩ := Option.ne_none_iff_exists'.1 hv
      exact List.ne_nil_of_mem (h.target v u hE hu).1

/-- Every node strictly closer to `End` than the unflagged head of the queue has
been processed. -/
theorem BfsInv.closer_checked {conn : Nat → List Nat} {End : Nat} {s : Bfs}
    (h : BfsInv conn End s) {n : Nat} {t : List Nat} (hq : s.q = n :: t)
    (hn : s.checked n = false) {kn v kv : Nat} (hkn : IsDist conn End n kn)
    (hkv : IsDist conn End v kv) (hlt : kv < kn) : s.checked v = true := by
  have hd := h.below n (by rw [hq]; exact List.mem_cons_self _ _) hn kn hkn v kv hkv hlt
  rcases h.pending v hd with hc | hmem
  · exact hc
  · by_contra hcv
    have hcv1 : s.checked v = false := by simpa using hcv
    rw [hq] at hmem
    rcases List.mem_cons.1 hmem with hvn | hvt
    · rw [hvn] at hkv
      have := hkv.unique hkn
      omega
    · have hs := h.sorted
      rw [hq, List.pairwise_cons] at hs
      have := hs.1 v hvt hn hcv1 kn kv hkn hkv
      omega

theorem BfsInv.skip {conn : Nat → List Nat} {End : Nat} {s : Bfs} (h : BfsInv conn End s)
    {n : Nat} {t : List Nat} (hq : s.q = n :: t) (hn : s.checked n = true) :
    BfsInv conn End { s with q := t } := by
  have hsub : ∀ x, x ∈ t → x ∈ s.q := fun x hx => by rw [hq]; exact List.mem_cons_of_mem _ hx
  refine ⟨h.target, ?_, h.closed, fun v hv => h.queued v (hsub v hv), ?_, ?_, ?_⟩
  · intro v hv
    rcases h.pending v hv with hc | hmem
    · exact Or.inl hc
    · rw [hq] at hmem
      rcases List.mem_cons.1 hmem with hvn | hvt
      · exact Or.inl (hvn ▸ hn)
      · exact Or.inr hvt
  · have hs := h.sorted
    rw [hq, List.pairwise_cons] at hs
    exact hs.2
  · intro a ha b hb
    exact h.span a (hsub a ha) b (hsub b hb)
  · intro a ha
    exact h.below a (hsub a ha)

theorem BfsInv.visit {conn : Nat → List Nat} {End : Nat} {s : Bfs}
    (hsym : ∀ v w, w ∈ conn v → v ∈ conn w) (hEnd : conn End ≠ [])
    (h : BfsInv conn End s) {n : Nat} {t : List Nat} (hq : s.q = n :: t)
    (hn : s.checked n = false) :
    BfsInv conn End (bfsVisit n (conn n).reverse { s with q := t }) := by
  have hnq : n ∈ s.q := by rw [hq]; exact List.mem_cons_self _ _
  have htq : ∀ x, x ∈ t → x ∈ s.q := fun x hx => by rw [hq]; exact List.mem_cons_of_mem _ hx
  have hnd : Discovered End s n := h.queued n hnq
  obtain ⟨kn, hkn⟩ := h.dist hnd
  have hne : (conn n).reverse ≠ [] := by
    simpa using h.conn_ne_nil hEnd hnd
  have he := bfsVisit_eff n (conn n).reverse { s with q := t }
  have hc := bfsVisit_checked n (conn n).reverse { s with q := t }
  obtain ⟨new, hqq, hnew⟩ := bfsVisit_q n (conn n).reverse { s with q := t }
  rw [if_neg hne] at hc
  simp only [List.mem_reverse] at he hnew
  generalize bfsVisit n (conn n).reverse { s with q := t } = s1 at he hc hqq
  have hsorted := h.sorted
  rw [hq, List.pairwise_cons] at hsorted
  -- flags only grow, discovered nodes stay discovered
  have hchk : ∀ v, s1.checked v = false → s.checked v = false ∧ v ≠ n := by
    intro v hv
    rw [hc] at hv
    by_cases hvn : v = n
    · rw [hvn, upd_same] at hv; exact absurd hv (by simp)
    · rw [upd_other _ _ hvn] at hv; exact ⟨hv, hvn⟩
  have hchk1 : ∀ v, s.checked v = true → s1.checked v = true := by
    intro v hv
    rw [hc]
    by_cases hvn : v = n
    · rw [hvn, upd_same]
    · rw [upd_other _ _ hvn]; exact hv
  have hchkn : s1.checked n = true := by rw [hc, upd_same]
  have hmono : ∀ v, Discovered End s v → Discovered End s1 v := by
    intro v hv
    rcases hv with hv | hv
    · exact Or.inl hv
    · refine Or.inr ?_
      rw [he]
      split
      · simp
      · exact hv
  have hnewd : ∀ v, v ∈ new → Discovered End s1 v := by
    intro v hv
    refine Or.inr ?_
    rw [he, if_pos ⟨((hnew v).1 hv).2, ((hnew v).1 hv).1⟩]
    simp
  have hback : ∀ v, Discovered End s1 v → Discovered End s v ∨ v ∈ new := by
    intro v hv
    rcases hv with hv | hv
    · exact Or.inl (Or.inl hv)
    · by_cases hold : s.efficientNeighbor v = none
      · right
        rw [he] at hv
        by_cases hvn : v ∈ conn n
        · exact (hnew v).2 ⟨hvn, hold⟩
        · rw [if_neg (fun hh => hvn hh.2)] at hv
          exact absurd hold hv
      · exact Or.inl (Or.inr hold)
  -- a node first found now lies one hop beyond `n`
  have hnewdist : ∀ w, w ∈ new → w ≠ End → IsDist conn End w (kn + 1) := by
    intro w hw hwE
    obtain ⟨hwn, hwe⟩ := (hnew w).1 hw
    obtain ⟨kw, hle, hkw⟩ := IsDist.of_edge (hsym n w hwn) hkn
    by_cases hkk : kw = kn + 1
    · exact hkk ▸ hkw
    · exfalso
      cases kw with
      | zero => exact hwE (IsDist.zero_iff.1 hkw)
      | succ j =>
        obtain ⟨p, hp, hkp⟩ := hkw.pred
        have hpc := h.closer_checked hq hn hkn hkp (by omega)
        rcases h.closed p hpc w (hsym w p hp) with hd | hd
        · exact hwE hd
        · exact hd hwe
  have hEndnew : ∀ w, w ∈ new → s1.checked w = false → w ≠ End := by
    intro w hw hwc hwE
    subst hwE
    obtain ⟨hcE, hEn⟩ := hchk w hwc
    rcases h.pending w (Or.inl rfl) with hp | hp
    · rw [hcE] at hp; exact absurd hp (by simp)
    · rw [hq] at hp
      rcases List.mem_cons.1 hp with hp | hp
      · exact hEn hp
      · have := hsorted.1 w hp hn hcE kn 0 hkn (IsDist.zero_iff.2 rfl)
        have hk0 : kn = 0 := by omega
        rw [hk0] at hkn
        exact hEn (IsDist.zero_iff.1 hkn).symm
  refine ⟨?_, ?_, ?_, ?_, ?_, ?_, ?_⟩
  · -- target
    intro v u hvE hvu
    rw [he] at hvu
    split at hvu
    · rename_i hcond
      simp only [Option.some.injEq] at hvu
      subst hvu
      have hvnew : v ∈ new := (hnew v).2 ⟨hcond.2, hcond.1⟩
      exact ⟨hsym n v hcond.2, kn, hkn, hnewdist v hvnew hvE⟩
    · exact h.target v u hvE hvu
  · -- pending
    intro v hv
    rw [hqq]
    rcases hback v hv with hv | hv
    · rcases h.pending v hv with hp | hp
      · exact Or.inl (hchk1 v hp)
      · rw [hq] at hp
        rcases List.mem_cons.1 hp with hp | hp
        · exact Or.inl (hp ▸ hchkn)
        · exact Or.inr (List.mem_append_left _ hp)
    · exact Or.inr (List.mem_append_right _ hv)
  · -- closed
    intro v hv w hw
    by_cases hvn : v = n
    · subst hvn
      by_cases hwe : s.efficientNeighbor w = none
      · exact hnewd w ((hnew w).2 ⟨hw, hwe⟩)
      · exact hmono w (Or.inr hwe)
    · rw [hc, upd_other _ _ hvn] at hv
      exact hmono w (h.closed v hv w hw)
  · -- queued
    intro v hv
    rw [hqq] at hv
    rcases List.mem_append.1 hv with hv | hv
    · exact hmono v (h.queued v (htq v hv))
    · exact hnewd v hv
  · -- sorted
    rw [hqq, List.pairwise_append]
    refine ⟨?_, ?_, ?_⟩
    · refine hsorted.2.imp ?_
      intro a b hab ha hb
      exact hab (hchk a ha).1 (hchk b hb).1
    · apply List.pairwise_of_forall_mem_list
      intro a ha b hb hca hcb ka kb hka hkb
      have h1 := (hnewdist a ha (hEndnew a ha hca)).unique hka
      have h2 := (hnewdist b hb (hEndnew b hb hcb)).unique hkb
      omega
    · intro a ha b hb hca hcb ka kb hka hkb
      have h2 := (hnewdist b hb (hEndnew b hb hcb)).unique hkb
      have := h.span n hnq a (htq a ha) hn (hchk a hca).1 kn ka hkn hka
      omega
  · -- span
    intro a ha b hb hca hcb ka kb hka hkb
    rw [hqq] at ha hb
    rcases List.mem_append.1 ha with ha | ha <;> rcases List.mem_append.1 hb with hb | hb
    · exact h.span a (htq a ha) b (htq b hb) (hchk a hca).1 (hchk b hcb).1 ka kb hka hkb
    · have h2 := (hnewdist b hb (hEndnew b hb hcb)).unique hkb
      have := hsorted.1 a ha hn (hchk a hca).1 kn ka hkn hka
      omega
    · have h1 := (hnewdist a ha (hEndnew a ha hca)).unique hka
      have := h.span n hnq b (htq b hb) hn (hchk b hcb).1 kn kb hkn hkb
      omega
    · have h1 := (hnewdist a ha (hEndnew a ha hca)).unique hka
      have h2 := (hnewdist b hb (hEndnew b hb hcb)).unique hkb
      omega
  · -- below
    intro a ha hca ka hka v kv hkv hlt
    rw [hqq] at ha
    rcases List.mem_append.1 ha with ha | ha
    · exact hmono v (h.below a (htq a ha) (hchk a hca).1 ka hka v kv hkv hlt)
    · have h1 := (hnewdist a ha (hEndnew a ha hca)).unique hka
      by_cases hvk : kv < kn
      · exact hmono v (h.below n hnq hn kn hkn v kv hkv hvk)
      · have hkvn : kv = kn := by omega
        subst hkvn
        cases kv with
        | zero => exact Or.inl (IsDist.zero_iff.1 hkv)
        | succ j =>
          obtain ⟨p, hp, hkp⟩ := hkv.pred
          have hpc := h.closer_checked hq hn hkn hkp (by omega)
          exact hmono v (h.closed p hpc v (hsym v p hp))

/-! ### The route precomputation from a fresh state -/

theorem nullCount_le (N : Nat) (eff : Nat → Option Nat) : nullCount N eff ≤ N := by
  unfold nullCount
  exact (Finset.card_filter_le _ _).trans (by simp)

theorem bfs_run {N : Nat} {conn : Nat → List Nat} {End : Nat}
    (hsym : ∀ v w, w ∈ conn v → v ∈ conn w) (hrange : ∀ v w, w ∈ conn v → w < N)
    (hEnd : conn End ≠ []) :
    ∀ (fuel : Nat) (s : Bfs), BfsInv conn End s →
      s.q.length + nullCount N s.efficientNeighbor ≤ fuel →
      ∃ s1, bfs conn fuel s = some s1 ∧ BfsInv conn End s1 ∧ s1.q = [] := by
  intro fuel
  induction fuel with
  | zero =>
    intro s h hm
    have hq : s.q = [] := List.length_eq_zero.1 (by omega)
    refine ⟨s, ?_, h, hq⟩
    unfold bfs
    simp [hq]
  | succ fuel ih =>
    intro s h hm
    cases hq : s.q with
    | nil =>
      refine ⟨s, ?_, h, hq⟩
      unfold bfs
      simp [hq]
    | cons n t =>
      rw [hq, List.length_cons] at hm
      by_cases hn : s.checked n = true
      · obtain ⟨s1, hb, hi, hq1⟩ := ih { s with q := t } (h.skip hq hn)
          (by simp only; omega)
        refine ⟨s1, ?_, hi, hq1⟩
        unfold bfs
        simp [hq, hn, hb]
      · have hn1 : s.checked n = false := by simpa using hn
        have hmeas := bfsVisit_measure (N := N) n (conn n).reverse { s with q := t }
          (fun w hw => hrange n w (List.mem_reverse.1 hw))
        simp only at hmeas
        obtain ⟨s1, hb, hi, hq1⟩ := ih _ (h.visit hsym hEnd hq hn1) (by omega)
        refine ⟨s1, ?_, hi, hq1⟩
        unfold bfs
        simp [hq, hn1, hb]

theorem BfsInv.initial (conn : Nat → List Nat) (End : Nat) :
    BfsInv conn End (Bfs.start (fun _ => none) End) := by
  unfold Bfs.start
  refine ⟨?_, ?_, ?_, ?_, ?_, ?_, ?_⟩
  · intro v u _ h; simp at h
  · intro v hv
    rcases hv with hv | hv
    · exact Or.inr (by simp [hv])
    · simp at hv
  · intro v hv; simp at hv
  · intro v hv
    exact Or.inl (by simpa using hv)
  · simp
  · intro a ha b hb _ _ ka kb hka hkb
    simp only [List.mem_singleton] at ha hb
    subst ha hb
    have := hka.unique hkb
    omega
  · intro a ha _ ka hka v kv _ hlt
    simp only [List.mem_singleton] at ha
    subst ha
    have := hka.unique (IsDist.zero_iff.2 rfl)
    omega

/-- Once the queue is empty every node with a distance to `End` is discovered. -/
theorem BfsInv.all_discovered {conn : Nat → List Nat} {End : Nat} {s : Bfs}
    (hsym : ∀ v w, w ∈ conn v → v ∈ conn w) (h : BfsInv conn End s) (hq : s.q = []) :
    ∀ (k v : Nat), IsDist conn End v k → Discovered End s v := by
  intro k
  induction k with
  | zero => intro v hv; exact Or.inl (IsDist.zero_iff.1 hv)
  | succ k ih =>
    intro v hv
    obtain ⟨p, hp, hkp⟩ := hv.pred
    rcases h.pending p (ih p hkp) with hc | hm
    · exact h.closed p hc v (hsym v p hp)
    · rw [hq] at hm; simp at hm

/-- C6: on a symmetric adjacency over node ids below `N`, with every forwarding
target unset and every flag cleared, the route precomputation seeded at `End`
finishes (within `N + 1` dequeues); afterwards every node other than `End` that
is reachable from `End` has a forwarding target that is one of its connections
and lies exactly one hop closer to `End`, and every node unreachable from `End`
still has none. -/
theorem bfs_assigns_shortest_path_targets (N : Nat) (conn : Nat → List Nat) (End fuel : Nat)
    (hsym : ∀ v w, w ∈ conn v → v ∈ conn w) (hrange : ∀ v w, w ∈ conn v → w < N)
    (hfuel : N < fuel) :
    ∃ s, bfs conn fuel (Bfs.start (fun _ => none) End) = some s ∧
      (∀ v, v ≠ End → Reachable conn End v →
        ∃ u d, s.efficientNeighbor v = some u ∧ u ∈ conn v ∧ IsDist conn End u d ∧
          IsDist conn End v (d + 1)) ∧
      (∀ v, ¬ Reachable conn End v → s.efficientNeighbor v = none) := by
  by_cases hEnd : conn End = []
  · refine ⟨{ efficientNeighbor := fun _ => none, checked := fun _ => false, q := [] }, ?_, ?_, ?_⟩
    · obtain ⟨f, rfl⟩ : ∃ f, fuel = f + 1 := ⟨fuel - 1, by omega⟩
      unfold Bfs.start bfs
      simp only [hEnd, List.reverse_nil, bfsVisit]
      unfold bfs
      simp
    · intro v hv hr
      exfalso
      rcases Relation.ReflTransGen.cases_head hr with h | ⟨w, hw, _⟩
      · exact hv h.symm
      · rw [hEnd] at hw; simp at hw
    · intro v _; rfl
  · obtain ⟨s, hb, hi, hq⟩ := bfs_run hsym hrange hEnd fuel _ (BfsInv.initial conn End)
      (by
        have := nullCount_le N (fun _ => none)
        simp only [Bfs.start, List.length_singleton]
        omega)
    refine ⟨s, hb, ?_, ?_⟩
    · intro v hv hr
      obtain ⟨k, hk⟩ := reachable_hasWalk (reachable_symm hsym hr)
      obtain ⟨k1, _, hk1⟩ := IsDist.of_walk hk
      rcases hi.all_discovered hsym hq k1 v hk1 with hd | hd
      · exact absurd hd hv
      · obtain ⟨u, hu⟩ := Option.ne_none_iff_exists'.1 hd
        obtain ⟨hmem, d, hdu, hdv⟩ := hi.target v u hv hu
        exact ⟨u, d, hu, hmem, hdu, hdv⟩
    · intro v hv
      by_contra hne
      obtain ⟨u, hu⟩ := Option.ne_none_iff_exists'.1 hne
      by_cases hvE : v = End
      · exact hv (hvE ▸ Relation.ReflTransGen.refl)
      · obtain ⟨_, d, _, hdv⟩ := hi.target v u hvE hu
        exact hv (reachable_symm hsym (hasWalk_reachable _ _ hdv.1))

theorem chordPath_symm (v w : Nat) (h : w ∈ chordPath v) : v ∈ chordPath w := by
  match v, h with
  | 0, h =>
    simp only [chordPath, List.mem_singleton] at h
    subst h; simp [chordPath]
  | 1, h =>
    simp only [chordPath, List.mem_cons, List.mem_singleton, List.not_mem_nil, or_false] at h
    rcases h with h | h | h <;> subst h <;> simp [chordPath]
  | 2, h =>
    simp only [chordPath, List.mem_cons, List.mem_singleton, List.not_mem_nil, or_false] at h
    rcases h with h | h <;> subst h <;> simp [chordPath]
  | 3, h =>
    simp only [chordPath, List.mem_cons, List.mem_singleton, List.not_mem_nil, or_false] at h
    rcases h with h | h <;> subst h <;> simp [chordPath]
  | n + 4, h => simp [chordPath] at h

theorem chordPath_lt (v w : Nat) (h : w ∈ chordPath v) : w < 5 := by
  unfold chordPath at h
  split at h <;> simp at h <;> omega

/-- C6, on a path 0-1-2-3 with a chord 1-3, seeded at node 3. -/
theorem bfs_assigns_witness :
    (∀ v w, w ∈ chordPath v → v ∈ chordPath w) ∧ (∀ v w, w ∈ chordPath v → w < 5) ∧
      5 < 6 ∧
      ∃ s, bfs chordPath 6 (Bfs.start (fun _ => none) 3) = some s ∧
        (∀ v, v ≠ 3 → Reachable chordPath 3 v →
          ∃ u d, s.efficientNeighbor v = some u ∧ u ∈ chordPath v ∧ IsDist chordPath 3 u d ∧
            IsDist chordPath 3 v (d + 1)) ∧
        (∀ v, ¬ Reachable chordPath 3 v → s.efficientNeighbor v = none) :=
  ⟨chordPath_symm, chordPath_lt, by decide,
    bfs_assigns_shortest_path_targets 5 chordPath 3 6 chordPath_symm chordPath_lt (by decide)⟩

/-! ### Tokens and the packet loop -/

theorem advance_of_nonneg {x : Int} (h : 0 ≤ x) : advance x = x + 1 := by
  unfold advance
  split
  · rfl
  · rename_i hx
    have hpos : 0 < x := lt_of_le_of_ne h (Ne.symm hx)
    have : Int.ofNat x.natAbs = x := by
      simpa using Int.natAbs_of_nonneg h
    rw [this, Int.tdiv_self (ne_of_gt hpos)]

theorem advance_of_neg {x : Int} (h : x < 0) : advance x = x - 1 := by
  unfold advance
  rw [if_neg (ne_of_lt h)]
  have : Int.ofNat x.natAbs = -x := by
    simpa using Int.ofNat_natAbs_of_nonpos (le_of_lt h)
  rw [this, Int.tdiv_neg, Int.tdiv_self (ne_of_lt h)]
  rfl

theorem advance_natAbs (x : Int) : (advance x).natAbs = x.natAbs + 1 := by
  rcases lt_or_le x 0 with h | h
  · rw [advance_of_neg h]; omega
  · rw [advance_of_nonneg h]; omega

theorem advance_neg_iff (x : Int) : advance x < 0 ↔ x < 0 := by
  rcases lt_or_le x 0 with h | h
  · rw [advance_of_neg h]; omega
  · rw [advance_of_nonneg h]; omega

theorem forwardedValue_natAbs (nt : Net) (v : Nat) (x : Int) :
    (forwardedValue nt v x).natAbs = x.natAbs + 1 := by
  unfold forwardedValue
  split
  · rw [Int.mul_neg_one, Int.natAbs_neg, advance_natAbs]
  · exact advance_natAbs x

theorem age_natAbs {t : Nat} {y : Int} (h : y.natAbs = t) : (age t y).natAbs = t + 1 := by
  unfold age
  rw [if_pos h, advance_natAbs, h]

theorem age_of_not_due {t : Nat} {y : Int} (h : y.natAbs ≠ t) : age t y = y := by
  unfold age
  rw [if_neg h]

theorem age_neg_iff (t : Nat) (y : Int) : age t y < 0 ↔ y < 0 := by
  unfold age
  split
  · exact advance_neg_iff y
  · rfl

/-- Once a token has been admitted, the loop only ages the remaining ones. -/
theorem packetLoop_processed (nt : Net) (route : Nat → Bool) (v t : Nat) :
    ∀ (xs : List Int) (processed : Nat) (kept : List Int) (s : Sim), 1 ≤ processed →
      packetLoop nt route v t xs processed kept s = Res.done (kept ++ xs.map (age t), s) := by
  intro xs
  induction xs with
  | nil => intro processed kept s _; simp [packetLoop]
  | cons x xs ih =>
    intro processed kept s hp
    rw [packetLoop]
    have hnp : ¬ processed < 1 := by omega
    by_cases hx : x.natAbs = t
    · rw [if_pos hx, if_neg hnp, ih _ _ _ hp]
      simp [age, hx]
    · rw [if_neg hx, ih _ _ _ hp]
      simp [age, hx]

/-- While no due token is met, the loop leaves the tokens as they are. -/
theorem packetLoop_not_due (nt : Net) (route : Nat → Bool) (v t : Nat) :
    ∀ (pre rest : List Int) (kept : List Int) (s : Sim), (∀ y, y ∈ pre → y.natAbs ≠ t) →
      packetLoop nt route v t (pre ++ rest) 0 kept s =
        packetLoop nt route v t rest 0 (kept ++ pre) s := by
  intro pre
  induction pre with
  | nil => intro rest kept s _; simp
  | cons y pre ih =>
    intro rest kept s h
    rw [List.cons_append, packetLoop, if_neg (h y (List.mem_cons_self _ _)),
      ih _ _ _ (fun z hz => h z (List.mem_cons_of_mem _ hz))]
    simp

/-- A queue either has no due token or splits at its first due token. -/
theorem first_due (t : Nat) :
    ∀ xs : List Int, (∀ y, y ∈ xs → y.natAbs ≠ t) ∨
      ∃ pre x post, xs = pre ++ x :: post ∧ (∀ y, y ∈ pre → y.natAbs ≠ t) ∧ x.natAbs = t := by
  intro xs
  induction xs with
  | nil => exact Or.inl (by simp)
  | cons a xs ih =>
    by_cases ha : a.natAbs = t
    · exact Or.inr ⟨[], a, xs, rfl, by simp, ha⟩
    · rcases ih with h | ⟨pre, x, post, hxs, hpre, hx⟩
      · left
        intro y hy
        rcases List.mem_cons.1 hy with hy | hy
        · exact hy ▸ ha
        · exact h y hy
      · right
        refine ⟨a :: pre, x, post, by rw [hxs]; rfl, ?_, hx⟩
        intro y hy
        rcases List.mem_cons.1 hy with hy | hy
        · exact hy ▸ ha
        · exact hpre y hy

/-! ### One node in one sweep -/

theorem packetLoop_due_done {nt : Net} {route : Nat → Bool} {v t : Nat} {x : Int}
    {post kept k1 : List Int} {s s1 : Sim} (hx : x.natAbs = t)
    (h : packetLoop nt route v t (x :: post) 0 kept s = Res.done (k1, s1)) :
    (nt.connections v).length ≠ 0 ∧ k1 = kept ++ post.map (age t) ∧
      ∃ dest, Routed nt route v s.draws s1.draws dest ∧
        s1.packets = pushPacket s.packets dest (forwardedValue nt v x) ∧
        s1.badCounter =
          s.badCounter + (if nt.Bad = some v ∧ advance x ≥ 0 then 1 else 0) := by
  rw [packetLoop, if_pos hx, if_pos (by omega)] at h
  split at h
  · rename_i hc
    refine ⟨hc, ?_⟩
    simp only at h
    split at h
    · simp at h
    · rename_i r ds hd
      split at h
      · rename_i hr
        split at h
        · simp at h
        · rename_i r2 ds2
          rw [packetLoop_processed _ _ _ _ _ _ _ _ (by omega)] at h
          simp only [Res.done.injEq, Prod.mk.injEq] at h
          obtain ⟨hk, hs⟩ := h
          subst hs
          refine ⟨hk.symm, _, ⟨r, _, hd, Or.inl ⟨hr, r2, rfl, rfl⟩⟩, ?_, ?_⟩
          · simp only [forwardedValue]
            by_cases hh : nt.Bad = some v ∧ advance x ≥ 0 <;> simp [hh]
          · by_cases hh : nt.Bad = some v ∧ advance x ≥ 0 <;> simp [hh]
      · rename_i hr
        split at h
        · simp at h
        · rename_i dest he
          rw [packetLoop_processed _ _ _ _ _ _ _ _ (by omega)] at h
          simp only [Res.done.injEq, Prod.mk.injEq] at h
          obtain ⟨hk, hs⟩ := h
          subst hs
          refine ⟨hk.symm, dest, ⟨r, _, hd, Or.inr ⟨by simpa using hr, rfl, he⟩⟩, ?_, ?_⟩
          · simp only [forwardedValue]
            by_cases hh : nt.Bad = some v ∧ advance x ≥ 0 <;> simp [hh]
          · by_cases hh : nt.Bad = some v ∧ advance x ≥ 0 <;> simp [hh]
  · simp at h

/-- The state after node `v` has forwarded the token `x` to `dest`, the tokens
`pre` before it being not due and the tokens `post` after it aged. -/
theorem forwarded_packets (packets : Nat → List Int) (v dest : Nat) (pre post : List Int)
    (x y : Int) (t : Nat) (hv : packets v = pre ++ x :: post) :
    upd (pushPacket packets dest y) v
        (([] ++ pre ++ post.map (age t)) ++
          (pushPacket packets dest y v).drop (packets v).length) =
      pushPacket (upd packets v (pre ++ post.map (age t))) dest y := by
  funext u
  unfold pushPacket
  by_cases huv : u = v
  · subst huv
    by_cases hd : u = dest
    · subst hd
      simp
    · simp [upd_other _ _ hd]
  · by_cases hd : u = dest
    · subst hd
      simp [upd_other _ _ huv]
    · simp [upd_other _ _ huv, upd_other _ _ hd]

/-- What `processNode` can have done when it returns: nothing, or forwarded the
first due token of a non-sink node. -/
theorem processNode_done {nt : Net} {route : Nat → Bool} {N t v : Nat} {s s1 : Sim}
    (h : processNode nt route N t v s = Res.done s1) :
    (s1 = s ∧ (v = N - 1 ∨ ∀ y, y ∈ s.packets v → y.natAbs ≠ t)) ∨
      (v ≠ N - 1 ∧ (nt.connections v).length ≠ 0 ∧
        ∃ pre x post dest, s.packets v = pre ++ x :: post ∧
          (∀ y, y ∈ pre → y.natAbs ≠ t) ∧ x.natAbs = t ∧
          Routed nt route v s.draws s1.draws dest ∧
          s1.packets =
            pushPacket (upd s.packets v (pre ++ post.map (age t))) dest
              (forwardedValue nt v x) ∧
          s1.badCounter =
            s.badCounter + (if nt.Bad = some v ∧ advance x ≥ 0 then 1 else 0)) := by
  unfold processNode at h
  split at h
  · rename_i hv
    rcases first_due t (s.packets v) with hnd | ⟨pre, x, post, hxs, hpre, hx⟩
    · left
      have := packetLoop_not_due nt route v t (s.packets v) [] [] s hnd
      rw [List.append_nil] at this
      rw [this] at h
      simp only [packetLoop, List.nil_append, Res.done.injEq] at h
      subst h
      refine ⟨?_, Or.inr hnd⟩
      cases s with
      | mk packets bc draws =>
        simp only [Sim.mk.injEq, and_true]
        funext u
        by_cases huv : u = v
        · subst huv; simp
        · simp [upd_other _ _ huv]
    · right
      rw [hxs, packetLoop_not_due nt route v t pre (x :: post) [] s hpre] at h
      split at h
      · rename_i k1 s2 hpl
        obtain ⟨hc, hk1, dest, hr, hp, hb⟩ := packetLoop_due_done hx hpl
        simp only [Res.done.injEq] at h
        subst h
        refine ⟨hv.1, hc, pre, x, post, dest, hxs, hpre, hx, hr, ?_, hb⟩
        simp only
        rw [hp, hk1, ← hxs]
        exact forwarded_packets s.packets v dest pre post x _ t hxs
      · simp at h
      · simp at h
      · simp at h
  · left
    rename_i hv
    simp only [Res.done.injEq] at h
    refine ⟨h.symm, ?_⟩
    by_cases hvN : v = N - 1
    · exact Or.inl hvN
    · right
      have : (s.packets v).length = 0 := by
        by_contra hl
        exact hv ⟨hvN, hl⟩
      rw [List.length_eq_zero.1 this]
      simp

/-! ### Sweeps and ticks -/

theorem sweep_induct {nt : Net} {route : Nat → Bool} {N t : Nat} (Inv : Nat → Sim → Prop)
    (hstep : ∀ k s s1, Inv (k + 1) s → processNode nt route N t k s = Res.done s1 → Inv k s1) :
    ∀ (k : Nat) (s s1 : Sim), Inv k s → sweep nt route N t k s = Res.done s1 → Inv 0 s1 := by
  intro k
  induction k with
  | zero =>
    intro s s1 hi h
    simp only [sweep, Res.done.injEq] at h
    exact h ▸ hi
  | succ k ih =>
    intro s s1 hi h
    rw [sweep] at h
    split at h
    · rename_i s2 hp
      exact ih s2 s1 (hstep k s s2 hi hp) h
    · simp at h
    · simp at h
    · simp at h

theorem sweeps_induct {nt : Net} {route : Nat → Bool} {N : Nat} (Inv : Nat → Sim → Prop)
    (hstep : ∀ t s s1, Inv t s → sweep nt route N t N s = Res.done s1 → Inv (t + 1) s1) :
    ∀ (k t : Nat) (s s1 : Sim), Inv t s → sweeps nt route N k t s = Res.done s1 →
      Inv (t + k) s1 := by
  intro k
  induction k with
  | zero =>
    intro t s s1 hi h
    simp only [sweeps, Res.done.injEq] at h
    exact h ▸ hi
  | succ k ih =>
    intro t s s1 hi h
    rw [sweeps] at h
    split at h
    · rename_i s2 hp
      have := ih (t + 1) s2 s1 (hstep t s s2 hi hp) h
      rw [show t + (k + 1) = t + 1 + k by omega]
      exact this
    · simp at h
    · simp at h
    · simp at h

/-- When the time loop returns, it has made some number of sweeps, one or more,
and the queue of `End` holds `P` tokens. -/
theorem simLoop_sweeps {nt : Net} {route : Nat → Bool} {N P : Nat} :
    ∀ (fuel t : Nat) (s : Sim) {t1 : Nat} {s1 : Sim},
      simLoop nt route N P fuel t s = Res.done (t1, s1) →
      ∃ k, 1 ≤ k ∧ sweeps nt route N k t s = Res.done s1 ∧ t1 = t + k ∧
        (s1.packets (N - 1)).length = P := by
  intro fuel
  induction fuel with
  | zero => intro t s t1 s1 h; simp [simLoop] at h
  | succ fuel ih =>
    intro t s t1 s1 h
    rw [simLoop] at h
    split at h
    · rename_i s2 hs
      split at h
      · obtain ⟨k, hk, hsw, ht, hP⟩ := ih (t + 1) s2 h
        refine ⟨k + 1, by omega, ?_, by omega, hP⟩
        rw [sweeps, hs]
        exact hsw
      · rename_i hP
        simp only [Res.done.injEq, Prod.mk.injEq] at h
        obtain ⟨h1, h2⟩ := h
        subst h1 h2
        refine ⟨1, le_refl _, ?_, rfl, by simpa using hP⟩
        rw [sweeps, hs]
        rfl
    · simp at h
    · simp at h
    · simp at h

/-! ### Totals over the queues -/

theorem queueSum_extend {g : List Int → Nat} (hg : g [] = 0) {packets : Nat → List Int}
    {n M M1 : Nat} (hz : ∀ v, M ≤ v → packets v = [])
    (hs : ∑ v in Finset.range M, g (packets v) = n) (h : M ≤ M1) :
    ∑ v in Finset.range M1, g (packets v) = n := by
  rw [← hs]
  symm
  apply Finset.sum_subset (Finset.range_subset.2 h)
  intro x _ hx
  rw [hz x (by simpa using hx), hg]

theorem queueSum_upd {g : List Int → Nat} (hg : g [] = 0) {packets : Nat → List Int} {n : Nat}
    (h : QueueSum g packets n) (v : Nat) (L : List Int) :
    g (packets v) ≤ n ∧ QueueSum g (upd packets v L) (n - g (packets v) + g L) := by
  obtain ⟨M, hz, hs⟩ := h
  have hs1 := queueSum_extend hg hz hs (le_max_left M (v + 1))
  have hv : v ∈ Finset.range (max M (v + 1)) := by
    simp only [Finset.mem_range]
    exact lt_of_lt_of_le (Nat.lt_succ_self v) (le_max_right _ _)
  have hrest : ∑ u in (Finset.range (max M (v + 1))).erase v, g (upd packets v L u) =
      ∑ u in (Finset.range (max M (v + 1))).erase v, g (packets u) := by
    apply Finset.sum_congr rfl
    intro u hu
    rw [upd_other _ _ (Finset.ne_of_mem_erase hu)]
  have h1 := Finset.add_sum_erase (Finset.range (max M (v + 1))) (fun u => g (packets u)) hv
  have h2 := Finset.add_sum_erase (Finset.range (max M (v + 1)))
    (fun u => g (upd packets v L u)) hv
  beta_reduce at h1 h2
  rw [upd_same, hrest] at h2
  refine ⟨by omega, max M (v + 1), ?_, by omega⟩
  intro u hu
  have huv : u ≠ v := by
    intro e
    rw [e] at hu
    have := le_trans (le_max_right M (v + 1)) hu
    omega
  rw [upd_other _ _ huv]
  exact hz u (le_trans (le_max_left _ _) hu)

/-- Forwarding one token keeps an additive total, up to the change of the
forwarded token itself. -/
theorem queueSum_forward {g : List Int → Nat} (hg : g [] = 0)
    (hadd : ∀ a b, g (a ++ b) = g a + g b) {t : Nat} (hage : ∀ y, g [age t y] = g [y])
    {packets : Nat → List Int} {n : Nat} (h : QueueSum g packets n) {v : Nat}
    {pre post : List Int} {x : Int} (hv : packets v = pre ++ x :: post) (dest : Nat) (y : Int) :
    g [x] ≤ n ∧
      QueueSum g (pushPacket (upd packets v (pre ++ post.map (age t))) dest y)
        (n - g [x] + g [y]) := by
  have hmap : ∀ l : List Int, g (l.map (age t)) = g l := by
    intro l
    induction l with
    | nil => rfl
    | cons a l ih =>
      rw [List.map_cons, ← List.singleton_append, hadd, ih, hage,
        ← List.singleton_append (l := l), hadd]
  obtain ⟨hle, h1⟩ := queueSum_upd hg h v (pre ++ post.map (age t))
  obtain ⟨hle2, h2⟩ := queueSum_upd hg h1 dest
    (upd packets v (pre ++ post.map (age t)) dest ++ [y])
  have hgv : g (packets v) = g pre + g [x] + g post := by
    rw [hv, hadd, ← List.singleton_append (l := post), hadd]
    omega
  rw [hadd, hmap] at h1 hle2 h2
  rw [hadd] at h2
  refine ⟨by omega, ?_⟩
  unfold pushPacket
  have hn : n - g (packets v) + (g pre + g post) -
      g (upd packets v (pre ++ List.map (age t) post) dest) +
      (g (upd packets v (pre ++ List.map (age t) post) dest) + g [y]) = n - g [x] + g [y] := by
    omega
  rw [← hn]
  exact h2

theorem negCount_le_length (l : List Int) : negCount l ≤ l.length :=
  List.countP_le_length _

theorem queueSum_neg_le {packets : Nat → List Int} {n P : Nat} (hn : NegTotal packets n)
    (hP : TokensTotal packets P) : n ≤ P := by
  obtain ⟨M1, hz1, hs1⟩ := hn
  obtain ⟨M2, hz2, hs2⟩ := hP
  have h1 := queueSum_extend (g := negCount) rfl hz1 hs1 (le_max_left M1 M2)
  have h2 := queueSum_extend (g := List.length) rfl hz2 hs2 (le_max_right M1 M2)
  rw [← h1, ← h2]
  exact Finset.sum_le_sum (fun v _ => negCount_le_length _)

theorem queueSum_one_le {packets : Nat → List Int} {P : Nat} (hP : TokensTotal packets P)
    (v : Nat) : (packets v).length ≤ P := (queueSum_upd (g := List.length) rfl hP v []).1

/-! ### Conservation of tokens and the interception counter -/

theorem processNode_tokens {nt : Net} {route : Nat → Bool} {N t v P : Nat} {s s1 : Sim}
    (hP : TokensTotal s.packets P) (h : processNode nt route N t v s = Res.done s1) :
    TokensTotal s1.packets P := by
  rcases processNode_done h with ⟨rfl, _⟩ | ⟨_, _, pre, x, post, dest, hv, _, _, _, hp, _⟩
  · exact hP
  · rw [hp]
    obtain ⟨hle, hq⟩ := queueSum_forward (g := List.length) rfl (fun a b => List.length_append a b)
      (t := t) (fun _ => rfl) hP hv dest (forwardedValue nt v x)
    simp only [List.length_singleton] at hle hq
    rw [show P - 1 + 1 = P by omega] at hq
    exact hq

theorem negCount_singleton (y : Int) : negCount [y] = if y < 0 then 1 else 0 := by
  unfold negCount
  by_cases h : y < 0 <;> simp [List.countP_cons, h]

theorem forwardedValue_neg (nt : Net) (v : Nat) (x : Int) :
    (if forwardedValue nt v x < 0 then 1 else 0) =
      (if x < 0 then 1 else 0) + (if nt.Bad = some v ∧ advance x ≥ 0 then 1 else 0) := by
  unfold forwardedValue
  rcases lt_or_le x 0 with hx | hx
  · rw [advance_of_neg hx]
    by_cases hb : nt.Bad = some v
    · simp only [hb, true_and]
      split_ifs <;> omega
    · simp only [hb, false_and, if_false]
      split_ifs <;> omega
  · rw [advance_of_nonneg hx]
    by_cases hb : nt.Bad = some v
    · simp only [hb, true_and]
      split_ifs <;> omega
    · simp only [hb, false_and, if_false]
      split_ifs <;> omega

theorem processNode_neg {nt : Net} {route : Nat → Bool} {N t v : Nat} {s s1 : Sim}
    (hn : NegTotal s.packets s.badCounter) (h : processNode nt route N t v s = Res.done s1) :
    NegTotal s1.packets s1.badCounter := by
  rcases processNode_done h with ⟨rfl, _⟩ | ⟨_, _, pre, x, post, dest, hv, _, _, _, hp, hb⟩
  · exact hn
  · rw [hp, hb]
    obtain ⟨hle, hq⟩ := queueSum_forward (g := negCount) rfl
      (fun a b => List.countP_append _ a b) (t := t)
      (fun y => by
        rw [negCount_singleton, negCount_singleton]
        by_cases hy : y < 0
        · rw [if_pos hy, if_pos ((age_neg_iff t y).2 hy)]
        · rw [if_neg hy, if_neg (fun hh => hy ((age_neg_iff t y).1 hh))])
      hn hv dest (forwardedValue nt v x)
    rw [negCount_singleton, negCount_singleton] at hq
    rw [negCount_singleton] at hle
    have := forwardedValue_neg nt v x
    rw [show s.badCounter + (if nt.Bad = some v ∧ advance x ≥ 0 then 1 else 0) =
      s.badCounter - (if x < 0 then 1 else 0) +
        (if forwardedValue nt v x < 0 then 1 else 0) by omega]
    exact hq

/-- The queue of `End` is only ever appended to. -/
theorem processNode_end_kept {nt : Net} {route : Nat → Bool} {N t v : Nat} {s s1 : Sim}
    (h : processNode nt route N t v s = Res.done s1) :
    s.packets (N - 1) <+: s1.packets (N - 1) := by
  rcases processNode_done h with ⟨rfl, _⟩ | ⟨hvE, _, pre, x, post, dest, _, _, _, _, hp, _⟩
  · exact List.prefix_refl _
  · rw [hp]
    unfold pushPacket
    by_cases hd : N - 1 = dest
    · rw [← hd, upd_same, upd_other _ _ (Ne.symm hvE)]
      exact List.prefix_append _ _
    · rw [upd_other _ _ hd, upd_other _ _ (Ne.symm hvE)]

theorem sweep_tokens {nt : Net} {route : Nat → Bool} {N t P : Nat} {s s1 : Sim}
    (hP : TokensTotal s.packets P) (h : sweep nt route N t N s = Res.done s1) :
    TokensTotal s1.packets P :=
  sweep_induct (fun _ s => TokensTotal s.packets P)
    (fun _ _ _ hi hp => processNode_tokens hi hp) N s s1 hP h

theorem sweep_neg {nt : Net} {route : Nat → Bool} {N t : Nat} {s s1 : Sim}
    (hn : NegTotal s.packets s.badCounter) (h : sweep nt route N t N s = Res.done s1) :
    NegTotal s1.packets s1.badCounter :=
  sweep_induct (fun _ s => NegTotal s.packets s.badCounter)
    (fun _ _ _ hi hp => processNode_neg hi hp) N s s1 hn h

theorem sweep_end_kept {nt : Net} {route : Nat → Bool} {N t : Nat} {s s1 : Sim}
    (h : sweep nt route N t N s = Res.done s1) :
    s.packets (N - 1) <+: s1.packets (N - 1) :=
  sweep_induct (fun _ s2 => s.packets (N - 1) <+: s2.packets (N - 1))
    (fun _ _ _ hi hp => hi.trans (processNode_end_kept hp)) N s s1 (List.prefix_refl _) h

theorem start_tokens (P : Nat) (ds : List Nat) : TokensTotal (Sim.start P ds).packets P := by
  refine ⟨1, ?_, ?_⟩
  · intro v hv
    simp only [Sim.start]
    rw [upd_other _ _ (by omega)]
  · simp [Sim.start]

theorem start_neg (P : Nat) (ds : List Nat) :
    NegTotal (Sim.start P ds).packets (Sim.start P ds).badCounter := by
  refine ⟨1, ?_, ?_⟩
  · intro v hv
    simp only [Sim.start]
    rw [upd_other _ _ (by omega)]
  · simp [Sim.start, negCount, List.countP_replicate]

theorem sweeps_totals {nt : Net} {route : Nat → Bool} {N P k : Nat} {ds : List Nat} {s : Sim}
    (h : sweeps nt route N k 0 (Sim.start P ds) = Res.done s) :
    TokensTotal s.packets P ∧ NegTotal s.packets s.badCounter :=
  sweeps_induct (fun _ s => TokensTotal s.packets P ∧ NegTotal s.packets s.badCounter)
    (fun _ _ _ hi hp => ⟨sweep_tokens hi.1 hp, sweep_neg hi.2 hp⟩) k 0 _ s
    ⟨start_tokens P ds, start_neg P ds⟩ h

theorem securityPercent_bounds {P bc : Nat} (hP : 1 ≤ P) (hb : bc ≤ P) :
    0 ≤ securityPercent P bc ∧ securityPercent P bc ≤ 100 := by
  unfold securityPercent
  have hPq : (0 : ℚ) < (P : ℚ) := by exact_mod_cast hP
  have hd : (0 : ℚ) ≤ (((P : Int) - (bc : Int) : Int) : ℚ) := by
    have : (0 : Int) ≤ (P : Int) - (bc : Int) := by omega
    exact_mod_cast this
  have hu : (((P : Int) - (bc : Int) : Int) : ℚ) ≤ (P : ℚ) := by
    have : (P : Int) - (bc : Int) ≤ (P : Int) := by omega
    exact_mod_cast this
  constructor
  · positivity
  · rw [div_le_iff₀ hPq]
    nlinarith

/-! ### Absolute values and ticks -/

theorem processNode_midSweep {nt : Net} {route : Nat → Bool} {N t k : Nat} {s s1 : Sim}
    (hm : MidSweep N t (k + 1) s.packets) (h : processNode nt route N t k s = Res.done s1) :
    MidSweep N t k s1.packets := by
  rcases processNode_done h with ⟨rfl, hnd⟩ | ⟨_, _, pre, x, post, dest, hv, hpre, hx, _, hp, _⟩
  · intro v hvN hvE y hy
    obtain ⟨h1, h2⟩ := hm v hvN hvE y hy
    refine ⟨fun hkv => ?_, fun hvk => h2 (by omega)⟩
    by_cases hvk : v = k
    · subst hvk
      rcases hnd with hnd | hnd
      · exact absurd hnd hvE
      · rcases h2 (by omega) with h3 | h3
        · exact absurd h3 (hnd y hy)
        · exact h3
    · exact h1 (by omega)
  · have hfv := forwardedValue_natAbs nt k x
    rw [hx] at hfv
    -- every token of the processed queue that stays has absolute value `t + 1`
    have hkept : ∀ y, y ∈ pre ++ post.map (age t) → k < N → k ≠ N - 1 → y.natAbs = t + 1 := by
      intro y hy hkN hkE
      rcases List.mem_append.1 hy with hy | hy
      · have hmem : y ∈ s.packets k := by rw [hv]; exact List.mem_append_left _ hy
        rcases (hm k hkN hkE y hmem).2 (by omega) with h3 | h3
        · exact absurd h3 (hpre y hy)
        · exact h3
      · obtain ⟨z, hz, rfl⟩ := List.mem_map.1 hy
        have hmem : z ∈ s.packets k := by
          rw [hv]; exact List.mem_append_right _ (List.mem_cons_of_mem _ hz)
        rcases (hm k hkN hkE z hmem).2 (by omega) with h3 | h3
        · exact age_natAbs h3
        · rw [age_of_not_due (by omega)]; exact h3
    intro v hvN hvE y hy
    rw [hp] at hy
    unfold pushPacket at hy
    have hbase : y ∈ upd s.packets k (pre ++ post.map (age t)) v ∨ y = forwardedValue nt k x := by
      by_cases hd : v = dest
      · subst hd
        rw [upd_same, List.mem_append, List.mem_singleton] at hy
        exact hy
      · rw [upd_other _ _ hd] at hy
        exact Or.inl hy
    rcases hbase with hy1 | hy1
    · by_cases hvk : v = k
      · subst hvk
        rw [upd_same] at hy1
        have := hkept y hy1 hvN hvE
        exact ⟨fun _ => this, fun _ => Or.inr this⟩
      · rw [upd_other _ _ hvk] at hy1
        obtain ⟨h1, h2⟩ := hm v hvN hvE y hy1
        exact ⟨fun hkv => h1 (by omega), fun hvk1 => h2 (by omega)⟩
    · rw [hy1]
      exact ⟨fun _ => hfv, fun _ => Or.inr hfv⟩

theorem sweep_allAt {nt : Net} {route : Nat → Bool} {N t : Nat} {s s1 : Sim}
    (ha : AllAt N s.packets t) (h : sweep nt route N t N s = Res.done s1) :
    AllAt N s1.packets (t + 1) := by
  have h0 : MidSweep N t N s.packets := by
    intro v hvN hvE y hy
    exact ⟨fun hNv => by omega, fun _ => Or.inl (ha v hvN hvE y hy)⟩
  have := sweep_induct (fun k s => MidSweep N t k s.packets)
    (fun _ _ _ hi hp => processNode_midSweep hi hp) N s s1 h0 h
  intro v hvN hvE y hy
  exact (this v hvN hvE y hy).1 (Nat.zero_le v)

theorem start_allAt (N P : Nat) (ds : List Nat) : AllAt N (Sim.start P ds).packets 0 := by
  intro v _ _ y hy
  simp only [Sim.start] at hy
  by_cases hv : v = 0
  · rw [hv, upd_same] at hy
    rw [List.eq_of_mem_replicate hy]
    rfl
  · rw [upd_other _ _ hv] at hy
    simp at hy

theorem sweeps_allAt {nt : Net} {route : Nat → Bool} {N P k : Nat} {ds : List Nat} {s : Sim}
    (h : sweeps nt route N k 0 (Sim.start P ds) = Res.done s) : AllAt N s.packets k := by
  have := sweeps_induct (fun t s => AllAt N s.packets t)
    (fun _ _ _ hi hp => sweep_allAt hi hp) k 0 _ s (start_allAt N P ds) h
  simpa using this

/-- A token that `processNode` adds to the queue of another node in tick `t` has
absolute value `t + 1`, and there is at most one. -/
theorem processNode_arrivals {nt : Net} {route : Nat → Bool} {N t v : Nat} {s s1 : Sim}
    (h : processNode nt route N t v s = Res.done s1) (u : Nat) (hu : u ≠ v) :
    ∃ extra, s1.packets u = s.packets u ++ extra ∧ extra.length ≤ 1 ∧
      ∀ y, y ∈ extra → y.natAbs = t + 1 := by
  rcases processNode_done h with ⟨rfl, _⟩ | ⟨_, _, pre, x, post, dest, _, _, hx, _, hp, _⟩
  · exact ⟨[], by simp, by simp, by simp⟩
  · rw [hp]
    unfold pushPacket
    by_cases hd : u = dest
    · subst hd
      rw [upd_same, upd_other _ _ hu]
      refine ⟨[forwardedValue nt v x], rfl, by simp, ?_⟩
      intro y hy
      rw [List.mem_singleton.1 hy, forwardedValue_natAbs, hx]
    · rw [upd_other _ _ hd, upd_other _ _ hu]
      exact ⟨[], by simp, by simp, by simp⟩

/-! ### Pruning, step by step -/

/-- The pruning loop always works on the last entry of the list of `s`. -/
theorem pruneStep_last {s : Nat} {c : Nat → List Nat} {L : List Nat} {nb : Nat}
    (hs : c s = L ++ [nb]) (hne : nb ≠ s) :
    pruneStep s c L.length =
      upd (upd c nb ((c nb).filter (fun x => decide (x ≠ s)))) s L := by
  have hget : (c s).getD L.length 0 = nb := by
    rw [hs, List.getD_eq_getElem?_getD]
    simp
  unfold pruneStep
  simp only [hget]
  rw [upd_other _ _ (Ne.symm hne), hs, List.eraseIdx_append_of_length_le (le_refl _)]
  simp

theorem pruneLoop_spec {s : Nat} :
    ∀ (k : Nat) (c : Nat → List Nat) (a : Nat) (pre : List Nat), c s = a :: pre →
      pre.length = k → s ∉ c s →
      pruneLoop s k c s = [a] ∧
        ∀ v, v ≠ s → pruneLoop s k c v =
          if v ∈ pre then (c v).filter (fun x => decide (x ≠ s)) else c v := by
  intro k
  induction k with
  | zero =>
    intro c a pre hs hl _
    rw [List.length_eq_zero.1 hl] at hs ⊢
    exact ⟨by rw [pruneLoop, hs], fun v _ => by simp [pruneLoop]⟩
  | succ k ih =>
    intro c a pre hs hl hself
    rcases List.eq_nil_or_concat pre with hp | ⟨init, nb, hp⟩
    · rw [hp] at hl; simp at hl
    · rw [List.concat_eq_append] at hp
      subst hp
      have hil : init.length = k := by simpa using hl
      have hnb : nb ∈ c s := by rw [hs]; simp
      have hne : nb ≠ s := fun e => hself (e ▸ hnb)
      have hs1 : c s = (a :: init) ++ [nb] := by rw [hs]; simp
      have hstep := pruneStep_last hs1 hne
      rw [List.length_cons, hil] at hstep
      rw [pruneLoop, hstep]
      have hs2 : upd (upd c nb ((c nb).filter (fun x => decide (x ≠ s)))) s (a :: init) s =
          a :: init := upd_same _ _ _
      have hself2 : s ∉ upd (upd c nb ((c nb).filter (fun x => decide (x ≠ s)))) s
          (a :: init) s := by
        rw [hs2]
        intro hm
        apply hself
        rw [hs1]
        exact List.mem_append_left _ hm
      obtain ⟨h1, h2⟩ := ih _ a init hs2 hil hself2
      refine ⟨h1, ?_⟩
      intro v hv
      rw [h2 v hv, upd_other _ _ hv]
      by_cases hvn : v = nb
      · subst hvn
        rw [upd_same]
        have : v ∈ init ++ [v] := by simp
        rw [if_pos this]
        split
        · rw [List.filter_filter]
          simp
        · rfl
      · rw [upd_other _ _ hvn]
        have : v ∈ init ++ [nb] ↔ v ∈ init := by simp [hvn]
        simp only [this]

/-- The effect of pruning `s` down to its first connection `a`. -/
theorem prune_spec {s : Nat} {c : Nat → List Nat} {a : Nat} {rest : List Nat}
    (hs : c s = a :: rest) (hself : s ∉ c s) :
    prune s c s = [a] ∧
      ∀ v, v ≠ s → prune s c v =
        if v ∈ rest then (c v).filter (fun x => decide (x ≠ s)) else c v := by
  unfold prune
  split
  · have hl : rest.length = (c s).length - 1 := by rw [hs]; simp
    exact pruneLoop_spec _ c a rest hs hl hself
  · rename_i hlen
    have hr : rest = [] := by
      rw [hs] at hlen
      simp only [List.length_cons, gt_iff_lt, Nat.lt_add_left_iff_pos, not_lt,
        Nat.le_zero_eq] at hlen
      exact List.length_eq_zero.1 hlen
    subst hr
    exact ⟨hs, fun v _ => by simp⟩

/-! ### The adjacency stays a simple graph -/

theorem pickEdge_fresh {N : Nat} {c : Nat → List Nat} :
    ∀ (n : Nat) (ds : List Nat), ds.length ≤ n → ∀ {f t : Nat} {rest : List Nat},
      pickEdge N c ds = some (f, t, rest) → t ∉ c f := by
  intro n
  induction n with
  | zero =>
    intro ds hds f t rest h
    cases ds with
    | nil => simp [pickEdge] at h
    | cons a l => simp at hds
  | succ n ih =>
    intro ds hds f t rest h
    match ds, hds, h with
    | [], _, h => simp [pickEdge] at h
    | [_], _, h => simp [pickEdge] at h
    | r1 :: r2 :: l, hds, h =>
      rw [pickEdge] at h
      split at h
      · exact ih l (by simp at hds; omega) h
      · rename_i hne
        simp only [Option.some.injEq, Prod.mk.injEq] at h
        obtain ⟨h1, h2, _⟩ := h
        subst h1 h2
        intro hm
        apply hne
        right
        unfold isAConnection
        rw [List.any_eq_true]
        exact ⟨r2 % N, List.mem_reverse.2 hm, by simp⟩

theorem connect_simple {c : Nat → List Nat} {f t : Nat} (h : Simple c) (hft : f ≠ t)
    (hfresh : t ∉ c f) : Simple (connect c f t) := by
  obtain ⟨hsym, hself, hnd⟩ := h
  have hfresh2 : f ∉ c t := fun hm => hfresh (hsym t f hm)
  have hcf : connect c f t f = c f ++ [t] := by
    unfold connect
    rw [upd_other _ _ hft, upd_same]
  have hct : connect c f t t = c t ++ [f] := by
    unfold connect
    rw [upd_same, upd_other _ _ (Ne.symm hft)]
  have hco : ∀ v, v ≠ f → v ≠ t → connect c f t v = c v := by
    intro v h1 h2
    unfold connect
    rw [upd_other _ _ h2, upd_other _ _ h1]
  have hmem : ∀ v w, w ∈ connect c f t v ↔ w ∈ c v ∨ (v = f ∧ w = t) ∨ (v = t ∧ w = f) := by
    intro v w
    by_cases h1 : v = f
    · subst h1
      rw [hcf, List.mem_append, List.mem_singleton]
      constructor
      · rintro (h | h)
        · exact Or.inl h
        · exact Or.inr (Or.inl ⟨rfl, h⟩)
      · rintro (h | ⟨_, h⟩ | ⟨h, _⟩)
        · exact Or.inl h
        · exact Or.inr h
        · exact absurd h hft
    · by_cases h2 : v = t
      · subst h2
        rw [hct, List.mem_append, List.mem_singleton]
        constructor
        · rintro (h | h)
          · exact Or.inl h
          · exact Or.inr (Or.inr ⟨rfl, h⟩)
        · rintro (h | ⟨h, _⟩ | ⟨_, h⟩)
          · exact Or.inl h
          · exact absurd h h1
          · exact Or.inr h
      · rw [hco v h1 h2]
        constructor
        · exact Or.inl
        · rintro (h | ⟨h, _⟩ | ⟨h, _⟩)
          · exact h
          · exact absurd h h1
          · exact absurd h h2
  refine ⟨?_, connect_noSelf hself hft, ?_⟩
  · intro v w hw
    rw [hmem] at hw ⊢
    rcases hw with hw | ⟨h1, h2⟩ | ⟨h1, h2⟩
    · exact Or.inl (hsym v w hw)
    · exact Or.inr (Or.inr ⟨h2, h1⟩)
    · exact Or.inr (Or.inl ⟨h2, h1⟩)
  · intro v
    by_cases h1 : v = f
    · rw [h1, hcf]
      exact List.Nodup.append (hnd f) (List.nodup_singleton t)
        (by simpa using hfresh)
    · by_cases h2 : v = t
      · rw [h2, hct]
        exact List.Nodup.append (hnd t) (List.nodup_singleton f)
          (by simpa using hfresh2)
      · rw [hco v h1 h2]
        exact hnd v

theorem addEdges_simple {N : Nat} :
    ∀ (k : Nat) (c : Nat → List Nat) (ds : List Nat) {c1 : Nat → List Nat} {ds1 : List Nat},
      Simple c → addEdges N k c ds = some (c1, ds1) → Simple c1 := by
  intro k
  induction k with
  | zero =>
    intro c ds c1 ds1 hc h
    simp only [addEdges, Option.some.injEq, Prod.mk.injEq] at h
    exact h.1 ▸ hc
  | succ k ih =>
    intro c ds c1 ds1 hc h
    rw [addEdges] at h
    split at h
    · simp at h
    · rename_i f t rest hp
      exact ih _ _ (connect_simple hc (pickEdge_ne _ ds le_rfl hp)
        (pickEdge_fresh _ ds le_rfl hp)) h

theorem simple_empty : Simple (fun _ => []) :=
  ⟨fun _ _ h => by simp at h, fun _ => by simp, fun _ => List.nodup_nil⟩

/-- Removing the mutual entries of `s` and its last connection keeps the graph
simple. -/
theorem unlink_simple {s : Nat} {c : Nat → List Nat} {L : List Nat} {nb : Nat}
    (h : Simple c) (hs : c s = L ++ [nb]) :
    Simple (upd (upd c nb ((c nb).filter (fun x => decide (x ≠ s)))) s L) := by
  obtain ⟨hsym, hself, hnd⟩ := h
  have hnbs : nb ∈ c s := by rw [hs]; simp
  have hne : nb ≠ s := fun e => hself s (e ▸ hnbs)
  have hnL : nb ∉ L := by
    have := hnd s
    rw [hs] at this
    exact fun hm => (List.disjoint_of_nodup_append this) hm (List.mem_singleton_self nb)
  have hmem : ∀ v w,
      w ∈ upd (upd c nb ((c nb).filter (fun x => decide (x ≠ s)))) s L v ↔
        w ∈ c v ∧ ¬ (v = s ∧ w = nb) ∧ ¬ (v = nb ∧ w = s) := by
    intro v w
    by_cases h1 : v = s
    · subst h1
      rw [upd_same, hs, List.mem_append, List.mem_singleton]
      constructor
      · intro hw
        refine ⟨Or.inl hw, fun hh => hnL (hh.2 ▸ hw), fun hh => hne hh.1.symm⟩
      · rintro ⟨hw | hw, h2, _⟩
        · exact hw
        · exact absurd ⟨rfl, hw⟩ h2
    · rw [upd_other _ _ h1]
      by_cases h2 : v = nb
      · subst h2
        rw [upd_same, List.mem_filter]
        simp [h1]
      · rw [upd_other _ _ h2]
        simp [h1, h2]
  refine ⟨?_, ?_, ?_⟩
  · intro v w hw
    rw [hmem] at hw ⊢
    obtain ⟨h1, h2, h3⟩ := hw
    exact ⟨hsym v w h1, fun hh => h3 ⟨hh.2, hh.1⟩, fun hh => h2 ⟨hh.2, hh.1⟩⟩
  · intro v hv
    exact hself v ((hmem v v).1 hv).1
  · intro v
    by_cases h1 : v = s
    · rw [h1, upd_same]
      have := hnd s
      rw [hs] at this
      exact (List.nodup_append.1 this).1
    · rw [upd_other _ _ h1]
      by_cases h2 : v = nb
      · rw [h2, upd_same]
        exact (hnd nb).filter _
      · rw [upd_other _ _ h2]
        exact hnd v

theorem pruneLoop_simple {s : Nat} :
    ∀ (k : Nat) (c : Nat → List Nat), Simple c → (c s).length = k + 1 →
      Simple (pruneLoop s k c) := by
  intro k
  induction k with
  | zero => intro c hc _; exact hc
  | succ k ih =>
    intro c hc hl
    rcases List.eq_nil_or_concat (c s) with hp | ⟨L, nb, hp⟩
    · rw [hp] at hl; simp at hl
    · rw [List.concat_eq_append] at hp
      have hLl : L.length = k + 1 := by
        rw [hp] at hl
        simpa using hl
      have hnbs : nb ∈ c s := by rw [hp]; simp
      have hne : nb ≠ s := fun e => hc.2.1 s (e ▸ hnbs)
      have hstep := pruneStep_last hp hne
      rw [hLl] at hstep
      rw [pruneLoop, hstep]
      exact ih _ (unlink_simple hc hp) (by rw [upd_same]; exact hLl)

theorem prune_simple {s : Nat} {c : Nat → List Nat} (h : Simple c) : Simple (prune s c) := by
  unfold prune
  split
  · rename_i hgt
    exact pruneLoop_simple _ c h (by omega)
  · exact h

/-! ### Evaluating the processing of one node -/

theorem processNode_idle {nt : Net} {route : Nat → Bool} {N t v : Nat} {s : Sim}
    (h : v = N - 1 ∨ ∀ y, y ∈ s.packets v → y.natAbs ≠ t) :
    processNode nt route N t v s = Res.done s := by
  unfold processNode
  split
  · rename_i hv
    rcases h with h | h
    · exact absurd h hv.1
    · have := packetLoop_not_due nt route v t (s.packets v) [] [] s h
      rw [List.append_nil] at this
      rw [this]
      simp only [packetLoop, List.nil_append, Res.done.injEq]
      cases s with
      | mk packets bc draws =>
        simp only [Sim.mk.injEq, and_true]
        funext u
        by_cases huv : u = v
        · subst huv; simp
        · simp [upd_other _ _ huv]
  · rfl

theorem packetLoop_due_eff {nt : Net} {route : Nat → Bool} {v t : Nat} {x : Int}
    {post kept : List Int} {s : Sim} {r dest : Nat} {ds : List Nat} (hx : x.natAbs = t)
    (hc : (nt.connections v).length ≠ 0) (hd : s.draws = r :: ds) (hr : route r = false)
    (he : nt.efficientNeighbor v = some dest) :
    packetLoop nt route v t (x :: post) 0 kept s =
      Res.done (kept ++ post.map (age t),
        { packets := pushPacket s.packets dest (forwardedValue nt v x),
          badCounter := s.badCounter + (if nt.Bad = some v ∧ advance x ≥ 0 then 1 else 0),
          draws := ds }) := by
  rw [packetLoop, if_pos hx, if_pos (by omega), if_pos hc]
  simp only [hd, hr, he, Bool.false_eq_true, if_false]
  rw [packetLoop_processed _ _ _ _ _ _ _ _ (by omega)]
  simp only [forwardedValue]
  by_cases hh : nt.Bad = some v ∧ advance x ≥ 0 <;> simp [hh]

theorem packetLoop_due_random {nt : Net} {route : Nat → Bool} {v t : Nat} {x : Int}
    {post kept : List Int} {s : Sim} {r r2 : Nat} {ds : List Nat} (hx : x.natAbs = t)
    (hc : (nt.connections v).length ≠ 0) (hd : s.draws = r :: r2 :: ds)
    (hr : route r = true) :
    packetLoop nt route v t (x :: post) 0 kept s =
      Res.done (kept ++ post.map (age t),
        { packets := pushPacket s.packets
            ((nt.connections v).getD (r2 % (nt.connections v).length) 0)
            (forwardedValue nt v x),
          badCounter := s.badCounter + (if nt.Bad = some v ∧ advance x ≥ 0 then 1 else 0),
          draws := ds }) := by
  rw [packetLoop, if_pos hx, if_pos (by omega), if_pos hc]
  simp only [hd, hr, if_true]
  rw [packetLoop_processed _ _ _ _ _ _ _ _ (by omega)]
  simp only [forwardedValue]
  by_cases hh : nt.Bad = some v ∧ advance x ≥ 0 <;> simp [hh]

theorem processNode_of_packetLoop {nt : Net} {route : Nat → Bool} {N t v : Nat} {s s2 : Sim}
    {pre post : List Int} {x y : Int} {dest : Nat} (hv : v ≠ N - 1)
    (hs : s.packets v = pre ++ x :: post) (hpre : ∀ z, z ∈ pre → z.natAbs ≠ t)
    (hp : s2.packets = pushPacket s.packets dest y)
    (hl : packetLoop nt route v t (x :: post) 0 ([] ++ pre) s =
      Res.done ([] ++ pre ++ post.map (age t), s2)) :
    processNode nt route N t v s =
      Res.done { s2 with
        packets := pushPacket (upd s.packets v (pre ++ post.map (age t))) dest y } := by
  unfold processNode
  have hne : (s.packets v).length ≠ 0 := by rw [hs]; simp
  rw [if_pos ⟨hv, hne⟩]
  have h1 : packetLoop nt route v t (s.packets v) 0 [] s =
      Res.done ([] ++ pre ++ post.map (age t), s2) := by
    rw [hs, packetLoop_not_due nt route v t pre (x :: post) [] s hpre]
    exact hl
  rw [h1]
  simp only [Res.done.injEq]
  have := forwarded_packets s.packets v dest pre post x y t hs
  rw [hp, this]

theorem processNode_forward_eff {nt : Net} {route : Nat → Bool} {N t v : Nat} {s : Sim}
    {pre post : List Int} {x : Int} {r dest : Nat} {ds : List Nat} (hv : v ≠ N - 1)
    (hs : s.packets v = pre ++ x :: post) (hpre : ∀ z, z ∈ pre → z.natAbs ≠ t)
    (hx : x.natAbs = t) (hc : (nt.connections v).length ≠ 0) (hd : s.draws = r :: ds)
    (hr : route r = false) (he : nt.efficientNeighbor v = some dest) :
    processNode nt route N t v s =
      Res.done
        { packets := pushPacket (upd s.packets v (pre ++ post.map (age t))) dest
            (forwardedValue nt v x),
          badCounter := s.badCounter + (if nt.Bad = some v ∧ advance x ≥ 0 then 1 else 0),
          draws := ds } :=
  processNode_of_packetLoop hv hs hpre rfl (packetLoop_due_eff hx hc hd hr he)

theorem processNode_forward_random {nt : Net} {route : Nat → Bool} {N t v : Nat} {s : Sim}
    {pre post : List Int} {x : Int} {r r2 : Nat} {ds : List Nat} (hv : v ≠ N - 1)
    (hs : s.packets v = pre ++ x :: post) (hpre : ∀ z, z ∈ pre → z.natAbs ≠ t)
    (hx : x.natAbs = t) (hc : (nt.connections v).length ≠ 0)
    (hd : s.draws = r :: r2 :: ds) (hr : route r = true) :
    processNode nt route N t v s =
      Res.done
        { packets := pushPacket (upd s.packets v (pre ++ post.map (age t)))
            ((nt.connections v).getD (r2 % (nt.connections v).length) 0)
            (forwardedValue nt v x),
          badCounter := s.badCounter + (if nt.Bad = some v ∧ advance x ≥ 0 then 1 else 0),
          draws := ds } :=
  processNode_of_packetLoop hv hs hpre rfl (packetLoop_due_random hx hc hd hr)

/-! ### The pipeline along the forwarding chain -/

theorem length_forward (p : Nat → List Int) (k dest u : Nat) (L : List Int) (y : Int) :
    (pushPacket (upd p k L) dest y u).length =
      (if u = k then L.length else (p u).length) + (if u = dest then 1 else 0) := by
  unfold pushPacket
  by_cases hd : u = dest
  · subst hd
    rw [upd_same, List.length_append, List.length_singleton, if_pos rfl]
    by_cases hk : u = k
    · subst hk; rw [upd_same, if_pos rfl]
    · rw [upd_other _ _ hk, if_neg hk]
  · rw [upd_other _ _ hd, if_neg hd, Nat.add_zero]
    by_cases hk : u = k
    · subst hk; rw [upd_same, if_pos rfl]
    · rw [upd_other _ _ hk, if_neg hk]

theorem dueCount_eq_zero {t : Nat} {l : List Int} (h : dueCount t l = 0) :
    ∀ y, y ∈ l → y.natAbs ≠ t := by
  intro y hy
  unfold dueCount at h
  rw [List.countP_eq_zero] at h
  simpa using h y hy

theorem dueCount_of_all {t : Nat} {l : List Int} (h : ∀ y, y ∈ l → y.natAbs = t) :
    dueCount t l = l.length := by
  unfold dueCount
  rw [List.countP_eq_length]
  intro y hy
  simpa using h y hy

theorem dueCount_append_not_due {t : Nat} (l : List Int) {y : Int} (hy : y.natAbs ≠ t) :
    dueCount t (l ++ [y]) = dueCount t l := by
  unfold dueCount
  rw [List.countP_append]
  simp [List.countP_cons, hy]

/-- Processing a node that holds no due token carries the invariant on, as long
as that node is not a chain node that started the tick with tokens. -/
theorem PipeMid.idle {nt : Net} {route : Nat → Bool} {N : Nat} {c : Nat → Nat}
    {d t : Nat} {n : Nat → Nat} {e D k : Nat} {s : Sim} (hd : 1 ≤ d)
    (h : PipeMid N c d t n e D (k + 1) s)
    (hk : ∀ i, i < d → c i ≠ k ∨ n i = 0)
    (hp : processNode nt route N t k s = Res.done s) : PipeMid N c d t n e D k s := by
  refine ⟨processNode_midSweep h.abs hp, ?_, ?_, ?_, h.off, ?_⟩
  · intro i hi
    have h1 := h.len i hi
    have h2 := hk i hi
    by_cases hi0 : 1 ≤ i
    · have h3 := hk (i - 1) (by omega)
      split_ifs at h1 ⊢ <;> omega
    · split_ifs at h1 ⊢ <;> omega
  · intro i hi hlt
    exact h.due i hi (by omega)
  · have h1 := h.sink
    have h3 := hk (d - 1) (by omega)
    split_ifs at h1 ⊢ <;> omega
  · have := h.draws
    omega

theorem dueCount_forward_other {t : Nat} (p : Nat → List Int) {k dest u : Nat} (L : List Int)
    {y : Int} (hu : u ≠ k) (hy : y.natAbs ≠ t) :
    dueCount t (pushPacket (upd p k L) dest y u) = dueCount t (p u) := by
  unfold pushPacket
  by_cases hd : u = dest
  · subst hd
    rw [upd_same, upd_other _ _ hu, dueCount_append_not_due _ hy]
  · rw [upd_other _ _ hd, upd_other _ _ hu]

/-- A chain node that started the tick with a token forwards one to the next
chain node. -/
theorem PipeMid.forward {nt : Net} {N : Nat} {c : Nat → Nat} {d t : Nat} {n : Nat → Nat}
    {e D k : Nat} {s : Sim} (hc : Chain nt N c d) (h : PipeMid N c d t n e D (k + 1) s)
    {j : Nat} (hj : j < d) (hcj : c j = k) (hn : 1 ≤ n j) :
    ∃ s1, processNode nt (fun _ => false) N t k s = Res.done s1 ∧
      PipeMid N c d t n e D k s1 := by
  have hdue := h.due j hj (by omega)
  rw [hcj] at hdue
  have hkE : k ≠ N - 1 := hcj ▸ hc.ne j hj
  have hck : ∀ i, i < d → i ≠ j → c i ≠ k := by
    intro i hi hij e1
    exact hij (hc.inj i j hi hj (e1.trans hcj.symm))
  have hdk : c (j + 1) ≠ k := by
    by_cases hjd : j + 1 < d
    · exact hck (j + 1) hjd (by omega)
    · have : j + 1 = d := by omega
      rw [this, hc.sink]
      exact fun e1 => hkE e1.symm
  have hcd : ∀ i, i < d → i ≠ j + 1 → c i ≠ c (j + 1) := by
    intro i hi hij e1
    by_cases hjd : j + 1 < d
    · exact hij (hc.inj i (j + 1) hi hjd e1)
    · have : j + 1 = d := by omega
      rw [this, hc.sink] at e1
      exact hc.ne i hi e1
  rcases first_due t (s.packets k) with hnd | ⟨pre, x, post, hs, hpre, hx⟩
  · exfalso
    have : dueCount t (s.packets k) = 0 := by
      unfold dueCount
      rw [List.countP_eq_zero]
      intro y hy
      simpa using hnd y hy
    omega
  · have hdr := h.draws
    cases hds : s.draws with
    | nil => rw [hds] at hdr; simp at hdr
    | cons r ds =>
      have hconn := hc.conn j hj
      have hnext := hc.next j hj
      rw [hcj] at hconn hnext
      have hp := @processNode_forward_eff nt (fun _ => false) N _ _ _ _ _ _ _ _ _ hkE hs
        hpre hx hconn hds rfl hnext
      have hfv : (forwardedValue nt k x).natAbs ≠ t := by
        rw [forwardedValue_natAbs, hx]; omega
      have hLen : (pre ++ post.map (age t)).length + 1 = (s.packets k).length := by
        rw [hs]; simp; omega
      refine ⟨_, hp, processNode_midSweep h.abs hp, ?_, ?_, ?_, ?_, ?_⟩
      · intro i hi
        simp only
        rw [length_forward]
        have h1 := h.len i hi
        by_cases hij : i = j
        · subst hij
          rw [hcj] at h1 ⊢
          rw [if_pos rfl, if_neg (Ne.symm hdk)]
          by_cases hi0 : 1 ≤ i
          · have h3 := hck (i - 1) (by omega) (by omega)
            split_ifs at h1 ⊢ <;> omega
          · split_ifs at h1 ⊢ <;> omega
        · by_cases hij1 : i = j + 1
          · subst hij1
            rw [if_neg hdk, if_pos rfl]
            simp only [Nat.add_sub_cancel] at h1 ⊢
            rw [hcj] at h1 ⊢
            split_ifs at h1 ⊢ <;> omega
          · rw [if_neg (hck i hi hij), if_neg (hcd i hi hij1)]
            have h2 := hck i hi hij
            by_cases hi0 : 1 ≤ i
            · have h3 := hck (i - 1) (by omega) (by omega)
              split_ifs at h1 ⊢ <;> omega
            · split_ifs at h1 ⊢ <;> omega
      · intro i hi hlt
        simp only
        have hik : c i ≠ k := by omega
        rw [dueCount_forward_other _ _ hik hfv]
        exact h.due i hi (by omega)
      · simp only
        rw [length_forward, if_neg (Ne.symm hkE)]
        have h1 := h.sink
        by_cases hjd : j + 1 = d
        · have hd1 : d - 1 = j := by omega
          rw [hd1, hcj] at h1 ⊢
          rw [hjd, hc.sink, if_pos rfl]
          split_ifs at h1 ⊢ <;> omega
        · have hne : N - 1 ≠ c (j + 1) := fun e1 => hc.ne (j + 1) (by omega) e1.symm
          rw [if_neg hne]
          have h3 := hck (d - 1) (by have := hc.pos; omega) (by omega)
          split_ifs at h1 ⊢ <;> omega
      · intro v hvN hvE hv
        simp only
        have hvk : v ≠ k := fun e1 => hv j hj (e1.trans hcj.symm)
        have hvd : v ≠ c (j + 1) := by
          by_cases hjd : j + 1 < d
          · exact hv (j + 1) hjd
          · have : j + 1 = d := by omega
            rw [this, hc.sink]
            exact hvE
        unfold pushPacket
        rw [upd_other _ _ hvd, upd_other _ _ hvk]
        exact h.off v hvN hvE hv
      · simp only
        rw [hds] at hdr
        simp only [List.length_cons] at hdr
        omega

/-- One step of the sweep on a forwarding chain. -/
theorem PipeMid.step {nt : Net} {N : Nat} {c : Nat → Nat} {d t : Nat} {n : Nat → Nat}
    {e D k : Nat} {s : Sim} (hc : Chain nt N c d) (h : PipeMid N c d t n e D (k + 1) s)
    (hk : k < N) :
    ∃ s1, processNode nt (fun _ => false) N t k s = Res.done s1 ∧
      PipeMid N c d t n e D k s1 := by
  by_cases hon : ∃ j, j < d ∧ c j = k ∧ 1 ≤ n j
  · obtain ⟨j, hj, hcj, hn⟩ := hon
    exact PipeMid.forward hc h hj hcj hn
  · have hk1 : ∀ i, i < d → c i ≠ k ∨ n i = 0 := by
      intro i hi
      by_cases hci : c i = k
      · right
        by_contra hn
        exact hon ⟨i, hi, hci, by omega⟩
      · exact Or.inl hci
    have hidle : k = N - 1 ∨ ∀ y, y ∈ s.packets k → y.natAbs ≠ t := by
      by_cases hkE : k = N - 1
      · exact Or.inl hkE
      · right
        by_cases hch : ∃ j, j < d ∧ c j = k
        · obtain ⟨j, hj, hcj⟩ := hch
          have h0 : n j = 0 := by
            rcases hk1 j hj with h1 | h1
            · exact absurd hcj h1
            · exact h1
          have := h.due j hj (by omega)
          rw [hcj, h0] at this
          exact dueCount_eq_zero this
        · have := h.off k hk hkE (fun i hi e1 => hch ⟨i, hi, e1.symm⟩)
          rw [this]
          simp
    have hp := @processNode_idle nt (fun _ => false) N t _ _ hidle
    exact ⟨s, hp, PipeMid.idle hc.pos h hk1 hp⟩

theorem PipeMid.sweepFrom {nt : Net} {N : Nat} {c : Nat → Nat} {d t : Nat} {n : Nat → Nat}
    {e D : Nat} (hc : Chain nt N c d) :
    ∀ (k : Nat) (s : Sim), k ≤ N → PipeMid N c d t n e D k s →
      ∃ s1, sweep nt (fun _ => false) N t k s = Res.done s1 ∧ PipeMid N c d t n e D 0 s1 := by
  intro k
  induction k with
  | zero => intro s _ h; exact ⟨s, rfl, h⟩
  | succ k ih =>
    intro s hk h
    obtain ⟨s1, hp, h1⟩ := PipeMid.step hc h (by omega)
    obtain ⟨s2, hs, h2⟩ := ih s1 (by omega) h1
    refine ⟨s2, ?_, h2⟩
    rw [NetSim.sweep, hp]
    exact hs

theorem PipeTick.toMid {nt : Net} {N : Nat} {c : Nat → Nat} {d P t D : Nat} {s : Sim}
    (hc : Chain nt N c d) (h : PipeTick N c d P t s) (hdr : D + N ≤ s.draws.length) :
    PipeMid N c d t (fun i => nPipe P i t) (ePipe P d t) D N s := by
  have hd := hc.pos
  refine ⟨?_, ?_, ?_, ?_, h.off, hdr⟩
  · intro v hvN hvE y hy
    exact ⟨fun hNv => by omega, fun _ => Or.inl (h.abs v hvN hvE y hy)⟩
  · intro i hi
    have h1 := hc.lt i hi
    have h2 := h.len i hi
    by_cases hi0 : 1 ≤ i
    · have h3 := hc.lt (i - 1) (by omega)
      split_ifs <;> omega
    · split_ifs <;> omega
  · intro i hi _
    rw [dueCount_of_all (h.abs (c i) (hc.lt i hi) (hc.ne i hi))]
    exact h.len i hi
  · have h1 := hc.lt (d - 1) (by omega)
    have h2 := h.sink
    split_ifs <;> omega

theorem PipeMid.toTick {N : Nat} {c : Nat → Nat} {d P t D : Nat} {s : Sim} (hd : 1 ≤ d)
    (hP : 1 ≤ P) (h : PipeMid N c d t (fun i => nPipe P i t) (ePipe P d t) D 0 s) :
    PipeTick N c d P (t + 1) s := by
  refine ⟨?_, ?_, ?_, h.off⟩
  · intro v hvN hvE y hy
    exact (h.abs v hvN hvE y hy).1 (Nat.zero_le v)
  · intro i hi
    have h1 := h.len i hi
    simp only [nPipe] at h1 ⊢
    by_cases hi0 : i = 0
    · subst hi0
      simp only [if_true, Nat.zero_le, true_and, Nat.le_zero_eq, Nat.one_ne_zero,
        false_and, if_false, reduceIte] at h1 ⊢
      split_ifs at h1 <;> omega
    · by_cases hi1 : i = 1
      · subst hi1
        simp only [Nat.one_ne_zero, if_false, Nat.sub_self, if_true, Nat.zero_le, true_and,
          le_refl] at h1 ⊢
        split_ifs at h1 ⊢ <;> omega
      · have hpred : ¬ (i - 1 = 0) := by omega
        simp only [hi0, hpred, if_false, Nat.zero_le, true_and] at h1 ⊢
        split_ifs at h1 ⊢ <;> omega
  · have h1 := h.sink
    simp only [nPipe, ePipe, Nat.zero_le, true_and, Nat.min_def] at h1 ⊢
    by_cases hd1 : d - 1 = 0
    · simp only [hd1, if_true] at h1
      split_ifs at h1 ⊢ <;> omega
    · simp only [hd1, if_false] at h1
      split_ifs at h1 ⊢ <;> omega

/-- One tick of the pipeline. -/
theorem PipeTick.sweepTick {nt : Net} {N : Nat} {c : Nat → Nat} {d P t D : Nat} {s : Sim}
    (hc : Chain nt N c d) (hP : 1 ≤ P) (h : PipeTick N c d P t s)
    (hdr : D + N ≤ s.draws.length) :
    ∃ s1, NetSim.sweep nt (fun _ => false) N t N s = Res.done s1 ∧
      PipeTick N c d P (t + 1) s1 ∧ D ≤ s1.draws.length := by
  obtain ⟨s1, hs, hm⟩ := PipeMid.sweepFrom hc N s (le_refl _) (h.toMid hc hdr)
  exact ⟨s1, hs, hm.toTick hc.pos hP, by have := hm.draws; omega⟩

theorem sweeps_snoc {nt : Net} {route : Nat → Bool} {N : Nat} :
    ∀ (k t : Nat) (s s1 s2 : Sim), sweeps nt route N k t s = Res.done s1 →
      NetSim.sweep nt route N (t + k) N s1 = Res.done s2 →
      sweeps nt route N (k + 1) t s = Res.done s2 := by
  intro k
  induction k with
  | zero =>
    intro t s s1 s2 h1 h2
    simp only [sweeps, Res.done.injEq] at h1
    subst h1
    rw [Nat.add_zero] at h2
    rw [sweeps, h2]
    rfl
  | succ k ih =>
    intro t s s1 s2 h1 h2
    rw [sweeps] at h1
    split at h1
    · rename_i s3 hs3
      rw [sweeps, hs3]
      exact ih (t + 1) s3 s1 s2 h1
        (by rw [show t + 1 + k = t + (k + 1) by omega]; exact h2)
    · simp at h1
    · simp at h1
    · simp at h1

theorem PipeTick.start {nt : Net} {N : Nat} {c : Nat → Nat} {d P : Nat} (hc : Chain nt N c d)
    (ds : List Nat) : PipeTick N c d P 0 (Sim.start P ds) := by
  have hd := hc.pos
  have h0 : ∀ v, v ≠ 0 → (Sim.start P ds).packets v = [] := by
    intro v hv
    simp only [Sim.start]
    rw [upd_other _ _ hv]
  refine ⟨start_allAt N P ds, ?_, ?_, ?_⟩
  · intro i hi
    by_cases hi0 : i = 0
    · subst hi0
      rw [hc.start]
      simp [Sim.start, nPipe]
    · have hne : c i ≠ 0 := by
        intro e1
        exact hi0 (hc.inj i 0 hi (by omega) (e1.trans hc.start.symm))
      rw [h0 _ hne]
      simp [nPipe, hi0]
  · have hne : N - 1 ≠ 0 := by
      intro e1
      exact hc.ne 0 (by omega) (hc.start.trans e1.symm)
    rw [h0 _ hne]
    simp only [ePipe, List.length_nil]
    omega
  · intro v _ _ hv
    exact h0 v (fun e1 => hv 0 (by omega) (e1.trans hc.start.symm))

/-- The pipeline runs for any number of ticks for which draws are left. -/
theorem pipeline_sweeps {nt : Net} {N : Nat} {c : Nat → Nat} {d P : Nat}
    (hc : Chain nt N c d) (hP : 1 ≤ P) (ds : List Nat) :
    ∀ t, N * t ≤ ds.length →
      ∃ s, sweeps nt (fun _ => false) N t 0 (Sim.start P ds) = Res.done s ∧
        PipeTick N c d P t s ∧ ds.length ≤ s.draws.length + N * t := by
  intro t
  induction t with
  | zero =>
    intro _
    exact ⟨Sim.start P ds, rfl, PipeTick.start hc ds, by simp [Sim.start]⟩
  | succ t ih =>
    intro hle
    have hmul : N * (t + 1) = N * t + N := Nat.mul_succ N t
    obtain ⟨s, hs, hpt, hdr⟩ := ih (by omega)
    obtain ⟨s1, hs1, hpt1, hdr1⟩ := PipeTick.sweepTick (D := ds.length - (N * t + N)) hc hP hpt
      (by omega)
    refine ⟨s1, sweeps_snoc t 0 _ s s1 hs (by rw [Nat.zero_add]; exact hs1), hpt1, ?_⟩
    omega

/-- If the queue of `End` first holds `P` tokens after the `T`-th sweep, the time
loop returns after `T` sweeps. -/
theorem simLoop_of_sweeps {nt : Net} {route : Nat → Bool} {N P : Nat} :
    ∀ (T fuel t0 : Nat) (s0 sT : Sim), 1 ≤ T → T ≤ fuel →
      sweeps nt route N T t0 s0 = Res.done sT → (sT.packets (N - 1)).length = P →
      (∀ k s, 1 ≤ k → k < T → sweeps nt route N k t0 s0 = Res.done s →
        (s.packets (N - 1)).length ≠ P) →
      simLoop nt route N P fuel t0 s0 = Res.done (t0 + T, sT) := by
  intro T
  induction T with
  | zero => intro fuel t0 s0 sT h; omega
  | succ T ih =>
    intro fuel t0 s0 sT _ hf hsw hP hne
    obtain ⟨f, rfl⟩ : ∃ f, fuel = f + 1 := ⟨fuel - 1, by omega⟩
    rw [sweeps] at hsw
    split at hsw
    · rename_i s1 hs1
      rw [simLoop, hs1]
      by_cases hT : T = 0
      · subst hT
        simp only [sweeps, Res.done.injEq] at hsw
        subst hsw
        simp only [hP, ne_eq, not_true_eq_false, if_false]
      · have h1 : (s1.packets (N - 1)).length ≠ P :=
          hne 1 s1 (le_refl _) (by omega) (by rw [sweeps, hs1]; rfl)
        simp only [h1, ne_eq, not_false_eq_true, if_true]
        rw [ih f (t0 + 1) s1 sT (by omega) (by omega) hsw hP
          (fun k s hk1 hk2 hks => hne (k + 1) s (by omega) (by omega)
            (by rw [sweeps, hs1]; exact hks))]
        rw [show t0 + 1 + T = t0 + (T + 1) by omega]
    · simp at hsw
    · simp at hsw
    · simp at hsw

theorem follow_succ_some {eff : Nat → Option Nat} {v i u : Nat}
    (h : follow eff v (i + 1) = some u) : ∃ w, follow eff v i = some w ∧ eff w = some u := by
  rw [follow] at h
  cases hf : follow eff v i with
  | none => rw [hf] at h; simp at h
  | some w => rw [hf] at h; exact ⟨w, rfl, h⟩

theorem follow_some_of_le {eff : Nat → Option Nat} {v x : Nat} :
    ∀ (d : Nat), follow eff v d = some x → ∀ i, i ≤ d → ∃ u, follow eff v i = some u := by
  intro d
  induction d generalizing x with
  | zero =>
    intro h i hi
    have : i = 0 := by omega
    exact ⟨x, this ▸ h⟩
  | succ d ih =>
    intro h i hi
    by_cases hid : i = d + 1
    · exact ⟨x, hid ▸ h⟩
    · obtain ⟨w, hw, _⟩ := follow_succ_some h
      exact ih hw i (by omega)

/-- The forwarding chain of a topology in which `End` is first reached from
`Start` after `d` hops, through nodes with a connection. -/
theorem chain_of_firstReaches {nt : Net} {N d : Nat} (hd : 1 ≤ d)
    (hfr : FirstReaches nt.efficientNeighbor (N - 1) 0 d)
    (hnodes : ∀ i u, i < d → follow nt.efficientNeighbor 0 i = some u →
      u < N ∧ (nt.connections u).length ≠ 0) :
    Chain nt N (fun i => (follow nt.efficientNeighbor 0 i).getD 0) d := by
  have hsome : ∀ i, i ≤ d →
      follow nt.efficientNeighbor 0 i = some ((follow nt.efficientNeighbor 0 i).getD 0) := by
    intro i hi
    obtain ⟨u, hu⟩ := follow_some_of_le d hfr.1 i hi
    rw [hu]
    rfl
  have hnext : ∀ i, i < d → nt.efficientNeighbor ((follow nt.efficientNeighbor 0 i).getD 0) =
      some ((follow nt.efficientNeighbor 0 (i + 1)).getD 0) := by
    intro i hi
    obtain ⟨w, hw, he⟩ := follow_succ_some (hsome (i + 1) (by omega))
    rw [hw]
    exact he
  have hne : ∀ i, i < d → (follow nt.efficientNeighbor 0 i).getD 0 ≠ N - 1 := by
    intro i hi e1
    apply hfr.2 i hi
    rw [hsome i (by omega), e1]
  have hshift : ∀ (m i j : Nat), i + m ≤ d → j + m ≤ d →
      (follow nt.efficientNeighbor 0 i).getD 0 = (follow nt.efficientNeighbor 0 j).getD 0 →
      (follow nt.efficientNeighbor 0 (i + m)).getD 0 =
        (follow nt.efficientNeighbor 0 (j + m)).getD 0 := by
    intro m
    induction m with
    | zero => intro i j _ _ h; exact h
    | succ m ih =>
      intro i j hi hj h
      have h1 := ih i j (by omega) (by omega) h
      have h2 := hnext (i + m) (by omega)
      have h3 := hnext (j + m) (by omega)
      rw [h1, h3] at h2
      exact (Option.some.inj h2).symm
  have hlast : (follow nt.efficientNeighbor 0 d).getD 0 = N - 1 := by
    rw [hfr.1]; rfl
  refine ⟨hd, rfl, hlast, fun i hi => (hnodes i _ hi (hsome i (by omega))).1, hne, hnext,
    fun i hi => (hnodes i _ hi (hsome i (by omega))).2, ?_⟩
  intro i j hi hj h
  by_contra hij
  rcases Nat.lt_or_gt_of_ne hij with hlt | hlt
  · have := hshift (d - j) i j (by omega) (by omega) h
    rw [show j + (d - j) = d by omega, hlast] at this
    exact hne (i + (d - j)) (by omega) this
  · have := hshift (d - i) i j (by omega) (by omega) h
    rw [show i + (d - i) = d by omega, hlast] at this
    exact hne (j + (d - i)) (by omega) this.symm

/-- On a forwarding chain of `d` hops, without random routing, the time loop
returns after exactly `d + P - 1` sweeps. -/
theorem pipeline_simLoop {nt : Net} {N : Nat} {c : Nat → Nat} {d P fuel : Nat}
    (hc : Chain nt N c d) (hP : 1 ≤ P) (ds : List Nat) (hfuel : d + P - 1 ≤ fuel)
    (hdraws : N * (d + P - 1) ≤ ds.length) :
    ∃ s, simLoop nt (fun _ => false) N P fuel 0 (Sim.start P ds) =
        Res.done (d + P - 1, s) ∧ PipeTick N c d P (d + P - 1) s := by
  have hd := hc.pos
  obtain ⟨sT, hsT, hpT, -⟩ := pipeline_sweeps hc hP ds (d + P - 1) hdraws
  refine ⟨sT, ?_, hpT⟩
  have := @simLoop_of_sweeps nt (fun _ => false) N P
    (d + P - 1) fuel 0 (Sim.start P ds) sT (by omega) hfuel hsT
    (by rw [hpT.sink, ePipe]; omega)
    (by
      intro k s hk1 hk2 hks
      have hle : N * k ≤ ds.length :=
        le_trans (Nat.mul_le_mul_left N (by omega)) hdraws
      obtain ⟨s1, hs1, hp1, -⟩ := pipeline_sweeps hc hP ds k hle
      rw [hks] at hs1
      simp only [Res.done.injEq] at hs1
      subst hs1
      rw [hp1.sink, ePipe]
      omega)
  rw [Nat.zero_add] at this
  exact this

/-! ### Single-precision rounding and the routing test -/

theorem roundHalfEven_cases (x : ℚ) : roundHalfEven x = ⌊x⌋ ∨ roundHalfEven x = ⌊x⌋ + 1 := by
  unfold roundHalfEven
  split_ifs <;> simp

theorem le_roundHalfEven {x : ℚ} {n : Int} (h : (n : ℚ) ≤ x) : n ≤ roundHalfEven x := by
  have hfn : n ≤ ⌊x⌋ := Int.le_floor.mpr h
  rcases roundHalfEven_cases x with e | e <;> rw [e] <;> omega

theorem binade_le {q : ℚ} (hq : 0 < q) : (2 : ℚ) ^ Int.log 2 q ≤ q := by
  have := Int.zpow_log_le_self (b := 2) (by decide) hq
  simpa using this

theorem binade_lt (q : ℚ) : q < (2 : ℚ) ^ (Int.log 2 q + 1) := by
  have := Int.lt_zpow_succ_log_self (b := 2) (by decide) q
  simpa using this

theorem significand_bounds {q : ℚ} (hq : 0 < q) :
    (2 : ℚ) ^ (23 : Nat) ≤ q / 2 ^ (Int.log 2 q - 23) ∧
      q / 2 ^ (Int.log 2 q - 23) < (2 : ℚ) ^ (24 : Nat) := by
  have hpos : (0 : ℚ) < 2 ^ (Int.log 2 q - 23) := by positivity
  have e1 : (2 : ℚ) ^ (23 : Nat) * 2 ^ (Int.log 2 q - 23) = 2 ^ Int.log 2 q := by
    rw [← zpow_natCast, ← zpow_add₀ (by norm_num)]
    congr 1
    omega
  have e2 : (2 : ℚ) ^ (24 : Nat) * 2 ^ (Int.log 2 q - 23) = 2 ^ (Int.log 2 q + 1) := by
    rw [← zpow_natCast, ← zpow_add₀ (by norm_num)]
    congr 1
    omega
  constructor
  · rw [le_div_iff₀ hpos, e1]
    exact binade_le hq
  · rw [div_lt_iff₀ hpos, e2]
    exact binade_lt q

theorem roundFloat_nonneg (q : ℚ) : 0 ≤ roundFloat q := by
  unfold roundFloat
  split_ifs with h
  · exact le_refl _
  · have hq : 0 < q := not_le.mp h
    have hs := (significand_bounds hq).1
    have : (0 : Int) ≤ roundHalfEven (q / 2 ^ (Int.log 2 q - 23)) :=
      le_roundHalfEven (le_trans (by norm_num) hs)
    have h2 : (0 : ℚ) ≤ (roundHalfEven (q / 2 ^ (Int.log 2 q - 23)) : ℚ) := by exact_mod_cast this
    positivity

theorem roundFloat_zero : roundFloat 0 = 0 := by
  simp [roundFloat]

theorem routingTest_draw_zero (m : Nat) (p : ℚ) :
    routingTest m p 0 = decide (0 < m ∧ 0 < p) := by
  simp [routingTest, roundFloat_zero]

theorem routingTest_zero (m : Nat) : routingTest m 0 = fun _ => false := by
  funext r
  simp only [routingTest, decide_eq_false_iff_not, not_and, not_lt]
  intro _
  exact roundFloat_nonneg _

theorem run_done {N P RAND_MAX fuel attempts : Nat} {p : ℚ} {ds ds1 : List Nat} {nt : Net}
    {t bc : Nat} (hg : generate N fuel attempts Net.init ds = Res.done (nt, ds1))
    (hs : simulate nt (routingTest RAND_MAX p) N P fuel ds1 = Res.done (t, bc)) :
    run N P RAND_MAX p fuel attempts ds = Res.done (nt, t, bc) := by
  unfold run
  rw [hg]
  simp only
  rw [hs]

theorem run_fatal {N P RAND_MAX fuel attempts : Nat} {p : ℚ} {ds ds1 : List Nat} {nt : Net}
    (hg : generate N fuel attempts Net.init ds = Res.done (nt, ds1))
    (hs : simulate nt (routingTest RAND_MAX p) N P fuel ds1 = Res.fatal) :
    run N P RAND_MAX p fuel attempts ds = Res.fatal := by
  unfold run
  rw [hg]
  simp only
  rw [hs]

set_option maxRecDepth 100000 in
/-- C1, evaluated at `drawsStaleChain` on 10 nodes: the first attempt is rejected
after the route precomputation has run, the second is accepted with the
forwarding targets of the first still in place.  The chain from the neighbour
of `Start` is 1, 2, 3, 4, so the reported optimal path length is 5, while the
shortest-path hop distance from `Start` to `End` in the accepted adjacency is
4. -/
theorem stale_chain_is_not_shortest :
    (attempt 10 11 Net.init drawsStaleChain).holds (fun r => r.1 = true) ∧
    (generate 10 11 2 Net.init drawsStaleChain).holds (fun r =>
      r.1.possibleTargets = [1, 2, 3, 4] ∧ r.1.possibleTargets.length + 1 = 5 ∧
      IsDist r.1.connections 9 0 4) := by
  decide

set_option maxRecDepth 100000 in
/-- C2, evaluated at `drawsStaleChain` on 10 nodes: in the accepted topology
node 1 has the forwarding target 2, left over from the rejected first attempt,
and its adjacency list is 0, 3. -/
theorem stale_target_is_not_a_neighbour :
    (generate 10 11 2 Net.init drawsStaleChain).holds (fun r =>
      r.1.efficientNeighbor 1 = some 2 ∧ r.1.connections 1 = [0, 3] ∧
      2 ∉ r.1.connections 1) := by
  decide

set_option maxRecDepth 100000 in
/-- C3, evaluated at `drawsLeafPruned` on 10 nodes: the first attempt is
accepted, `Start` keeps its first connection only, and node 4, whose only
connection was `Start`, is left with no adjacency entry. -/
theorem accepted_with_isolated_node :
    (generate 10 11 1 Net.init drawsLeafPruned).holds (fun r =>
      r.1.connections 0 = [1] ∧ (r.1.connections 4).length = 0) := by
  decide

set_option maxRecDepth 100000 in
/-- C7, evaluated at `drawsDisconnected` on 10 nodes: the draws suffice for the
wiring, `Start` and `End` each keep one adjacency, the reachability check
answers `false`, and the attempt then dereferences the null forwarding target
of the neighbour of `Start` in the reconstruction loop. -/
theorem reconstruction_follows_null :
    (wire 10 drawsDisconnected).isSome = true ∧
    (∀ w ∈ wire 10 drawsDisconnected,
      (w.2.1 0).length = 1 ∧ (w.2.1 9).length = 1 ∧
      (canGetToEnd w.2.1 9 11 (fun _ => false) 0).map Prod.fst = some false) ∧
    (attempt 10 11 Net.init drawsDisconnected).isFault = true := by
  decide

set_option maxRecDepth 100000 in
/-- C8, evaluated at `drawsStaleStart` on 10 nodes with one packet and
randomness 0: the run completes after an accepted second attempt; the reported
optimal path length is 4 and the surveillance node is 3, but the token follows
the forwarding target that `Start` kept from the first attempt, the final tick
count is 2 and the interception count is 0. -/
theorem stale_start_target_bypasses_surveillance :
    (run 10 1 2147483647 0 11 2 drawsStaleStart).holds (fun r =>
      r.1.possibleTargets.length + 1 = 4 ∧ r.1.Bad = some 3 ∧ r.2.1 = 2 ∧ r.2.2 = 0) := by
  have hg := Res.eq_done_get (Net.init, [])
    (show (generate 10 11 2 Net.init drawsStaleStart).holds (fun _ => True) by decide)
  have hs : simulate ((generate 10 11 2 Net.init drawsStaleStart).get (Net.init, [])).1
      (routingTest 2147483647 0) 10 1 11
      ((generate 10 11 2 Net.init drawsStaleStart).get (Net.init, [])).2 = Res.done (2, 0) := by
    rw [routingTest_zero]
    decide
  rw [run_done hg hs]
  decide

set_option maxRecDepth 100000 in
/-- C10, evaluated at `drawsStaleSink` on 10 nodes with one packet and
randomness 0: in the accepted topology `Start` still has the forwarding target
1 from the first attempt and node 1 has lost its only connection in the pruning
of `Start`; the token is due at node 1 in tick 1 and the run takes the
"reached a sink node" exit. -/
theorem stale_target_leads_to_sink :
    (generate 10 11 2 Net.init drawsStaleSink).holds (fun r =>
      r.1.efficientNeighbor 0 = some 1 ∧ (r.1.connections 1).length = 0) ∧
    (run 10 1 2147483647 0 11 2 drawsStaleSink).isFatal = true := by
  refine ⟨by decide, ?_⟩
  have hg := Res.eq_done_get (Net.init, [])
    (show (generate 10 11 2 Net.init drawsStaleSink).holds (fun _ => True) by decide)
  have hs : simulate ((generate 10 11 2 Net.init drawsStaleSink).get (Net.init, [])).1
      (routingTest 2147483647 0) 10 1 11
      ((generate 10 11 2 Net.init drawsStaleSink).get (Net.init, [])).2 = Res.fatal := by
    rw [routingTest_zero]
    decide
  rw [run_fatal hg hs]
  rfl

/-! ### The simulation: counters, conservation, per-node throughput, ticks -/

theorem simulate_sweeps {nt : Net} {route : Nat → Bool} {N P fuel : Nat} {ds : List Nat}
    {t bc : Nat} (h : simulate nt route N P fuel ds = Res.done (t, bc)) :
    ∃ s, sweeps nt route N t 0 (Sim.start P ds) = Res.done s ∧ bc = s.badCounter ∧
      1 ≤ t ∧ (s.packets (N - 1)).length = P := by
  unfold simulate at h
  split at h
  · rename_i t1 s1 hl
    simp only [Res.done.injEq, Prod.mk.injEq] at h
    obtain ⟨k, hk, hsw, ht, hP⟩ := simLoop_sweeps fuel 0 _ hl
    obtain ⟨h1, h2⟩ := h
    subst h1 h2
    rw [Nat.zero_add] at ht
    exact ⟨s1, ht ▸ hsw, rfl, ht ▸ hk, hP⟩
  · simp at h
  · simp at h
  · simp at h

/-- C11: in every simulation run with `packetCount` at least 1, after any number
of sweeps from the initial state the interception counter is at most
`packetCount` (it equals the number of negative tokens), and the security
percentage computed from it in exact arithmetic lies between 0 and 100; the
same holds for the counter reported when the time loop returns. -/
theorem interception_count_bounded (nt : Net) (route : Nat → Bool) (N P k : Nat)
    (ds : List Nat) (s : Sim) (hP : 1 ≤ P)
    (h : sweeps nt route N k 0 (Sim.start P ds) = Res.done s) :
    (s.badCounter ≤ P ∧ NegTotal s.packets s.badCounter ∧
        0 ≤ securityPercent P s.badCounter ∧ securityPercent P s.badCounter ≤ 100) ∧
      ∀ fuel t bc, simulate nt route N P fuel ds = Res.done (t, bc) →
        bc ≤ P ∧ 0 ≤ securityPercent P bc ∧ securityPercent P bc ≤ 100 := by
  have key : ∀ (k : Nat) (s : Sim), sweeps nt route N k 0 (Sim.start P ds) = Res.done s →
      s.badCounter ≤ P := fun k s h =>
    queueSum_neg_le (sweeps_totals h).2 (sweeps_totals h).1
  refine ⟨⟨key k s h, (sweeps_totals h).2, securityPercent_bounds hP (key k s h)⟩, ?_⟩
  intro fuel t bc hs
  obtain ⟨s1, hsw, hbc, -, -⟩ := simulate_sweeps hs
  rw [hbc]
  exact ⟨key t s1 hsw, securityPercent_bounds hP (key t s1 hsw)⟩

set_option maxRecDepth 100000 in
/-- C11, after three sweeps with two packets on the accepted line topology. -/
theorem interception_count_witness :
    1 ≤ 2 ∧
      sweeps acceptedLine (fun _ => false) 10 3 0 (Sim.start 2 [0, 0, 0, 0, 0]) =
        Res.done ((sweeps acceptedLine (fun _ => false) 10 3 0
          (Sim.start 2 [0, 0, 0, 0, 0])).get (Sim.start 0 [])) ∧
      ((sweeps acceptedLine (fun _ => false) 10 3 0
          (Sim.start 2 [0, 0, 0, 0, 0])).get (Sim.start 0 [])).badCounter ≤ 2 :=
  ⟨by decide, Res.eq_done_get _ (by decide),
    (interception_count_bounded acceptedLine (fun _ => false) 10 2 3 [0, 0, 0, 0, 0] _
      (by decide) (Res.eq_done_get _ (by decide))).1.1⟩

/-- C13: after any number of sweeps that did not abort the queues hold exactly
`packetCount` tokens in total and the queue of `End` holds at most that many;
a further sweep leaves the tokens queued at `End` in place (the old queue is a
prefix of the new one) and keeps the total. -/
theorem tokens_conserved (nt : Net) (route : Nat → Bool) (N P k : Nat) (ds : List Nat)
    (s : Sim) (h : sweeps nt route N k 0 (Sim.start P ds) = Res.done s) :
    TokensTotal s.packets P ∧ (s.packets (N - 1)).length ≤ P ∧
      ∀ s1, sweep nt route N k N s = Res.done s1 →
        s.packets (N - 1) <+: s1.packets (N - 1) ∧
          (s.packets (N - 1)).length ≤ (s1.packets (N - 1)).length ∧
          TokensTotal s1.packets P := by
  have hT := (sweeps_totals h).1
  refine ⟨hT, queueSum_one_le hT _, ?_⟩
  intro s1 hs
  exact ⟨sweep_end_kept hs, (sweep_end_kept hs).length_le, sweep_tokens hT hs⟩

set_option maxRecDepth 100000 in
/-- C13, after three sweeps with two packets on the accepted line topology. -/
theorem tokens_conserved_witness :
    sweeps acceptedLine (fun _ => false) 10 3 0 (Sim.start 2 [0, 0, 0, 0, 0]) =
        Res.done ((sweeps acceptedLine (fun _ => false) 10 3 0
          (Sim.start 2 [0, 0, 0, 0, 0])).get (Sim.start 0 [])) ∧
      TokensTotal ((sweeps acceptedLine (fun _ => false) 10 3 0
          (Sim.start 2 [0, 0, 0, 0, 0])).get (Sim.start 0 [])).packets 2 :=
  ⟨Res.eq_done_get _ (by decide),
    (tokens_conserved acceptedLine (fun _ => false) 10 2 3 [0, 0, 0, 0, 0] _
      (Res.eq_done_get _ (by decide))).1⟩

/-- C14: when the processing of node `v` in the sweep of tick `t` returns, either
nothing has changed (`v` is the sink or its queue holds no due token), or `v` is
not the sink and exactly the first due token `x` of its queue has been removed
and appended, advanced, to the queue of one destination; the tokens before `x`
are untouched, those after it stay in order, the due ones advanced and the
others untouched.  Advancing moves a token one unit away from zero. -/
theorem node_forwards_first_due_token (nt : Net) (route : Nat → Bool) (N t v : Nat)
    (s s1 : Sim) (h : processNode nt route N t v s = Res.done s1) :
    ((s1 = s ∧ (v = N - 1 ∨ ∀ y, y ∈ s.packets v → y.natAbs ≠ t)) ∨
      (v ≠ N - 1 ∧
        ∃ pre x post dest, s.packets v = pre ++ x :: post ∧
          (∀ y, y ∈ pre → y.natAbs ≠ t) ∧ x.natAbs = t ∧
          s1.packets =
            pushPacket (upd s.packets v (pre ++ post.map (age t))) dest
              (forwardedValue nt v x))) ∧
      (∀ y : Int, y.natAbs = t → age t y = advance y) ∧
      (∀ y : Int, y.natAbs ≠ t → age t y = y) ∧
      (∀ y : Int, 0 ≤ y → advance y = y + 1) ∧ (∀ y : Int, y < 0 → advance y = y - 1) := by
  refine ⟨?_, fun y hy => by simp [age, hy], fun y hy => age_of_not_due hy,
    fun y hy => advance_of_nonneg hy, fun y hy => advance_of_neg hy⟩
  rcases processNode_done h with h1 | ⟨hv, _, pre, x, post, dest, h2, h3, h4, _, h5, _⟩
  · exact Or.inl h1
  · exact Or.inr ⟨hv, pre, x, post, dest, h2, h3, h4, h5⟩

set_option maxRecDepth 100000 in
/-- C14, for `Start` holding three due tokens in tick 0 on the accepted line
topology: afterwards `Start` holds two tokens of value 1 and node 1 holds one. -/
theorem node_forwards_witness :
    processNode acceptedLine (fun _ => false) 10 0 0 (Sim.start 3 [5]) =
        Res.done ((processNode acceptedLine (fun _ => false) 10 0 0
          (Sim.start 3 [5])).get (Sim.start 0 [])) ∧
      ((processNode acceptedLine (fun _ => false) 10 0 0
          (Sim.start 3 [5])).get (Sim.start 0 [])).packets 0 = [1, 1] ∧
      ((processNode acceptedLine (fun _ => false) 10 0 0
          (Sim.start 3 [5])).get (Sim.start 0 [])).packets 1 = [1] ∧
      (((processNode acceptedLine (fun _ => false) 10 0 0
            (Sim.start 3 [5])).get (Sim.start 0 []) = Sim.start 3 [5] ∧
          (0 = 10 - 1 ∨ ∀ y, y ∈ (Sim.start 3 [5]).packets 0 → y.natAbs ≠ 0)) ∨
        (0 ≠ 10 - 1 ∧
          ∃ pre x post dest, (Sim.start 3 [5]).packets 0 = pre ++ x :: post ∧
            (∀ y, y ∈ pre → y.natAbs ≠ 0) ∧ x.natAbs = 0 ∧
            ((processNode acceptedLine (fun _ => false) 10 0 0
                (Sim.start 3 [5])).get (Sim.start 0 [])).packets =
              pushPacket (upd (Sim.start 3 [5]).packets 0 (pre ++ post.map (age 0))) dest
                (forwardedValue acceptedLine 0 x))) :=
  ⟨Res.eq_done_get _ (by decide), by decide, by decide,
    (node_forwards_first_due_token acceptedLine (fun _ => false) 10 0 0 (Sim.start 3 [5]) _
      (Res.eq_done_get _ (by decide))).1⟩

/-- C19: after `k` sweeps from the initial state, i.e. at the start of tick `k`,
every token queued at a non-sink node has absolute value exactly `k`; after the
sweep of tick `k` every such token has absolute value `k + 1`; and a token that
the processing of a node adds to another queue during tick `k` has absolute
value `k + 1`, so it is not due again in that sweep. -/
theorem tokens_carry_the_tick (nt : Net) (route : Nat → Bool) (N P k : Nat) (ds : List Nat)
    (s : Sim) (h : sweeps nt route N k 0 (Sim.start P ds) = Res.done s) :
    AllAt N s.packets k ∧
      (∀ s1, sweep nt route N k N s = Res.done s1 → AllAt N s1.packets (k + 1)) ∧
      ∀ v s0 s1, processNode nt route N k v s0 = Res.done s1 → ∀ u, u ≠ v →
        ∃ extra, s1.packets u = s0.packets u ++ extra ∧ extra.length ≤ 1 ∧
          ∀ y, y ∈ extra → y.natAbs = k + 1 ∧ y.natAbs ≠ k := by
  refine ⟨sweeps_allAt h, fun s1 hs => sweep_allAt (sweeps_allAt h) hs, ?_⟩
  intro v s0 s1 hp u hu
  obtain ⟨extra, h1, h2, h3⟩ := processNode_arrivals hp u hu
  exact ⟨extra, h1, h2, fun y hy => ⟨h3 y hy, by rw [h3 y hy]; omega⟩⟩

set_option maxRecDepth 100000 in
/-- C19, after three sweeps with two packets on the accepted line topology. -/
theorem tokens_carry_the_tick_witness :
    sweeps acceptedLine (fun _ => false) 10 3 0 (Sim.start 2 [0, 0, 0, 0, 0]) =
        Res.done ((sweeps acceptedLine (fun _ => false) 10 3 0
          (Sim.start 2 [0, 0, 0, 0, 0])).get (Sim.start 0 [])) ∧
      AllAt 10 ((sweeps acceptedLine (fun _ => false) 10 3 0
          (Sim.start 2 [0, 0, 0, 0, 0])).get (Sim.start 0 [])).packets 3 :=
  ⟨Res.eq_done_get _ (by decide),
    (tokens_carry_the_tick acceptedLine (fun _ => false) 10 2 3 [0, 0, 0, 0, 0] _
      (Res.eq_done_get _ (by decide))).1⟩

/-! ### The routing test, the surveillance choice, pruning -/

theorem pickEdge_suffix (N : Nat) (conn : Nat → List Nat) :
    ∀ (n : Nat) (ds : List Nat), ds.length ≤ n → ∀ {f t : Nat} {rest : List Nat},
      pickEdge N conn ds = some (f, t, rest) →
      ∃ pre, ds = pre ++ rest ∧ ∀ rest1, pickEdge N conn (pre ++ rest1) = some (f, t, rest1) := by
  intro n
  induction n with
  | zero =>
    intro ds hlen f t rest h
    cases ds with
    | nil => simp [pickEdge] at h
    | cons a l => simp at hlen
  | succ n ih =>
    intro ds hlen f t rest h
    match ds, hlen, h with
    | [], _, h => simp [pickEdge] at h
    | [_], _, h => simp [pickEdge] at h
    | r1 :: r2 :: tl, hlen, h =>
      rw [pickEdge] at h
      split at h
      · rename_i hc
        obtain ⟨pre, hpre, hall⟩ := ih tl (by simp at hlen; omega) h
        refine ⟨r1 :: r2 :: pre, by rw [hpre]; rfl, fun rest1 => ?_⟩
        rw [List.cons_append, List.cons_append, pickEdge, if_pos hc]
        exact hall rest1
      · rename_i hc
        simp only [Option.some.injEq, Prod.mk.injEq] at h
        obtain ⟨h1, h2, h3⟩ := h
        subst h1 h2 h3
        refine ⟨[r1, r2], rfl, fun rest1 => ?_⟩
        rw [List.cons_append, List.cons_append, List.nil_append, pickEdge, if_neg hc]

theorem addEdges_suffix (N : Nat) :
    ∀ (k : Nat) (conn : Nat → List Nat) (ds : List Nat) {c : Nat → List Nat}
      {rest : List Nat}, addEdges N k conn ds = some (c, rest) →
      ∃ pre, ds = pre ++ rest ∧ ∀ rest1, addEdges N k conn (pre ++ rest1) = some (c, rest1) := by
  intro k
  induction k with
  | zero =>
    intro conn ds c rest h
    simp only [addEdges, Option.some.injEq, Prod.mk.injEq] at h
    obtain ⟨h1, h2⟩ := h
    subst h1 h2
    exact ⟨[], rfl, fun rest1 => rfl⟩
  | succ k ih =>
    intro conn ds c rest h
    rw [addEdges] at h
    split at h
    · simp at h
    · rename_i f t mid hp
      obtain ⟨pre1, hpre1, hall1⟩ := pickEdge_suffix N conn ds.length ds (le_refl _) hp
      obtain ⟨pre2, hpre2, hall2⟩ := ih (connect conn f t) mid h
      refine ⟨pre1 ++ pre2, by rw [hpre1, hpre2, List.append_assoc], fun rest1 => ?_⟩
      rw [addEdges, List.append_assoc, hall1 (pre2 ++ rest1)]
      exact hall2 rest1

theorem wire_suffix {N : Nat} {ds rest : List Nat} {bad : Bool} {c : Nat → List Nat}
    (h : wire N ds = some (bad, c, rest)) :
    ∃ pre, ds = pre ++ rest ∧ ∀ rest1, wire N (pre ++ rest1) = some (bad, c, rest1) := by
  unfold wire at h
  split at h
  · simp at h
  · rename_i c0 ds1 ha
    simp only [Option.some.injEq, Prod.mk.injEq] at h
    obtain ⟨h1, h2, h3⟩ := h
    subst h1 h2 h3
    obtain ⟨pre, hpre, hall⟩ := addEdges_suffix N _ _ ds ha
    refine ⟨pre, hpre, fun rest1 => ?_⟩
    unfold wire
    rw [hall rest1]

theorem attempt_eval {N fuel : Nat} {st : Net} {ds0 dsw : List Nat} {bad0 : Bool}
    {c : Nat → List Nat} {reach : Bool × (Nat → Bool)} {bs : Bfs} {pt : List Nat}
    (hw : wire N ds0 = some (bad0, c, dsw))
    (hs : (c 0).length ≠ 0) (he : (c (N - 1)).length ≠ 0)
    (hr : canGetToEnd c (N - 1) fuel (fun _ => false) 0 = some reach)
    (hb : bfs c fuel (Bfs.start st.efficientNeighbor (N - 1)) = some bs)
    (hp : reconstruct bs.efficientNeighbor (N - 1) fuel (c 0).head? [] = Res.done pt) :
    attempt N fuel st ds0 =
      if pt.length ≤ 2 then
        Res.done (true,
          { connections := c, checked := bs.checked, efficientNeighbor := bs.efficientNeighbor,
            possibleTargets := pt, Bad := st.Bad }, dsw)
      else
        match dsw with
        | [] => Res.timeout
        | r :: ds2 =>
          Res.done (bad0 || !reach.1,
            { connections := c, checked := bs.checked,
              efficientNeighbor := bs.efficientNeighbor, possibleTargets := pt,
              Bad := pt.get? (r % (pt.length - 2) + 1) }, ds2) := by
  unfold attempt
  rw [hw]
  simp only
  rw [hr]
  simp only
  rw [if_neg hs, if_neg he, hb]
  simp only
  rw [hp]

theorem attempt_stages {N fuel : Nat} {st st1 : Net} {ds0 ds1 dsw : List Nat} {b bad0 : Bool}
    {c : Nat → List Nat} (hw : wire N ds0 = some (bad0, c, dsw))
    (hs : (c 0).length ≠ 0) (he : (c (N - 1)).length ≠ 0)
    (h : attempt N fuel st ds0 = Res.done (b, st1, ds1)) :
    ∃ reach bs pt, canGetToEnd c (N - 1) fuel (fun _ => false) 0 = some reach ∧
      bfs c fuel (Bfs.start st.efficientNeighbor (N - 1)) = some bs ∧
      reconstruct bs.efficientNeighbor (N - 1) fuel (c 0).head? [] = Res.done pt := by
  unfold attempt at h
  rw [hw] at h
  simp only at h
  split at h
  · simp at h
  · rename_i r chk hr
    rw [if_neg hs, if_neg he] at h
    split at h
    · simp at h
    · rename_i bs hb
      split at h
      · simp at h
      · simp at h
      · simp at h
      · rename_i pt hp
        exact ⟨(r, chk), bs, pt, hr, hb, hp⟩

/-- C16: consider a generation attempt that returns and in whose wiring `Start`
and `End` have a connection, so that it reaches the reconstruction; let `pt` be
the reconstructed sequence (`possibleTargets`), of length `L`.  The attempt ends
with the choice of lines 270-274 made on `pt` with the draws left by the wiring.
With `L ≤ 2` the attempt is rejected: `badNetwork` is set, no draw is used, the
surveillance node stays as it was and the generation loop goes on to the next
attempt.  With `L > 2` the next draw `r` is used and the surveillance node is
the entry of `pt` at index `r % (L - 2) + 1`; this index lies in `[1, L - 2]`,
is neither the first nor the last index and holds an entry; and for every index
`i` in `[1, L - 2]` there are draws for which the attempt ends in the same state
with the entry at index `i` as surveillance node. -/
theorem surveillance_choice (N fuel : Nat) (st st1 : Net) (ds0 ds1 dsw : List Nat)
    (b bad0 : Bool) (c : Nat → List Nat) (hw : wire N ds0 = some (bad0, c, dsw))
    (hs : (c 0).length ≠ 0) (he : (c (N - 1)).length ≠ 0)
    (h : attempt N fuel st ds0 = Res.done (b, st1, ds1)) :
    (∃ reach bs, canGetToEnd c (N - 1) fuel (fun _ => false) 0 = some reach ∧
        bfs c fuel (Bfs.start st.efficientNeighbor (N - 1)) = some bs ∧
        reconstruct bs.efficientNeighbor (N - 1) fuel (c 0).head? [] =
          Res.done st1.possibleTargets ∧
        chooseSurveillance st1.possibleTargets (bad0 || !reach.1) st.Bad dsw =
          some (b, st1.Bad, ds1)) ∧
      (st1.possibleTargets.length ≤ 2 →
        b = true ∧ st1.Bad = st.Bad ∧ ds1 = dsw ∧
          ∀ k, generate N fuel (k + 1) st ds0 = generate N fuel k st1 ds1) ∧
      (2 < st1.possibleTargets.length →
        ∃ r, dsw = r :: ds1 ∧
          st1.Bad =
            st1.possibleTargets.get? (r % (st1.possibleTargets.length - 2) + 1) ∧
          (∃ x, st1.Bad = some x) ∧
          1 ≤ r % (st1.possibleTargets.length - 2) + 1 ∧
          r % (st1.possibleTargets.length - 2) + 1 ≤ st1.possibleTargets.length - 2 ∧
          r % (st1.possibleTargets.length - 2) + 1 ≠ 0 ∧
          r % (st1.possibleTargets.length - 2) + 1 ≠ st1.possibleTargets.length - 1 ∧
          ∀ i, 1 ≤ i → i ≤ st1.possibleTargets.length - 2 →
            ∃ ds2, attempt N fuel st ds2 =
              Res.done (b, { st1 with Bad := st1.possibleTargets.get? i }, ds1)) := by
  obtain ⟨reach, bs, pt, hr, hb, hp⟩ := attempt_stages hw hs he h
  have hev := attempt_eval hw hs he hr hb hp
  rw [hev] at h
  by_cases hle : pt.length ≤ 2
  · rw [if_pos hle] at h
    simp only [Res.done.injEq, Prod.mk.injEq] at h
    obtain ⟨h1, h2, h3⟩ := h
    subst h1 h2 h3
    refine ⟨⟨reach, bs, hr, hb, hp, by simp [chooseSurveillance, hle]⟩, ?_, ?_⟩
    · intro _
      refine ⟨rfl, rfl, rfl, fun k => ?_⟩
      rw [generate, hev, if_pos hle]
    · intro hlt
      exact absurd hlt (by simpa using hle)
  · rw [if_neg hle] at h
    cases dsw with
    | nil => simp at h
    | cons r ds2 =>
      simp only [Res.done.injEq, Prod.mk.injEq] at h
      obtain ⟨h1, h2, h3⟩ := h
      subst h1 h2 h3
      have hlt : 2 < pt.length := by omega
      have hmod : r % (pt.length - 2) < pt.length - 2 := Nat.mod_lt _ (by omega)
      refine ⟨⟨reach, bs, hr, hb, hp, by simp [chooseSurveillance, hle]⟩, ?_, ?_⟩
      · intro hc
        exact absurd hc hle
      · intro _
        refine ⟨r, rfl, rfl, ?_, by omega, by simpa using Nat.le_of_lt_succ (by omega),
          by omega, ?_, ?_⟩
        · have hidx : r % (pt.length - 2) + 1 < pt.length := by omega
          exact ⟨pt.get ⟨_, hidx⟩, List.get?_eq_get hidx⟩
        · simp only
          omega
        · intro i hi1 hi2
          obtain ⟨pre, -, hall⟩ := wire_suffix hw
          refine ⟨pre ++ (i - 1) :: ds2, ?_⟩
          rw [attempt_eval (hall ((i - 1) :: ds2)) hs he hr hb hp, if_neg hle]
          simp only at hi2 ⊢
          rw [Nat.mod_eq_of_lt (by omega), Nat.sub_add_cancel hi1]

theorem Option.eq_some_getD {α : Type} {o : Option α} (d : α) (h : o.isSome = true) :
    o = some (o.getD d) := by
  cases o with
  | none => simp at h
  | some a => rfl

set_option maxRecDepth 100000 in
/-- C16, for the attempt with the draws `drawsLeafPruned` on 10 nodes: the
reconstructed sequence is 1, 2, 3, the draw left by the wiring is 0 and the
surveillance node is the entry at index 1, node 2. -/
theorem surveillance_choice_witness :
    wire 10 drawsLeafPruned =
        some ((wire 10 drawsLeafPruned).getD (false, fun _ => [], [])) ∧
      (((wire 10 drawsLeafPruned).getD (false, fun _ => [], [])).2.1 0).length ≠ 0 ∧
      (((wire 10 drawsLeafPruned).getD (false, fun _ => [], [])).2.1 (10 - 1)).length ≠ 0 ∧
      attempt 10 11 Net.init drawsLeafPruned =
        Res.done ((attempt 10 11 Net.init drawsLeafPruned).get (true, Net.init, [])) ∧
      ((attempt 10 11 Net.init drawsLeafPruned).get (true, Net.init, [])).2.1.possibleTargets =
        [1, 2, 3] ∧
      ((attempt 10 11 Net.init drawsLeafPruned).get (true, Net.init, [])).2.1.Bad = some 2 ∧
      ∃ r, ((wire 10 drawsLeafPruned).getD (false, fun _ => [], [])).2.2 =
          r :: ((attempt 10 11 Net.init drawsLeafPruned).get (true, Net.init, [])).2.2 ∧
        ((attempt 10 11 Net.init drawsLeafPruned).get (true, Net.init, [])).2.1.Bad =
          [1, 2, 3].get? (r % (3 - 2) + 1) :=
  ⟨Option.eq_some_getD _ (by decide), by decide, by decide, Res.eq_done_get _ (by decide),
    by decide, by decide,
    ((surveillance_choice 10 11 Net.init _ drawsLeafPruned _ _ _ _ _
      (Option.eq_some_getD (false, fun _ => [], []) (by decide)) (by decide) (by decide)
      (Res.eq_done_get (true, Net.init, []) (by decide))).2.2 (by decide)).imp
      (fun _ hr => ⟨hr.1, hr.2.1⟩)⟩

/-- C17: let the node `s` list `a` first and then `rest`, not list itself, list
no node twice, and let the adjacency be symmetric.  After the pruning of `s`,
`s` lists exactly `a`; every node of `rest` has lost `s` and kept its other
entries in order; every other node keeps its list; and `a` is the only node
that still lists `s`.  This holds for `Start` and for `End` alike. -/
theorem prune_keeps_first_connection (s : Nat) (conn : Nat → List Nat) (a : Nat)
    (rest : List Nat) (hs : conn s = a :: rest) (hself : s ∉ conn s)
    (hnodup : (conn s).Nodup) (hsym : ∀ v w, w ∈ conn v → v ∈ conn w) :
    prune s conn s = [a] ∧
      (∀ v, v ∈ rest →
        prune s conn v = (conn v).filter (fun x => decide (x ≠ s)) ∧ s ∉ prune s conn v) ∧
      (∀ v, v ≠ s → v ∉ rest → prune s conn v = conn v) ∧
      ∀ v, s ∈ prune s conn v ↔ v = a := by
  obtain ⟨h1, h2⟩ := prune_spec hs hself
  have has : a ≠ s := fun e => hself (by rw [hs, e]; simp)
  have har : a ∉ rest := by
    rw [hs] at hnodup
    exact (List.nodup_cons.1 hnodup).1
  have hrs : ∀ v, v ∈ rest → v ≠ s := fun v hv e => hself (by rw [hs, ← e]; simp [hv])
  have hrest : ∀ v, v ∈ rest →
      prune s conn v = (conn v).filter (fun x => decide (x ≠ s)) := by
    intro v hv
    rw [h2 v (hrs v hv), if_pos hv]
  refine ⟨h1, fun v hv => ⟨hrest v hv, ?_⟩, fun v hv hr => by rw [h2 v hv, if_neg hr], ?_⟩
  · rw [hrest v hv]
    simp [List.mem_filter]
  · intro v
    by_cases hvs : v = s
    · subst hvs
      rw [h1, List.mem_singleton]
    · by_cases hvr : v ∈ rest
      · rw [hrest v hvr]
        constructor
        · intro hm
          simp [List.mem_filter] at hm
        · intro e
          exact absurd (e ▸ hvr) har
      · rw [h2 v hvs, if_neg hvr]
        constructor
        · intro hm
          have := hsym v s hm
          rw [hs] at this
          rcases List.mem_cons.1 this with e | e
          · exact e
          · exact absurd e hvr
        · intro e
          rw [e]
          exact hsym s a (by rw [hs]; simp)

/-- C17, on the path 0-1-2-3 with the chord 1-3, pruning node 1 (connections
0, 2, 3). -/
theorem prune_keeps_first_connection_witness :
    chordPath 1 = 0 :: [2, 3] ∧ 1 ∉ chordPath 1 ∧ (chordPath 1).Nodup ∧
      (∀ v w, w ∈ chordPath v → v ∈ chordPath w) ∧
      prune 1 chordPath 1 = [0] ∧ prune 1 chordPath 3 = [2] :=
  ⟨rfl, by decide, by decide, chordPath_symm,
    (prune_keeps_first_connection 1 chordPath 0 [2, 3] rfl (by decide) (by decide)
      chordPath_symm).1, by decide⟩

/-- C18: in every generation attempt whose wiring completes, the adjacency after
edge insertion and the adjacency after both prunings are simple undirected
graphs: `A` lists `B` exactly when `B` lists `A`, no node lists itself and no
list holds a neighbour twice. -/
theorem adjacency_is_simple (N : Nat) (ds ds1 : List Nat) (bad : Bool)
    (c : Nat → List Nat) (h : wire N ds = some (bad, c, ds1)) :
    Simple c ∧
      ∃ c0, addEdges N (connectionsToMake N) (fun _ => []) ds = some (c0, ds1) ∧
        Simple c0 ∧ c = prune (N - 1) (prune 0 c0) ∧
        (∀ A B, B ∈ c0 A ↔ A ∈ c0 B) ∧ (∀ A B, B ∈ c A ↔ A ∈ c B) := by
  unfold wire at h
  split at h
  · simp at h
  · rename_i c0 ds0 ha
    simp only [Option.some.injEq, Prod.mk.injEq] at h
    obtain ⟨-, hc, hd⟩ := h
    subst hc hd
    have h0 : Simple c0 := addEdges_simple _ _ _ simple_empty ha
    have h1 : Simple (prune (N - 1) (prune 0 c0)) := prune_simple (prune_simple h0)
    exact ⟨h1, c0, ha, h0, rfl, fun A B => ⟨h0.1 A B, h0.1 B A⟩,
      fun A B => ⟨h1.1 A B, h1.1 B A⟩⟩

set_option maxRecDepth 100000 in
/-- C18, for the wiring of the attempt with the draws `drawsLeafPruned`. -/
theorem adjacency_is_simple_witness :
    wire 10 drawsLeafPruned =
        some ((wire 10 drawsLeafPruned).getD (false, fun _ => [], [])) ∧
      Simple ((wire 10 drawsLeafPruned).getD (false, fun _ => [], [])).2.1 :=
  ⟨Option.eq_some_getD _ (by decide),
    (adjacency_is_simple 10 drawsLeafPruned _ _ _
      (Option.eq_some_getD (false, fun _ => [], []) (by decide))).1⟩

/-! ### Termination and the pipeline law -/

theorem simulate_of_simLoop {nt : Net} {route : Nat → Bool} {N P fuel T : Nat}
    {ds : List Nat} {s : Sim}
    (h : simLoop nt route N P fuel 0 (Sim.start P ds) = Res.done (T, s)) :
    simulate nt route N P fuel ds = Res.done (T, s.badCounter) := by
  unfold simulate
  rw [h]

set_option maxRecDepth 100000 in
/-- C20, evaluated at `drawsStaleSink` on 10 nodes with one packet and
randomness 0: in the topology accepted in the second attempt, following
forwarding targets from `Start` first reaches `End` after 2 hops (0, 1, 9), all
targets on the way being set, so the pipeline law announces the final tick
count 2; but node 1, which `Start` still targets from the first attempt, has
lost its only connection in the pruning of `Start`, and the simulation takes
the "reached a sink node" exit instead of terminating. -/
theorem chain_through_isolated_node_aborts :
    (generate 10 11 2 Net.init drawsStaleSink).holds (fun _ => True) ∧
      FirstReaches acceptedStaleSink.efficientNeighbor (10 - 1) 0 2 ∧
      (acceptedStaleSink.connections 1).length = 0 ∧
      (simulate acceptedStaleSink (routingTest 2147483647 0) 10 1 11 [5]).isFatal = true := by
  rw [routingTest_zero]
  decide

/-- The pipeline law where every node of the chain has a connection: with
randomness 0 and `P ≥ 1` packets, if following forwarding targets from `Start`
first reaches `End` after `d ≥ 1` hops and every node on the way is a node with
at least one connection, then (given `d + P - 1` ticks of fuel and enough draws)
the simulation returns with final tick count exactly `d + P - 1`; at the start
of every tick `t` up to then `Start` holds `P - t` tokens and every other
non-sink node at most one. -/
theorem pipeline_tick_count (nt : Net) (N P d RAND_MAX fuel : Nat) (ds : List Nat)
    (hP : 1 ≤ P) (hd : 1 ≤ d)
    (hfr : FirstReaches nt.efficientNeighbor (N - 1) 0 d)
    (hnodes : ∀ i u, i < d → follow nt.efficientNeighbor 0 i = some u →
      u < N ∧ (nt.connections u).length ≠ 0)
    (hfuel : d + P - 1 ≤ fuel) (hdraws : N * (d + P - 1) ≤ ds.length) :
    (∃ bc, simulate nt (routingTest RAND_MAX 0) N P fuel ds = Res.done (d + P - 1, bc)) ∧
      ∀ t, t ≤ d + P - 1 →
        ∃ s, sweeps nt (routingTest RAND_MAX 0) N t 0 (Sim.start P ds) = Res.done s ∧
          (s.packets 0).length = P - t ∧
          ∀ v, v < N → v ≠ 0 → v ≠ N - 1 → (s.packets v).length ≤ 1 := by
  rw [routingTest_zero]
  have hc := chain_of_firstReaches hd hfr hnodes
  constructor
  · obtain ⟨s, hs, -⟩ := pipeline_simLoop hc hP ds hfuel hdraws
    exact ⟨s.badCounter, simulate_of_simLoop hs⟩
  · intro t ht
    obtain ⟨s, hs, hp, -⟩ := pipeline_sweeps hc hP ds t
      (le_trans (Nat.mul_le_mul_left N ht) hdraws)
    refine ⟨s, hs, ?_, ?_⟩
    · have := hp.len 0 (by omega)
      rw [hc.start] at this
      rw [this]
      simp [nPipe]
    · intro v hvN hv0 hvE
      by_cases hon : ∃ i, i < d ∧ v = (follow nt.efficientNeighbor 0 i).getD 0
      · obtain ⟨i, hi, hvi⟩ := hon
        have := hp.len i hi
        rw [← hvi] at this
        rw [this]
        have hi0 : i ≠ 0 := by
          intro e1
          rw [e1] at hvi
          exact hv0 (hvi.trans hc.start)
        simp only [nPipe, hi0, if_false]
        split_ifs <;> omega
      · have := hp.off v hvN hvE (fun i hi e1 => hon ⟨i, hi, e1⟩)
        rw [this]
        simp

theorem acceptedLine_nodes (i u : Nat) (hi : i < 4)
    (h : follow acceptedLine.efficientNeighbor 0 i = some u) :
    u < 10 ∧ (acceptedLine.connections u).length ≠ 0 := by
  have h0 : follow acceptedLine.efficientNeighbor 0 0 = some 0 := by decide
  have h1 : follow acceptedLine.efficientNeighbor 0 1 = some 1 := by decide
  have h2 : follow acceptedLine.efficientNeighbor 0 2 = some 2 := by decide
  have h3 : follow acceptedLine.efficientNeighbor 0 3 = some 3 := by decide
  interval_cases i
  · rw [h0] at h; cases h; decide
  · rw [h1] at h; cases h; decide
  · rw [h2] at h; cases h; decide
  · rw [h3] at h; cases h; decide

set_option maxRecDepth 100000 in
/-- The pipeline law on the accepted line topology (4 hops) with 2 packets: the
run takes 5 ticks. -/
theorem pipeline_tick_count_witness :
    1 ≤ 2 ∧ 1 ≤ 4 ∧ FirstReaches acceptedLine.efficientNeighbor (10 - 1) 0 4 ∧
      4 + 2 - 1 ≤ 6 ∧ 10 * (4 + 2 - 1) ≤ (List.replicate 50 0).length ∧
      ∃ bc, simulate acceptedLine (routingTest 2147483647 0) 10 2 6 (List.replicate 50 0) =
        Res.done (4 + 2 - 1, bc) :=
  ⟨by decide, by decide, by decide, by decide, by decide,
    (pipeline_tick_count acceptedLine 10 2 4 2147483647 6 (List.replicate 50 0) (by decide)
      (by decide) (by decide) acceptedLine_nodes (by decide) (by decide)).1⟩

/-- C12 (amended): with randomness 0 and `P ≥ 1` packets, on a topology in which
following forwarding targets from `Start` first reaches `End` after `d ≥ 1` hops
through nodes that each have a connection, the tick loop returns after finitely
many ticks, the queue of `End` then holding `P` tokens. -/
theorem tick_loop_terminates_without_randomness (nt : Net) (N P d RAND_MAX fuel : Nat)
    (ds : List Nat) (hP : 1 ≤ P) (hd : 1 ≤ d)
    (hfr : FirstReaches nt.efficientNeighbor (N - 1) 0 d)
    (hnodes : ∀ i u, i < d → follow nt.efficientNeighbor 0 i = some u →
      u < N ∧ (nt.connections u).length ≠ 0)
    (hfuel : d + P - 1 ≤ fuel) (hdraws : N * (d + P - 1) ≤ ds.length) :
    ∃ T s, simLoop nt (routingTest RAND_MAX 0) N P fuel 0 (Sim.start P ds) =
        Res.done (T, s) ∧ (s.packets (N - 1)).length = P := by
  rw [routingTest_zero]
  have hc := chain_of_firstReaches hd hfr hnodes
  obtain ⟨s, hs, hp⟩ := pipeline_simLoop hc hP ds hfuel hdraws
  refine ⟨d + P - 1, s, hs, ?_⟩
  rw [hp.sink, ePipe]
  omega

set_option maxRecDepth 100000 in
/-- C12 (amended), on the accepted line topology with 3 packets. -/
theorem tick_loop_terminates_witness :
    1 ≤ 3 ∧ 1 ≤ 4 ∧ FirstReaches acceptedLine.efficientNeighbor (10 - 1) 0 4 ∧
      4 + 3 - 1 ≤ 6 ∧ 10 * (4 + 3 - 1) ≤ (List.replicate 60 0).length ∧
      ∃ T s, simLoop acceptedLine (routingTest 2147483647 0) 10 3 6 0
          (Sim.start 3 (List.replicate 60 0)) = Res.done (T, s) ∧
        (s.packets (10 - 1)).length = 3 :=
  ⟨by decide, by decide, by decide, by decide, by decide,
    tick_loop_terminates_without_randomness acceptedLine 10 3 4 2147483647 6
      (List.replicate 60 0) (by decide) (by decide) (by decide) acceptedLine_nodes
      (by decide) (by decide)⟩

/-! ### A random route that never reaches `End` -/

theorem bouncing_step {route : Nat → Bool} (hroute : route 0 = true) {t k : Nat}
    {s s1 : Sim} (hi : Bouncing t (k + 1) s)
    (h : processNode acceptedLine route 10 t k s = Res.done s1) : Bouncing t k s1 := by
  have hc0 : acceptedLine.connections 0 = [1] := by decide
  have hc1 : acceptedLine.connections 1 = [0, 2] := by decide
  obtain ⟨a, x, m, ha, hp, hd, hx⟩ := hi
  rcases processNode_done h with ⟨rfl, hstay⟩ | ⟨-, -, pre, y, post, dest, hq, -, hy, hr, hp1, -⟩
  · refine ⟨a, x, m, ha, hp, hd, ?_⟩
    rcases hx with ⟨hxt, hak⟩ | hx
    · left
      refine ⟨hxt, ?_⟩
      rcases Nat.lt_succ_iff_lt_or_eq.mp hak with hlt | rfl
      · exact hlt
      · exfalso
        rcases hstay with h9 | hnd
        · omega
        · refine hnd x ?_ hxt
          rw [hp, upd_same]
          exact List.mem_singleton.mpr rfl
    · exact Or.inr hx
  · have hka : k = a := by
      by_contra hne
      rw [hp, upd_other _ _ hne] at hq
      exact absurd hq (by simp)
    subst hka
    rw [hp, upd_same] at hq
    have hpre : pre = [] := by
      cases pre with
      | nil => rfl
      | cons z zs => simp at hq
    subst hpre
    simp only [List.nil_append, List.cons.injEq] at hq
    obtain ⟨rfl, hpost⟩ := hq
    have hpost : post = [] := hpost.symm
    subst hpost
    obtain ⟨r, ds, hds, hcase⟩ := hr
    rw [hd] at hds
    have hm : ∃ m1, m = m1 + 1 ∧ r = 0 ∧ ds = List.replicate m1 0 := by
      cases m with
      | zero => simp at hds
      | succ m1 =>
        rw [List.replicate_succ, List.cons.injEq] at hds
        exact ⟨m1, rfl, hds.1.symm, hds.2.symm⟩
    obtain ⟨m1, -, rfl, rfl⟩ := hm
    rcases hcase with ⟨-, r2, hds2, hdest⟩ | ⟨hf, -, -⟩
    · have hm2 : ∃ m2, r2 = 0 ∧ s1.draws = List.replicate m2 0 := by
        cases m1 with
        | zero => simp at hds2
        | succ m2 =>
          rw [List.replicate_succ, List.cons.injEq] at hds2
          exact ⟨m2, hds2.1.symm, hds2.2.symm⟩
      obtain ⟨m2, rfl, hd1⟩ := hm2
      have hdest2 : (dest = 0 ∨ dest = 1) := by
        rcases ha with rfl | rfl
        · rw [hc0] at hdest
          right
          simpa using hdest
        · rw [hc1] at hdest
          left
          simpa using hdest
      refine ⟨dest, forwardedValue acceptedLine k x, m2, hdest2, ?_, hd1, Or.inr ?_⟩
      · rw [hp1, hp]
        funext w
        by_cases hw : w = dest
        · subst hw
          simp only [pushPacket, upd_same, List.map_nil, List.append_nil]
          by_cases hwk : w = k
          · subst hwk
            simp [upd_same]
          · rw [upd_other _ _ hwk, upd_other _ _ hwk]
            simp
        · simp only [pushPacket, List.map_nil, List.append_nil]
          rw [upd_other _ _ hw, upd_other _ _ hw]
          by_cases hwk : w = k
          · subst hwk
            simp [upd_same]
          · rw [upd_other _ _ hwk, upd_other _ _ hwk]
      · rw [forwardedValue_natAbs, hy]
    · rw [hroute] at hf
      exact absurd hf (by simp)

theorem bouncing_sweeps {route : Nat → Bool} (hroute : route 0 = true) (n k : Nat)
    (s : Sim)
    (h : sweeps acceptedLine route 10 k 0 (Sim.start 1 (List.replicate n 0)) = Res.done s) :
    s.packets (10 - 1) = [] := by
  have hinv := sweeps_induct (fun t s => Bouncing t 10 s)
    (fun t s s1 hi hs => by
      obtain ⟨a, x, m, ha, hp, hd, hx⟩ :=
        sweep_induct (fun k s => Bouncing t k s)
          (fun k s s1 hi hp => bouncing_step hroute hi hp) 10 s s1 hi hs
      refine ⟨a, x, m, ha, hp, hd, Or.inl ⟨?_, by omega⟩⟩
      rcases hx with ⟨-, hlt⟩ | hx
      · omega
      · exact hx)
    k 0 (Sim.start 1 (List.replicate n 0)) s
    ⟨0, 0, n, Or.inl rfl, rfl, rfl, Or.inl ⟨rfl, by omega⟩⟩ h
  obtain ⟨a, x, m, ha, hp, -, -⟩ := hinv
  rw [hp]
  rcases ha with rfl | rfl <;> rfl

set_option maxRecDepth 100000 in
/-- C12 (as stated, fails): on the accepted line topology (0-1-2-3-9), with one
packet, randomness 1.0 and every draw equal to 0, the token is sent from node 0
to node 1 and back for ever; no amount of ticks and no number of draws lets the
simulation return. -/
theorem random_route_never_terminates :
    (generate 10 11 1 Net.init drawsLeafPruned).holds (fun _ => True) ∧
      ¬ ∃ fuel n, (simulate acceptedLine (routingTest 2147483647 1) 10 1 fuel
        (List.replicate n 0)).holds (fun _ => True) := by
  refine ⟨by decide, ?_⟩
  rintro ⟨fuel, n, h⟩
  have hroute : routingTest 2147483647 1 0 = true := by
    rw [routingTest_draw_zero]
    simp
  cases hs : simulate acceptedLine (routingTest 2147483647 1) 10 1 fuel (List.replicate n 0) with
  | done r =>
    obtain ⟨t, bc⟩ := r
    obtain ⟨s, hsw, -, -, hlen⟩ := simulate_sweeps hs
    rw [bouncing_sweeps hroute n t s hsw] at hlen
    simp at hlen
  | fault => rw [hs] at h; exact h
  | timeout => rw [hs] at h; exact h
  | fatal => rw [hs] at h; exact h

end NetSim
